import Mathlib

/-!
Verification of the background-transparency engine of the
PersonalStickers applet.

The numeric core of the repository lives in `src/utils/transparency.ts`
(two versions of `makeBackgroundTransparent` in one file: a refactored
one, called V1 below, and an appended older one, called V2) and
`src/utils/image.ts` (`normalizeImageSize`).  JavaScript numbers are
modelled as rationals; the host `Math` functions whose exact values are
irrational (`Math.sqrt`, `Math.cbrt`, `Math.pow(·, 2.4)`, `Math.hypot`)
are taken as explicit function parameters, since they are host-library
calls.  JavaScript `NaN`/`undefined` propagation, which the older V2
version can hit, is modelled by `Option ℚ` with `none` for `NaN`;
comparisons with `NaN` are `false`, as in JavaScript.

The seed-point / cluster based variant of the engine that the spec
describes (its `seedPoints`, `mode` and `maxDimension` options) is not
present under `src/` — only its callers and its option types are — so
that part is modelled from the spec (definitions marked
`Modelled from the spec:`).
-/

namespace Js

/-- JavaScript `Math.round` on a rational: round half away from zero is
`Math.round`'s behaviour for halves going up; for all inputs
`Math.round x = ⌊x + 1/2⌋`. -/
def round (q : ℚ) : ℤ := ⌊q + 1/2⌋

/-- Writing a number into a `Uint8ClampedArray` slot: clamp to [0, 255]
(the values written by the code are integers already). -/
def clampByte (z : ℤ) : ℕ := (max 0 (min 255 z)).toNat

/-- Inclusive integer range `[lo, hi]` as a list of naturals
(`for (let i = lo; i <= hi; i++)`). -/
def rangeIncl (lo hi : ℕ) : List ℕ := (List.range (hi + 1 - lo)).map (lo + ·)


/-- Stable ascending insertion sort: the result of
`Array.prototype.sort((a, b) => a - b)`, which is specified as a stable
ascending sort (any stable sort yields the same list, and insertion
sort reduces in the kernel). -/
def insertSorted (a : ℚ) : List ℚ → List ℚ
  | [] => [a]
  | b :: t => if a ≤ b then a :: b :: t else b :: insertSorted a t

/-- JavaScript numeric array sort. -/
def sortAsc (l : List ℚ) : List ℚ := l.foldr insertSorted []

/-- `for (let i = 0; i < n; i += step)` with `step ≥ 1`. -/
def rangeStep (n step : ℕ) : List ℕ :=
  (List.range ((n + step - 1) / step)).map (· * step)

end Js

namespace Image

/-! ## `src/utils/image.ts` — `normalizeImageSize`

The canvas drawing and PNG re-encoding are host I/O; the dimension
computation is the algorithmic content.  `ctxOk` models whether
`canvas.getContext('2d')` succeeds. -/

/-- The dimensions produced by `normalizeImageSize` in
`src/utils/image.ts`: unchanged when the largest side is `0` (falsy) or
at most `maxDimension`, or when the 2D context cannot be acquired;
otherwise both sides scaled by `maxDimension / largestSide`, rounded,
and forced to be at least 1. -/
def normalizeImageSize (w h : ℕ) (maxDimension : ℚ) (ctxOk : Bool) : ℕ × ℕ :=
  let largestSide : ℕ := max w h
  if largestSide = 0 ∨ (largestSide : ℚ) ≤ maxDimension then (w, h)
  else if ¬ctxOk then (w, h)
  else
    let scale : ℚ := maxDimension / (largestSide : ℚ)
    (max 1 (Js.round ((w : ℚ) * scale)).toNat, max 1 (Js.round ((h : ℚ) * scale)).toNat)

end Image

namespace Js

theorem round_nonneg {q : ℚ} (h : 0 ≤ q) : 0 ≤ round q := by
  unfold round
  have : (0 : ℚ) ≤ q + 1/2 := by linarith
  exact Int.le_floor.mpr (by exact_mod_cast this)

theorem round_le_round {q r : ℚ} (h : q ≤ r) : round q ≤ round r :=
  Int.floor_le_floor (by linarith)

theorem abs_round_sub_le (q : ℚ) : |(round q : ℚ) - q| ≤ 1/2 := by
  unfold round
  have h1 : (⌊q + 1/2⌋ : ℚ) ≤ q + 1/2 := Int.floor_le _
  have h2 : q + 1/2 - 1 < (⌊q + 1/2⌋ : ℚ) := by
    have := Int.lt_floor_add_one (q + 1/2)
    linarith
  rw [abs_le]
  constructor <;> linarith

theorem insertSorted_length (a : ℚ) (l : List ℚ) :
    (insertSorted a l).length = l.length + 1 := by
  induction l with
  | nil => rfl
  | cons b t ih =>
    unfold insertSorted
    by_cases h : a ≤ b
    · rw [if_pos h]
      rfl
    · rw [if_neg h]
      simp [ih]

theorem mem_insertSorted {a v : ℚ} {l : List ℚ} :
    v ∈ insertSorted a l ↔ v = a ∨ v ∈ l := by
  induction l with
  | nil => simp [insertSorted]
  | cons b t ih =>
    unfold insertSorted
    by_cases h : a ≤ b
    · rw [if_pos h]
      simp
    · rw [if_neg h]
      simp only [List.mem_cons, ih]
      tauto

theorem sortAsc_length (l : List ℚ) : (sortAsc l).length = l.length := by
  induction l with
  | nil => rfl
  | cons a t ih =>
    unfold sortAsc at ih ⊢
    simp only [List.foldr_cons]
    rw [insertSorted_length, ih]
    rfl

theorem mem_sortAsc {v : ℚ} {l : List ℚ} : v ∈ sortAsc l ↔ v ∈ l := by
  induction l with
  | nil => simp [sortAsc]
  | cons a t ih =>
    unfold sortAsc at ih ⊢
    simp only [List.foldr_cons]
    rw [mem_insertSorted]
    simp only [List.mem_cons, ih]

end Js

namespace Image

/-- Both output sides of the downscale branch, for the ordered pair
`b ≤ a` with `maxD < a`: the larger output equals `round maxD` and the
smaller output is within one pixel of the exact aspect-preserving
value. -/
theorem downscale_sides (a b : ℕ) (maxD : ℚ) (hba : b ≤ a)
    (hmax : 1 ≤ maxD) (hlt : maxD < (a : ℚ)) :
    max 1 (Js.round ((b : ℚ) * (maxD / (a : ℚ)))).toNat ≤
      max 1 (Js.round ((a : ℚ) * (maxD / (a : ℚ)))).toNat ∧
    ((max 1 (Js.round ((a : ℚ) * (maxD / (a : ℚ)))).toNat : ℤ) = Js.round maxD) ∧
    |((max 1 (Js.round ((b : ℚ) * (maxD / (a : ℚ)))).toNat : ℚ)) -
        (b : ℚ) * maxD / (a : ℚ)| ≤ 1 := by
  have ha0 : (0 : ℚ) < (a : ℚ) := lt_of_le_of_lt (by linarith) hlt
  have hscale : (a : ℚ) * (maxD / (a : ℚ)) = maxD := by
    field_simp
  have hb : (b : ℚ) * maxD / (a : ℚ) = (b : ℚ) * (maxD / (a : ℚ)) := by
    ring
  set e : ℚ := (b : ℚ) * (maxD / (a : ℚ)) with he
  have he0 : 0 ≤ e := by
    rw [← hb]
    apply div_nonneg
    · have : (0 : ℚ) ≤ (b : ℚ) := Nat.cast_nonneg b
      nlinarith
    · exact le_of_lt ha0
  have hra1 : 1 ≤ Js.round maxD := by
    unfold Js.round
    exact Int.le_floor.mpr (by push_cast; linarith)
  have hmono : Js.round e ≤ Js.round maxD := by
    apply Js.round_le_round
    rw [← hb, div_le_iff₀ ha0]
    have hba' : (b : ℚ) ≤ (a : ℚ) := by exact_mod_cast hba
    nlinarith
  have hrb0 : 0 ≤ Js.round e := Js.round_nonneg he0
  rw [hscale, hb]
  have habs := Js.abs_round_sub_le e
  refine ⟨?_, ?_, ?_⟩
  · apply max_le_max (le_refl 1)
    exact Int.toNat_le_toNat (by exact hmono : Js.round e ≤ Js.round maxD)
  · have h1 : (1 : ℤ) ≤ ((Js.round maxD).toNat : ℤ) := by omega
    rw [max_eq_right h1]
    omega
  · rcases Nat.eq_zero_or_pos (Js.round e).toNat with h0 | hpos
    · have hr0 : Js.round e = 0 := by omega
      rw [hr0] at habs
      have hqlt : e ≤ 1/2 := by
        rw [abs_le] at habs
        push_cast at habs
        linarith [habs.1]
      rw [h0]
      have hmax10 : (1 : ℚ) ⊔ ((0 : ℕ) : ℚ) = 1 := by norm_num
      rw [hmax10]
      rw [abs_le]
      constructor <;> linarith
    · have hmaxr : (1 : ℚ) ⊔ (((Js.round e).toNat : ℕ) : ℚ) =
          (((Js.round e).toNat : ℕ) : ℚ) := by
        apply max_eq_right
        exact_mod_cast hpos
      rw [hmaxr]
      have hcast : (((Js.round e).toNat : ℕ) : ℚ) = ((Js.round e : ℤ) : ℚ) := by
        exact_mod_cast congrArg (fun z : ℤ => (z : ℚ)) (Int.toNat_of_nonneg hrb0)
      rw [hcast]
      rw [abs_le] at habs ⊢
      constructor <;> linarith [habs.1, habs.2]

/-- C9: for every input image whose longer side exceeds `maxDimension`
(with `maxDimension ≥ 1` and a working 2D context), `normalizeImageSize`
returns an image whose longer side equals `maxDimension` after rounding
and whose shorter side preserves the aspect ratio to within 1 pixel;
for every image whose longer side is at most `maxDimension`, the input
dimensions are returned unchanged. -/
theorem normalizeImageSize_downscale_guarantee (w h : ℕ) (maxD : ℚ)
    (hmax : 1 ≤ maxD) :
    (((max w h : ℕ) : ℚ) ≤ maxD → normalizeImageSize w h maxD true = (w, h)) ∧
    (maxD < ((max w h : ℕ) : ℚ) →
      ((max (normalizeImageSize w h maxD true).1
          (normalizeImageSize w h maxD true).2 : ℕ) : ℤ) = Js.round maxD ∧
      |((min (normalizeImageSize w h maxD true).1
          (normalizeImageSize w h maxD true).2 : ℕ) : ℚ) -
        ((min w h : ℕ) : ℚ) * maxD / ((max w h : ℕ) : ℚ)| ≤ 1) := by
  constructor
  · intro hle
    unfold normalizeImageSize
    rw [if_pos (Or.inr hle)]
  · intro hgt
    have hne : ¬(max w h = 0 ∨ ((max w h : ℕ) : ℚ) ≤ maxD) := by
      push_neg
      constructor
      · intro h0
        rw [h0] at hgt
        push_cast at hgt
        linarith
      · linarith
    unfold normalizeImageSize
    rw [if_neg hne, if_neg (show ¬¬((true : Bool) = true) by simp)]
    rcases le_total h w with hhw | hwh
    · have hmaxwh : max w h = w := max_eq_left hhw
      have hminwh : min w h = h := min_eq_right hhw
      rw [hmaxwh] at hgt
      obtain ⟨hle', heq, habs⟩ := downscale_sides w h maxD hhw hmax hgt
      rw [hmaxwh, hminwh]
      constructor
      · rw [max_eq_left hle']
        push_cast
        exact heq
      · rw [min_eq_right hle']
        push_cast
        exact habs
    · have hmaxwh : max w h = h := max_eq_right hwh
      have hminwh : min w h = w := min_eq_left hwh
      rw [hmaxwh] at hgt
      obtain ⟨hle', heq, habs⟩ := downscale_sides h w maxD hwh hmax hgt
      rw [hmaxwh, hminwh]
      constructor
      · rw [max_eq_right hle']
        push_cast
        exact heq
      · rw [min_eq_left hle']
        push_cast
        exact habs

/-- Witness for C9 at `w = 100`, `h = 50`, `maxDimension = 40`:
the hypotheses are concrete and the downscale branch is exercised. -/
theorem normalizeImageSize_downscale_guarantee_witness :
    (((max 100 50 : ℕ) : ℚ) ≤ 40 → normalizeImageSize 100 50 40 true = (100, 50)) ∧
    (40 < ((max 100 50 : ℕ) : ℚ) →
      ((max (normalizeImageSize 100 50 40 true).1
          (normalizeImageSize 100 50 40 true).2 : ℕ) : ℤ) = Js.round 40 ∧
      |((min (normalizeImageSize 100 50 40 true).1
          (normalizeImageSize 100 50 40 true).2 : ℕ) : ℚ) -
        ((min 100 50 : ℕ) : ℚ) * 40 / ((max 100 50 : ℕ) : ℚ)| ≤ 1) :=
  normalizeImageSize_downscale_guarantee 100 50 40 (by norm_num)

end Image

/-! ## Shared data model for `src/utils/transparency.ts` -/

/-- The host `Math` functions whose exact values are irrational.  They
are parameters of the embedding: the algorithms only feed them rational
arguments and use their rational outputs. -/
structure MathFns where
  sqrt : ℚ → ℚ
  cbrt : ℚ → ℚ
  pow24 : ℚ → ℚ
  hypot2 : ℚ → ℚ → ℚ
  hypot3 : ℚ → ℚ → ℚ → ℚ

/-- `mode` field of `TransparencyOptions` (`src/types.ts`). -/
inductive Mode
  | auto
  | seed
  | autoSeed
deriving DecidableEq

/-- `TransparencySeed` (`src/types.ts`). -/
structure Seed where
  x : ℕ
  y : ℕ
  force : Bool
deriving DecidableEq

/-- `TransparencyOptions` (`src/types.ts`), after the destructuring
defaults of `makeBackgroundTransparent` have been applied.  The two
implementations in `src/utils/transparency.ts` read only the four
numeric fields; `seedPoints` and `mode` exist in the type and are used
by callers, so they are carried here and ignored by the V1/V2 models. -/
structure Options where
  colorTol : ℚ
  tileGuess : ℚ
  gradKeep : ℚ
  feather : ℚ
  seedPoints : List Seed
  mode : Mode

/-- The option record produced by calling with `{}` (all defaults). -/
def Options.default : Options :=
  { colorTol := 10, tileGuess := 16, gradKeep := 10, feather := 2
    seedPoints := [], mode := Mode.auto }

namespace V1

/-! ## V1: the refactored `makeBackgroundTransparent`
(`src/utils/transparency.ts`, lines 1–327).

All dense per-pixel arrays (`Float32Array`, `Uint8Array`) are modelled
as `List`s indexed row-major, read through `List.getD` (every V1 read
is in bounds for well-formed input, so the `getD` default is never the
value of an out-of-range JavaScript read). -/

/-- `srgbToLinear` (line 15). -/
def srgbToLinear (M : MathFns) (value : ℚ) : ℚ :=
  if value ≤ 0.04045 then value / 12.92 else M.pow24 ((value + 0.055) / 1.055)

/-- `labF` (line 18). -/
def labF (M : MathFns) (t : ℚ) : ℚ :=
  if 0.008856 < t then M.cbrt t else 7.787 * t + 16 / 116

/-- `rgbToLab` (lines 20–37), returning `(L, a, b)`. -/
def rgbToLab (M : MathFns) (r g b : ℚ) : ℚ × ℚ × ℚ :=
  let R := srgbToLinear M (r / 255)
  let G := srgbToLinear M (g / 255)
  let B := srgbToLinear M (b / 255)
  let X := 0.4124564 * R + 0.3575761 * G + 0.1804375 * B
  let Y := 0.2126729 * R + 0.7151522 * G + 0.072175 * B
  let Z := 0.0193339 * R + 0.119192 * G + 0.9503041 * B
  let fx := labF M (X / 0.95047)
  let fy := labF M (Y / 1.0)
  let fz := labF M (Z / 1.08883)
  (116 * fy - 16, 500 * (fx - fy), 200 * (fy - fz))

/-- `distLab` (lines 39–44). -/
def distLab (M : MathFns) (l a b : ℚ) (ref : ℚ × ℚ × ℚ) : ℚ :=
  let dL := l - ref.1
  let dA := a - ref.2.1
  let dB := b - ref.2.2
  M.sqrt (dL * dL + dA * dA + dB * dB)

/-- `medianColor` (lines 46–55): per-channel ascending sort, element at
index `⌊length/2⌋`.  (`Array.prototype.sort` with the numeric comparator
is a stable ascending sort.)  V1 only calls this on nonempty lists; the
`getD` default stands in for the out-of-range read that JavaScript
would make on an empty list. -/
def medianColor (samples : List (ℚ × ℚ × ℚ)) : ℚ × ℚ × ℚ :=
  let rs := Js.sortAsc (samples.map (·.1))
  let gs := Js.sortAsc (samples.map (·.2.1))
  let bs := Js.sortAsc (samples.map (·.2.2))
  (rs.getD (rs.length / 2) 0, gs.getD (gs.length / 2) 0, bs.getD (bs.length / 2) 0)

/-- `pickPatch` (lines 57–75): RGB triples of the patch
`[x0, min(width, x0+size)) × [y0, min(height, y0+size))`, row-major. -/
def pickPatch (data : List ℚ) (width height x0 y0 : ℕ) (size : ℕ := 24) :
    List (ℚ × ℚ × ℚ) :=
  let xEnd := min width (x0 + size)
  let yEnd := min height (y0 + size)
  ((List.range (yEnd - y0)).map (y0 + ·)).flatMap fun y =>
    ((List.range (xEnd - x0)).map (x0 + ·)).map fun x =>
      let offset := (y * width + x) * 4
      (data.getD offset 0, data.getD (offset + 1) 0, data.getD (offset + 2) 0)

/-- `applyFeather` (lines 77–110): no-op for `radius ≤ 0`, otherwise a
horizontal boundary-clamped box-mean pass into `tmp` followed by a
vertical pass back into the mask. -/
def applyFeather (mask : List ℚ) (width height : ℕ) (radius : ℤ) : List ℚ :=
  if radius ≤ 0 then mask
  else
    let r := radius.toNat
    let tmp : List ℚ :=
      (List.range height).flatMap fun y =>
        (List.range width).map fun x =>
          let start := x - r
          let e := min (width - 1) (x + r)
          let sum := ((Js.rangeIncl start e).map fun xi =>
            mask.getD (y * width + xi) 0).sum
          sum / ((e - start + 1 : ℕ) : ℚ)
    (List.range height).flatMap fun y =>
      (List.range width).map fun x =>
        let start := y - r
        let e := min (height - 1) (y + r)
        let sum := ((Js.rangeIncl start e).map fun yi =>
          tmp.getD (yi * width + x) 0).sum
        sum / ((e - start + 1 : ℕ) : ℚ)

/-- Lab conversion of every pixel (lines 139–153), `(L, a, b)` per
pixel, row-major; `data` holds RGBA bytes, pixel `p` at offset `4p`. -/
def labArr (M : MathFns) (total : ℕ) (data : List ℚ) : List (ℚ × ℚ × ℚ) :=
  (List.range total).map fun p =>
    rgbToLab M (data.getD (4 * p) 0) (data.getD (4 * p + 1) 0) (data.getD (4 * p + 2) 0)

/-- Luminance of every pixel (line 152). -/
def lumArr (total : ℕ) (data : List ℚ) : List ℚ :=
  (List.range total).map fun p =>
    0.2126 * data.getD (4 * p) 0 + 0.7152 * data.getD (4 * p + 1) 0 +
      0.0722 * data.getD (4 * p + 2) 0

/-- The four corner patches (lines 155–160); `Math.max(0, width - 24)`
is natural truncated subtraction. -/
def cornerSamples (data : List ℚ) (width height : ℕ) : List (ℚ × ℚ × ℚ) :=
  pickPatch data width height 0 0 ++
    pickPatch data width height (width - 24) 0 ++
    pickPatch data width height 0 (height - 24) ++
    pickPatch data width height (width - 24) (height - 24)

/-- The light/dark split of the corner samples and the two reference
colors (lines 162–180): samples whose `L` is at least the median `L` go
to `lightSamples`, the others to `darkSamples`; an empty side falls
back to all corner samples. -/
def references (M : MathFns) (data : List ℚ) (width height : ℕ) :
    (ℚ × ℚ × ℚ) × (ℚ × ℚ × ℚ) :=
  let corner := cornerSamples data width height
  let cornerLs := corner.map fun s => (rgbToLab M s.1 s.2.1 s.2.2).1
  let sortedL := Js.sortAsc cornerLs
  let medianL := sortedL.getD (sortedL.length / 2) 0
  let zipped := corner.zip cornerLs
  let lightSamples := (zipped.filter fun sc => medianL ≤ sc.2).map (·.1)
  let darkSamples := (zipped.filter fun sc => ¬ medianL ≤ sc.2).map (·.1)
  let c1 := medianColor (if lightSamples.isEmpty then corner else lightSamples)
  let c2 := medianColor (if darkSamples.isEmpty then corner else darkSamples)
  (c1, c2)

/-- `(⌊x / period⌋ + ⌊y / period⌋) & 1` (lines 189, 240).  Division by
zero follows the rational convention `q / 0 = 0` (the code only divides
by the positive periods of the search loop for any `tileGuess ≥ 2`). -/
def parity (x y : ℕ) (period : ℚ) : ℤ :=
  (⌊(x : ℚ) / period⌋ + ⌊(y : ℚ) / period⌋).emod 2

/-- `scorePeriod` (lines 182–199). -/
def scorePeriod (M : MathFns) (width height : ℕ) (lab : List (ℚ × ℚ × ℚ))
    (c1Lab c2Lab : ℚ × ℚ × ℚ) (colorTol period : ℚ) : ℕ :=
  let step := max 1 (width / 64)
  ((Js.rangeStep height step).flatMap fun y =>
    (Js.rangeStep width step).map fun x =>
      let index := y * width + x
      let l := lab.getD index (0, 0, 0)
      let dc1 := distLab M l.1 l.2.1 l.2.2 c1Lab
      let dc2 := distLab M l.1 l.2.1 l.2.2 c2Lab
      let m := if parity x y period = 1 then dc2 < dc1 else dc1 < dc2
      decide (min dc1 dc2 < colorTol ∧ m)).count true

/-- The period candidates of the search loop (lines 201–209):
`period = max(8, tileGuess - 6), …, ≤ tileGuess + 6` in steps of 1. -/
def periodCandidates (tileGuess : ℚ) : List ℚ :=
  let start := max 8 (tileGuess - 6)
  let n := if start ≤ tileGuess + 6 then (⌊tileGuess + 6 - start⌋ + 1).toNat else 0
  (List.range n).map fun k => start + (k : ℚ)

/-- The period search (lines 201–209): first candidate with the
strictly largest score wins; no candidate leaves `tileGuess`. -/
def bestPeriod (M : MathFns) (width height : ℕ) (lab : List (ℚ × ℚ × ℚ))
    (c1Lab c2Lab : ℚ × ℚ × ℚ) (colorTol tileGuess : ℚ) : ℚ :=
  ((periodCandidates tileGuess).foldl
    (fun best p =>
      let s : ℤ := scorePeriod M width height lab c1Lab c2Lab colorTol p
      if best.1 < s then (s, p) else best)
    ((-1 : ℤ), tileGuess)).2

/-- The Sobel gradient magnitude map (lines 211–233): zero outside the
interior, `hypot(gx, gy) / 8` inside. -/
def gradArr (M : MathFns) (width height : ℕ) (lum : List ℚ) : List ℚ :=
  (List.range height).flatMap fun y =>
    (List.range width).map fun x =>
      if 1 ≤ y ∧ y < height - 1 ∧ 1 ≤ x ∧ x < width - 1 then
        let l := fun (yy xx : ℕ) => lum.getD (yy * width + xx) 0
        let gx := -l (y-1) (x-1) - 2 * l y (x-1) - l (y+1) (x-1)
          + l (y-1) (x+1) + 2 * l y (x+1) + l (y+1) (x+1)
        let gy := -l (y-1) (x-1) - 2 * l (y-1) x - l (y-1) (x+1)
          + l (y+1) (x-1) + 2 * l (y+1) x + l (y+1) (x+1)
        M.hypot2 gx gy / 8
      else 0

/-- The likelihood map (lines 235–250). -/
def likeArr (M : MathFns) (width height : ℕ) (lab : List (ℚ × ℚ × ℚ))
    (grad : List ℚ) (c1Lab c2Lab : ℚ × ℚ × ℚ) (colorTol gradKeep period : ℚ) :
    List ℚ :=
  (List.range height).flatMap fun y =>
    (List.range width).map fun x =>
      let index := y * width + x
      let l := lab.getD index (0, 0, 0)
      let dc1 := distLab M l.1 l.2.1 l.2.2 c1Lab
      let dc2 := distLab M l.1 l.2.1 l.2.2 c2Lab
      let dc := if parity x y period = 1 then dc2 else dc1
      let likelihood := max 0 (1 - dc / colorTol)
      if gradKeep < grad.getD index 0 then likelihood * 0.2 else likelihood

end V1

namespace V1

/-- The region-growth state (lines 252–267): `like` is the likelihood
array (mutated to 1.0 at visited pixels), `seen` the `Uint8Array` flag
array, `queue` the pending entries from the read head on, and `tail`
the total number of writes made to the `queueX`/`queueY` arrays. -/
structure BfsState where
  like : List ℚ
  seen : List Bool
  queue : List (ℕ × ℕ)
  tail : ℕ

/-- `enqueue` (lines 258–267): a pixel already flagged in `seen` is
skipped; otherwise it is flagged before being written at index `tail`. -/
def enqueue (W : ℕ) (st : BfsState) (x y : ℕ) : BfsState :=
  let idx := y * W + x
  if st.seen.getD idx false then st
  else { st with
          seen := st.seen.set idx true
          queue := st.queue ++ [(x, y)]
          tail := st.tail + 1 }

/-- The border seeding loops (lines 269–279). -/
def seedBorder (W H : ℕ) (st : BfsState) : BfsState :=
  let st1 := (List.range W).foldl
    (fun st x =>
      let st' := if 1/2 < st.like.getD x 0 then enqueue W st x 0 else st
      if 1/2 < st'.like.getD ((H - 1) * W + x) 0 then enqueue W st' x (H - 1) else st')
    st
  (List.range H).foldl
    (fun st y =>
      let st' := if 1/2 < st.like.getD (y * W) 0 then enqueue W st 0 y else st
      if 1/2 < st'.like.getD (y * W + (W - 1)) 0 then enqueue W st' (W - 1) y else st')
    st1

/-- The neighbour offsets (lines 281–286), in source order. -/
def neighbours : List (ℤ × ℤ) := [(1, 0), (-1, 0), (0, 1), (0, -1)]

/-- One pass of the `while (head < tail)` body (lines 288–305) applied
to the head entry: commit `like[idx] = 1.0`, then test the four
neighbours in order. -/
def bfsPop (W H : ℕ) (st : BfsState) (x y : ℕ) (rest : List (ℕ × ℕ)) : BfsState :=
  let idx := y * W + x
  let st1 : BfsState := { st with queue := rest, like := st.like.set idx 1 }
  neighbours.foldl
    (fun s d =>
      let nx : ℤ := (x : ℤ) + d.1
      let ny : ℤ := (y : ℤ) + d.2
      if nx < 0 ∨ (W : ℤ) ≤ nx ∨ ny < 0 ∨ (H : ℤ) ≤ ny then s
      else
        let nIdx := ny.toNat * W + nx.toNat
        if ¬ s.seen.getD nIdx false ∧ 1/2 < s.like.getD nIdx 0 then
          enqueue W s nx.toNat ny.toNat
        else s)
    st1

/-- The BFS loop (lines 288–305), with explicit fuel.  Every enqueue
flags a fresh pixel, so `W * H` units of fuel drain the queue (the C7
theorem); each unit of fuel processes one head entry. -/
def bfsLoop (W H : ℕ) : ℕ → BfsState → BfsState
  | 0, st => st
  | fuel + 1, st =>
    match st.queue with
    | [] => st
    | (x, y) :: rest => bfsLoop W H fuel (bfsPop W H st x y rest)

/-- The whole region growth (lines 252–305) starting from a likelihood
array: zeroed `seen`, empty queue, border seeding, then the loop. -/
def bfsRun (W H : ℕ) (like0 : List ℚ) : BfsState :=
  bfsLoop W H (W * H)
    (seedBorder W H
      { like := like0, seen := List.replicate (W * H) false, queue := [], tail := 0 })

/-- The binary mask (lines 307–310). -/
def mask0 (total : ℕ) (likeF : List ℚ) : List ℚ :=
  (List.range total).map fun i => if 1 ≤ likeF.getD i 0 then (1 : ℚ) else 0

/-- The feather stage (lines 312–315). -/
def featherStage (W H : ℕ) (feather : ℚ) (m : List ℚ) : List ℚ :=
  if 0 < feather then applyFeather m W H (max 1 ⌊feather⌋) else m

/-- All intermediates of one run of the numeric core of V1
`makeBackgroundTransparent` (lines 135–319), given the decoded RGBA
data of a `width × height` image. -/
structure Run where
  lab : List (ℚ × ℚ × ℚ)
  lum : List ℚ
  c1 : ℚ × ℚ × ℚ
  c2 : ℚ × ℚ × ℚ
  period : ℚ
  grad : List ℚ
  like0 : List ℚ
  bfs : BfsState
  mask : List ℚ

/-- Execute the numeric core of V1 on decoded pixel data. -/
def run (M : MathFns) (W H : ℕ) (data : List ℚ) (o : Options) : Run :=
  let total := W * H
  let lab := labArr M total data
  let lum := lumArr total data
  let refs := references M data W H
  let c1Lab := rgbToLab M refs.1.1 refs.1.2.1 refs.1.2.2
  let c2Lab := rgbToLab M refs.2.1 refs.2.2.1 refs.2.2.2
  let period := bestPeriod M W H lab c1Lab c2Lab o.colorTol o.tileGuess
  let grad := gradArr M W H lum
  let like0 := likeArr M W H lab grad c1Lab c2Lab o.colorTol o.gradKeep period
  let bfs := bfsRun W H like0
  let m0 := mask0 total bfs.like
  let m := featherStage W H o.feather m0
  { lab := lab, lum := lum, c1 := c1Lab, c2 := c2Lab, period := period
    grad := grad, like0 := like0, bfs := bfs, mask := m }

/-- The final RGBA buffer (lines 317–319): RGB bytes unchanged, alpha
overwritten with `Math.round((1 - mask) * 255)` through the
`Uint8ClampedArray` store. -/
def outData (M : MathFns) (W H : ℕ) (data : List ℚ) (o : Options) : List ℚ :=
  let m := (run M W H data o).mask
  (List.range (4 * (W * H))).map fun i =>
    if i % 4 = 3 then (Js.clampByte (Js.round ((1 - m.getD (i / 4) 0) * 255)) : ℚ)
    else data.getD i 0

/-- The collaborator environment of the full V1
`makeBackgroundTransparent` (lines 112–327): the awaited image load
(`none` when `Image` fires `onerror`), canvas-context acquisition, and
the host PNG encoder `canvas.toDataURL`. -/
structure Env where
  loadedImage : Option (ℕ × ℕ × List ℚ)
  ctxOk : Bool
  encodePng : List ℚ → String

/-- The full V1 `makeBackgroundTransparent` (lines 112–327): the `try`
body runs load → context → numeric core → encode, and the `catch`
resolves with the original `imageUrl` on either failure. -/
def makeBackgroundTransparent (M : MathFns) (env : Env) (imageUrl : String)
    (o : Options) : String :=
  match env.loadedImage with
  | none => imageUrl
  | some (W, H, data) =>
    if env.ctxOk then env.encodePng (outData M W H data o) else imageUrl

end V1

namespace V1

theorem getD_eq_false_of_le {l : List Bool} {i : ℕ} (h : l.length ≤ i) :
    l.getD i false = false := by
  simp [List.getD_eq_getElem?_getD, List.getElem?_eq_none h]

theorem count_true_set {l : List Bool} {i : ℕ} (hi : i < l.length)
    (hf : l[i] = false) :
    (l.set i true).count true = l.count true + 1 := by
  rw [List.count_set true true l i hi]
  simp [hf]

theorem count_true_lt {l : List Bool} {i : ℕ} (hi : i < l.length)
    (hf : l[i] = false) : l.count true < l.length := by
  have h1 := count_true_set hi hf
  have h2 := List.count_le_length true (l.set i true)
  rw [List.length_set] at h2
  omega

theorem getD_false_elem {l : List Bool} {i : ℕ}
    (h : l.getD i false = false) (hi : i < l.length) : l[i] = false := by
  rw [List.getD_eq_getElem?_getD, List.getElem?_eq_getElem hi] at h
  simpa using h

/-- The state well-formedness maintained by the region growth of V1:
array lengths, `tail` equal to the number of `seen` flags set, and at
most `tail` entries pending in the queue. -/
def Inv (W H : ℕ) (st : BfsState) : Prop :=
  st.like.length = W * H ∧ st.seen.length = W * H ∧
    st.tail = st.seen.count true ∧ st.queue.length ≤ st.tail

/-- The drain measure: pending queue entries plus unflagged pixels. -/
def measureOf (W H : ℕ) (st : BfsState) : ℕ :=
  st.queue.length + (W * H - st.seen.count true)

theorem measure_le_of_inv {W H : ℕ} {st : BfsState} (h : Inv W H st) :
    measureOf W H st ≤ W * H := by
  obtain ⟨-, hseen, htail, hq⟩ := h
  have := List.count_le_length true st.seen
  unfold measureOf
  omega

theorem enqueue_inv {W H : ℕ} {st : BfsState} {x y : ℕ}
    (h : Inv W H st) (hidx : y * W + x < W * H) :
    Inv W H (enqueue W st x y) ∧
      measureOf W H (enqueue W st x y) ≤ measureOf W H st ∧
      st.tail ≤ (enqueue W st x y).tail ∧
      st.like = (enqueue W st x y).like := by
  obtain ⟨hlike, hseen, htail, hq⟩ := h
  unfold enqueue
  by_cases hs : st.seen.getD (y * W + x) false
  · rw [if_pos hs]
    exact ⟨⟨hlike, hseen, htail, hq⟩, le_refl _, le_refl _, rfl⟩
  · rw [if_neg hs]
    rw [Bool.not_eq_true] at hs
    have hi : y * W + x < st.seen.length := by omega
    have hgf : st.seen[y * W + x] = false := getD_false_elem hs hi
    have hcount := count_true_set hi hgf
    have hlt := count_true_lt hi hgf
    refine ⟨⟨hlike, ?_, ?_, ?_⟩, ?_, ?_, rfl⟩
    · simpa [List.length_set] using hseen
    · rw [hcount, htail]
    · simp only [List.length_append, List.length_cons, List.length_nil]
      omega
    · unfold measureOf
      simp only [List.length_append, List.length_cons, List.length_nil, hcount]
      omega
    · simp

end V1

namespace V1

theorem getD_default_of_le {α : Type} (l : List α) (d : α) {i : ℕ}
    (h : l.length ≤ i) : l.getD i d = d := by
  simp [List.getD_eq_getElem?_getD, List.getElem?_eq_none h]

theorem idx_lt_of_like_guard {W H : ℕ} {st : BfsState} {i : ℕ}
    (hlen : st.like.length = W * H) (h : 1/2 < st.like.getD i 0) : i < W * H := by
  by_contra hge
  rw [getD_default_of_le st.like 0 (by omega)] at h
  norm_num at h

theorem foldl_preserve {α : Type} {P : BfsState → Prop} {f : BfsState → α → BfsState}
    (hf : ∀ st a, P st → P (f st a)) :
    ∀ (l : List α) (st : BfsState), P st → P (List.foldl f st l) := by
  intro l
  induction l with
  | nil => intro st h; exact h
  | cons a tl ih =>
    intro st h
    exact ih (f st a) (hf st a h)

/-- A conditional enqueue whose guard tests the likelihood at exactly
the enqueued pixel's index preserves the invariant, does not increase
the drain measure, does not decrease `tail`, and leaves `like`
untouched. -/
theorem enqueue_cond_inv (W H : ℕ) (st : BfsState) (x y i : ℕ)
    (h : Inv W H st) (heq : y * W + x = i) :
    Inv W H (if 1/2 < st.like.getD i 0 then enqueue W st x y else st) ∧
      measureOf W H (if 1/2 < st.like.getD i 0 then enqueue W st x y else st) ≤
        measureOf W H st ∧
      st.tail ≤ (if 1/2 < st.like.getD i 0 then enqueue W st x y else st).tail ∧
      st.like = (if 1/2 < st.like.getD i 0 then enqueue W st x y else st).like := by
  by_cases hg : 1/2 < st.like.getD i 0
  · rw [if_pos hg]
    have hidx : y * W + x < W * H := heq ▸ idx_lt_of_like_guard h.1 hg
    exact enqueue_inv h hidx
  · rw [if_neg hg]
    exact ⟨h, le_refl _, le_refl _, rfl⟩

/-- `seedBorder` preserves the invariant and the likelihood array. -/
theorem seedBorder_inv {W H : ℕ} {st : BfsState} (h : Inv W H st) :
    Inv W H (seedBorder W H st) ∧ (seedBorder W H st).like = st.like := by
  unfold seedBorder
  have hx : ∀ (s : BfsState) (x : ℕ), (Inv W H s ∧ s.like = st.like) →
      (Inv W H
        (let s' := if 1/2 < s.like.getD x 0 then enqueue W s x 0 else s
          if 1/2 < s'.like.getD ((H - 1) * W + x) 0 then enqueue W s' x (H - 1) else s') ∧
      (let s' := if 1/2 < s.like.getD x 0 then enqueue W s x 0 else s
        if 1/2 < s'.like.getD ((H - 1) * W + x) 0 then enqueue W s' x (H - 1) else s').like =
        st.like) := by
    intro s x hPs
    obtain ⟨hs, hl⟩ := hPs
    obtain ⟨h1, -, -, h4⟩ := enqueue_cond_inv W H s x 0 x hs (by omega)
    obtain ⟨h1', -, -, h4'⟩ := enqueue_cond_inv W H
      (if 1/2 < s.like.getD x 0 then enqueue W s x 0 else s) x (H - 1)
      ((H - 1) * W + x) h1 rfl
    exact ⟨h1', h4'.symm.trans (h4.symm.trans hl)⟩
  have hy : ∀ (s : BfsState) (y : ℕ), (Inv W H s ∧ s.like = st.like) →
      (Inv W H
        (let s' := if 1/2 < s.like.getD (y * W) 0 then enqueue W s 0 y else s
          if 1/2 < s'.like.getD (y * W + (W - 1)) 0 then enqueue W s' (W - 1) y else s') ∧
      (let s' := if 1/2 < s.like.getD (y * W) 0 then enqueue W s 0 y else s
        if 1/2 < s'.like.getD (y * W + (W - 1)) 0 then enqueue W s' (W - 1) y else s').like =
        st.like) := by
    intro s y hPs
    obtain ⟨hs, hl⟩ := hPs
    obtain ⟨h1, -, -, h4⟩ := enqueue_cond_inv W H s 0 y (y * W) hs (by omega)
    obtain ⟨h1', -, -, h4'⟩ := enqueue_cond_inv W H
      (if 1/2 < s.like.getD (y * W) 0 then enqueue W s 0 y else s) (W - 1) y
      (y * W + (W - 1)) h1 rfl
    exact ⟨h1', h4'.symm.trans (h4.symm.trans hl)⟩
  have hmid := foldl_preserve (P := fun s => Inv W H s ∧ s.like = st.like)
    hx (List.range W) st ⟨h, rfl⟩
  exact foldl_preserve (P := fun s => Inv W H s ∧ s.like = st.like)
    hy (List.range H) _ hmid

end V1

namespace V1

/-- Processing one head entry preserves the invariant and strictly
decreases the drain measure. -/
theorem bfsPop_inv {W H : ℕ} {st : BfsState} {x y : ℕ} {rest : List (ℕ × ℕ)}
    (h : Inv W H st) (hq : st.queue = (x, y) :: rest) :
    Inv W H (bfsPop W H st x y rest) ∧
      measureOf W H (bfsPop W H st x y rest) < measureOf W H st := by
  obtain ⟨hlike, hseen, htail, hqlen⟩ := h
  unfold bfsPop
  set st1 : BfsState := { st with queue := rest, like := st.like.set (y * W + x) 1 }
    with hst1
  have hInv1 : Inv W H st1 := by
    refine ⟨?_, hseen, htail, ?_⟩
    · simpa [hst1, List.length_set] using hlike
    · have : st.queue.length = rest.length + 1 := by rw [hq]; simp
      simp only [hst1]
      omega
  have hm1 : measureOf W H st1 < measureOf W H st := by
    have : st.queue.length = rest.length + 1 := by rw [hq]; simp
    unfold measureOf
    simp only [hst1]
    omega
  have hfold := foldl_preserve
    (P := fun s => Inv W H s ∧ measureOf W H s ≤ measureOf W H st1)
    (f := fun s d =>
      let nx : ℤ := (x : ℤ) + d.1
      let ny : ℤ := (y : ℤ) + d.2
      if nx < 0 ∨ (W : ℤ) ≤ nx ∨ ny < 0 ∨ (H : ℤ) ≤ ny then s
      else
        let nIdx := ny.toNat * W + nx.toNat
        if ¬ s.seen.getD nIdx false ∧ 1/2 < s.like.getD nIdx 0 then
          enqueue W s nx.toNat ny.toNat
        else s)
    (fun s d hs => by
      obtain ⟨hsInv, hsm⟩ := hs
      by_cases hb : ((x : ℤ) + d.1) < 0 ∨ (W : ℤ) ≤ ((x : ℤ) + d.1) ∨
          ((y : ℤ) + d.2) < 0 ∨ (H : ℤ) ≤ ((y : ℤ) + d.2)
      · simp only [if_pos hb]
        exact ⟨hsInv, hsm⟩
      · simp only [if_neg hb]
        by_cases hc : ¬ s.seen.getD (((y : ℤ) + d.2).toNat * W + ((x : ℤ) + d.1).toNat) false ∧
            1/2 < s.like.getD (((y : ℤ) + d.2).toNat * W + ((x : ℤ) + d.1).toNat) 0
        · simp only [if_pos hc]
          have hidx : ((y : ℤ) + d.2).toNat * W + ((x : ℤ) + d.1).toNat < W * H :=
            idx_lt_of_like_guard hsInv.1 hc.2
          obtain ⟨hi, hm, -, -⟩ := enqueue_inv hsInv hidx
          exact ⟨hi, le_trans hm hsm⟩
        · simp only [if_neg hc]
          exact ⟨hsInv, hsm⟩)
    neighbours st1 ⟨hInv1, le_refl _⟩
  exact ⟨hfold.1, lt_of_le_of_lt hfold.2 hm1⟩

/-- The BFS loop preserves the invariant and, given fuel at least the
drain measure, empties the queue. -/
theorem bfsLoop_drain {W H : ℕ} :
    ∀ (fuel : ℕ) (st : BfsState), Inv W H st → measureOf W H st ≤ fuel →
      Inv W H (bfsLoop W H fuel st) ∧ (bfsLoop W H fuel st).queue = [] := by
  intro fuel
  induction fuel with
  | zero =>
    intro st h hm
    have : st.queue.length = 0 := by
      unfold measureOf at hm
      omega
    exact ⟨h, List.length_eq_zero.mp this⟩
  | succ n ih =>
    intro st h hm
    match hq : st.queue with
    | [] =>
      simp only [bfsLoop, hq]
      exact ⟨h, trivial⟩
    | (x, y) :: rest =>
      obtain ⟨hInv', hm'⟩ := bfsPop_inv h hq
      have := ih (bfsPop W H st x y rest) hInv' (by omega)
      simpa only [bfsLoop, hq] using this

/-- The full region growth, on a likelihood array of the right length,
ends with a fully drained queue and the invariant intact. -/
theorem bfsRun_inv (W H : ℕ) (like0 : List ℚ) (hlen : like0.length = W * H) :
    Inv W H (bfsRun W H like0) ∧ (bfsRun W H like0).queue = [] := by
  unfold bfsRun
  have hInit : Inv W H
      { like := like0, seen := List.replicate (W * H) false, queue := [], tail := 0 } := by
    refine ⟨hlen, by simp, ?_, by simp⟩
    exact (List.count_eq_zero.mpr (by simp)).symm
  obtain ⟨hseed, -⟩ := seedBorder_inv hInit
  exact bfsLoop_drain (W * H) _ hseed (measure_le_of_inv hseed)

/-- Lengths of the row-major grids built by the pipeline. -/
theorem length_grid {α : Type} (W H : ℕ) (f : ℕ → ℕ → α) :
    ((List.range H).flatMap fun y => (List.range W).map (f y)).length = H * W := by
  rw [List.length_flatMap]
  have h1 : (List.length ∘ fun y => (List.range W).map (f y)) = fun _ => W := by
    funext y
    simp
  rw [h1, List.map_const', List.sum_replicate, List.length_range, smul_eq_mul]

theorem likeArr_length (M : MathFns) (W H : ℕ) (lab : List (ℚ × ℚ × ℚ))
    (grad : List ℚ) (c1 c2 : ℚ × ℚ × ℚ) (a b p : ℚ) :
    (likeArr M W H lab grad c1 c2 a b p).length = W * H := by
  unfold likeArr
  rw [length_grid]
  ring

end V1

/-- C7: for every image of width `W` and height `H` (and any `Math`
functions, pixel data and options), the region-growth BFS of V1
terminates with its queue fully drained within `W * H` iterations of
fuel, the total number of writes into the pre-allocated queue arrays
(`tail`) equals the number of pixels whose `seen` flag was set — each
pixel is enqueued at most once because the flag is set on insertion —
and therefore `tail` never exceeds `W * H`, so the two `Int32Array`
queues of capacity `W * H` are never written out of bounds. -/
theorem bfs_terminates_queue_in_bounds (M : MathFns) (W H : ℕ) (data : List ℚ)
    (o : Options) :
    ((V1.run M W H data o).bfs.queue = []) ∧
    ((V1.run M W H data o).bfs.tail = (V1.run M W H data o).bfs.seen.count true) ∧
    ((V1.run M W H data o).bfs.tail ≤ W * H) := by
  have hrun : (V1.run M W H data o).bfs =
      V1.bfsRun W H
        (V1.likeArr M W H (V1.labArr M (W * H) data)
          (V1.gradArr M W H (V1.lumArr (W * H) data))
          (V1.rgbToLab M (V1.references M data W H).1.1
            (V1.references M data W H).1.2.1 (V1.references M data W H).1.2.2)
          (V1.rgbToLab M (V1.references M data W H).2.1
            (V1.references M data W H).2.2.1 (V1.references M data W H).2.2.2)
          o.colorTol o.gradKeep
          (V1.bestPeriod M W H (V1.labArr M (W * H) data)
            (V1.rgbToLab M (V1.references M data W H).1.1
              (V1.references M data W H).1.2.1 (V1.references M data W H).1.2.2)
            (V1.rgbToLab M (V1.references M data W H).2.1
              (V1.references M data W H).2.2.1 (V1.references M data W H).2.2.2)
            o.colorTol o.tileGuess)) := rfl
  rw [hrun]
  obtain ⟨⟨-, hseen, htail, -⟩, hq⟩ :=
    V1.bfsRun_inv W H _ (V1.likeArr_length M W H _ _ _ _ _ _ _)
  refine ⟨hq, htail, ?_⟩
  have hcle := List.count_le_length true (V1.bfsRun W H
        (V1.likeArr M W H (V1.labArr M (W * H) data)
          (V1.gradArr M W H (V1.lumArr (W * H) data))
          (V1.rgbToLab M (V1.references M data W H).1.1
            (V1.references M data W H).1.2.1 (V1.references M data W H).1.2.2)
          (V1.rgbToLab M (V1.references M data W H).2.1
            (V1.references M data W H).2.2.1 (V1.references M data W H).2.2.2)
          o.colorTol o.gradKeep
          (V1.bestPeriod M W H (V1.labArr M (W * H) data)
            (V1.rgbToLab M (V1.references M data W H).1.1
              (V1.references M data W H).1.2.1 (V1.references M data W H).1.2.2)
            (V1.rgbToLab M (V1.references M data W H).2.1
              (V1.references M data W H).2.2.1 (V1.references M data W H).2.2.2)
            o.colorTol o.tileGuess))).seen
  omega

/-- A concrete instantiation of the host `Math` functions, used by
witnesses and counterexamples. -/
def MathFns.zero : MathFns :=
  { sqrt := fun _ => 0, cbrt := fun _ => 0, pow24 := fun _ => 0
    hypot2 := fun _ _ => 0, hypot3 := fun _ _ _ => 0 }

/-- C1: for every image URL and every options value (and every host
environment and `Math` library), V1 `makeBackgroundTransparent` never
propagates an error: if the image fails to load or the 2D context
cannot be acquired, the returned promise resolves with the original
input URL unchanged; in every case it resolves either with the original
URL or with the encoded processed image. -/
theorem makeBackgroundTransparent_never_rejects (M : MathFns) (env : V1.Env)
    (imageUrl : String) (o : Options) :
    (env.loadedImage = none ∨ env.ctxOk = false →
      V1.makeBackgroundTransparent M env imageUrl o = imageUrl) ∧
    (V1.makeBackgroundTransparent M env imageUrl o = imageUrl ∨
      ∃ W H data, env.loadedImage = some (W, H, data) ∧
        V1.makeBackgroundTransparent M env imageUrl o =
          env.encodePng (V1.outData M W H data o)) := by
  obtain ⟨load, ctx, enc⟩ := env
  match load with
  | none => exact ⟨fun _ => rfl, Or.inl rfl⟩
  | some (W, H, data) =>
    cases ctx with
    | false => exact ⟨fun _ => rfl, Or.inl rfl⟩
    | true =>
      refine ⟨fun hfail => ?_, Or.inr ⟨W, H, data, rfl, rfl⟩⟩
      rcases hfail with hn | hctx
      · exact absurd hn (by simp)
      · exact absurd hctx (by simp)

/-- Witness for C1: a failing image load returns the input URL. -/
theorem makeBackgroundTransparent_never_rejects_witness :
    ({ loadedImage := none, ctxOk := true, encodePng := fun _ => ""} : V1.Env).loadedImage
        = none ∨
      ({ loadedImage := none, ctxOk := true, encodePng := fun _ => ""} : V1.Env).ctxOk
        = false :=
  Or.inl rfl


namespace V1

theorem range_map_getD {α : Type} {n i : ℕ} (g : ℕ → α) (d : α) (h : i < n) :
    ((List.range n).map g).getD i d = g i := by
  rw [List.getD_eq_getElem?_getD, List.getElem?_map]
  simp [List.getElem?_range h]

/-- Row-major access into a grid built as `flatMap` over rows. -/
theorem grid_getD {α : Type} (W : ℕ) (f : ℕ → ℕ → α) (d : α) :
    ∀ (H p : ℕ), p < H * W →
      ((List.range H).flatMap fun y => (List.range W).map (f y)).getD p d =
        f (p / W) (p % W) := by
  intro H
  induction H with
  | zero => intro p hp; omega
  | succ n ih =>
    intro p hp
    have hsucc : (n + 1) * W = n * W + W := by ring
    rw [List.range_succ, List.flatMap_append]
    have hlen : ((List.range n).flatMap fun y => (List.range W).map (f y)).length
        = n * W := length_grid W n f
    by_cases hcase : p < n * W
    · rw [List.getD_append _ _ _ _ (by omega)]
      exact ih p hcase
    · rw [List.getD_append_right _ _ _ _ (by omega)]
      have hW : 0 < W := by omega
      have hx : p - n * W < W := by omega
      have h1 : p = (p - n * W) + W * n := by
        have : W * n = n * W := by ring
        omega
      have hdiv : p / W = n := by
        rw [h1, Nat.add_mul_div_left _ _ hW, Nat.div_eq_of_lt hx]
        omega
      have hmod : p % W = p - n * W := by
        conv_lhs => rw [h1]
        rw [Nat.add_mul_mod_self_left]
        exact Nat.mod_eq_of_lt hx
      simp only [List.flatMap_cons, List.flatMap_nil, List.append_nil, hlen]
      rw [range_map_getD _ _ hx, hdiv, hmod]

/-- A window mean of values in `[0, 1]` is in `[0, 1]`. -/
theorem mean_bound (l : List ℚ) (hne : l ≠ [])
    (hb : ∀ v ∈ l, 0 ≤ v ∧ v ≤ 1) :
    0 ≤ l.sum / (l.length : ℚ) ∧ l.sum / (l.length : ℚ) ≤ 1 := by
  have hlen : 0 < (l.length : ℚ) := by
    have := List.length_pos.mpr hne
    exact_mod_cast this
  have hs0 : 0 ≤ l.sum := List.sum_nonneg fun x hx => (hb x hx).1
  have hs1 : l.sum ≤ (l.length : ℚ) := by
    have := List.sum_le_card_nsmul l 1 fun x hx => (hb x hx).2
    simpa using this
  constructor
  · positivity
  · rw [div_le_one hlen]
    exact hs1

theorem rangeIncl_length (lo hi : ℕ) : (Js.rangeIncl lo hi).length = hi + 1 - lo := by
  unfold Js.rangeIncl
  simp

theorem rangeIncl_ne_nil {lo hi : ℕ} (h : lo ≤ hi) : Js.rangeIncl lo hi ≠ [] := by
  have := rangeIncl_length lo hi
  intro hc
  rw [hc] at this
  simp at this
  omega

end V1

namespace V1

/-- A boundary-clamped window mean over entries of a `[0, 1]`-bounded
source list is in `[0, 1]`. -/
theorem window_mean_bound (src : List ℚ)
    (hsrc : ∀ q, 0 ≤ src.getD q 0 ∧ src.getD q 0 ≤ 1)
    (idx : ℕ → ℕ) (lo hi : ℕ) (hle : lo ≤ hi) :
    0 ≤ ((Js.rangeIncl lo hi).map fun t => src.getD (idx t) 0).sum /
        ((hi - lo + 1 : ℕ) : ℚ) ∧
      ((Js.rangeIncl lo hi).map fun t => src.getD (idx t) 0).sum /
        ((hi - lo + 1 : ℕ) : ℚ) ≤ 1 := by
  set l := (Js.rangeIncl lo hi).map fun t => src.getD (idx t) 0 with hl
  have hlen : l.length = hi - lo + 1 := by
    rw [hl, List.length_map, rangeIncl_length]
    omega
  have hne : l ≠ [] := by
    intro hc
    rw [hc] at hlen
    simp at hlen
  have hb : ∀ v ∈ l, 0 ≤ v ∧ v ≤ 1 := by
    intro v hv
    rw [hl] at hv
    obtain ⟨t, -, hvt⟩ := List.mem_map.mp hv
    rw [← hvt]
    exact hsrc (idx t)
  have := mean_bound l hne hb
  rw [hlen] at this
  exact this

/-- `applyFeather` keeps every entry (as read back through `getD`) in
`[0, 1]` when the input mask is so bounded. -/
theorem applyFeather_bounds {m : List ℚ} {W H : ℕ} {radius : ℤ}
    (hm : ∀ p, 0 ≤ m.getD p 0 ∧ m.getD p 0 ≤ 1) :
    ∀ p, 0 ≤ (applyFeather m W H radius).getD p 0 ∧
      (applyFeather m W H radius).getD p 0 ≤ 1 := by
  intro p
  unfold applyFeather
  by_cases hr : radius ≤ 0
  · rw [if_pos hr]
    exact hm p
  · rw [if_neg hr]
    set r := radius.toNat with hrdef
    set tmp := (List.range H).flatMap fun y =>
      (List.range W).map fun x =>
        let start := x - r
        let e := min (W - 1) (x + r)
        let sum := ((Js.rangeIncl start e).map fun xi =>
          m.getD (y * W + xi) 0).sum
        sum / ((e - start + 1 : ℕ) : ℚ) with htmp
    have htmpb : ∀ q, 0 ≤ tmp.getD q 0 ∧ tmp.getD q 0 ≤ 1 := by
      intro q
      by_cases hq : q < H * W
      · have hW : 0 < W := by
          rcases Nat.eq_zero_or_pos W with h0 | h
          · subst h0; simp at hq
          · exact h
        rw [htmp, grid_getD W _ 0 H q hq]
        have hx : q % W < W := Nat.mod_lt _ hW
        have hle : q % W - r ≤ min (W - 1) (q % W + r) := by omega
        exact window_mean_bound m hm (fun xi => q / W * W + xi) _ _ hle
      · rw [htmp]
        have hlen : ((List.range H).flatMap fun y =>
            (List.range W).map fun x =>
              let start := x - r
              let e := min (W - 1) (x + r)
              let sum := ((Js.rangeIncl start e).map fun xi =>
                m.getD (y * W + xi) 0).sum
              sum / ((e - start + 1 : ℕ) : ℚ)).length = H * W := length_grid W H _
        rw [getD_default_of_le _ _ (by rw [hlen]; omega)]
        norm_num
    by_cases hp : p < H * W
    · have hW : 0 < W := by
        rcases Nat.eq_zero_or_pos W with h0 | h
        · subst h0; simp at hp
        · exact h
      rw [grid_getD W _ 0 H p hp]
      have hH : 0 < H := by
        rcases Nat.eq_zero_or_pos H with h0 | h
        · subst h0; simp at hp
        · exact h
      have hp' : p < W * H := by rw [Nat.mul_comm W H]; exact hp
      have hy : p / W < H := Nat.div_lt_of_lt_mul hp'
      have hle : p / W - r ≤ min (H - 1) (p / W + r) := by
        refine le_min (le_trans (Nat.sub_le _ _) ?_) (le_trans (Nat.sub_le _ _) (Nat.le_add_right _ _))
        omega
      exact window_mean_bound tmp htmpb (fun yi => yi * W + p % W) _ _ hle
    · have hlen : ((List.range H).flatMap fun y =>
          (List.range W).map fun x =>
            let start := y - r
            let e := min (H - 1) (y + r)
            let sum := ((Js.rangeIncl start e).map fun yi =>
              tmp.getD (yi * W + x) 0).sum
            sum / ((e - start + 1 : ℕ) : ℚ)).length = H * W := length_grid W H _
      rw [getD_default_of_le _ _ (by rw [hlen]; omega)]
      norm_num

/-- Every entry of the binary mask is in `[0, 1]`. -/
theorem mask0_bounds (total : ℕ) (likeF : List ℚ) :
    ∀ p, 0 ≤ (mask0 total likeF).getD p 0 ∧ (mask0 total likeF).getD p 0 ≤ 1 := by
  intro p
  unfold mask0
  by_cases hp : p < total
  · rw [range_map_getD _ _ hp]
    by_cases h1 : 1 ≤ likeF.getD p 0
    · rw [if_pos h1]; norm_num
    · rw [if_neg h1]; norm_num
  · rw [getD_default_of_le _ _ (by simpa using hp)]
    norm_num

/-- The feather stage keeps the mask in `[0, 1]`. -/
theorem featherStage_bounds {W H : ℕ} {feather : ℚ} {m : List ℚ}
    (hm : ∀ p, 0 ≤ m.getD p 0 ∧ m.getD p 0 ≤ 1) :
    ∀ p, 0 ≤ (featherStage W H feather m).getD p 0 ∧
      (featherStage W H feather m).getD p 0 ≤ 1 := by
  intro p
  unfold featherStage
  by_cases hf : 0 < feather
  · rw [if_pos hf]
    exact applyFeather_bounds hm p
  · rw [if_neg hf]
    exact hm p

theorem clampByte_cast_of_range {z : ℤ} (h0 : 0 ≤ z) (h255 : z ≤ 255) :
    ((Js.clampByte z : ℕ) : ℚ) = (z : ℚ) := by
  unfold Js.clampByte
  rw [min_eq_right h255, max_eq_right h0]
  exact_mod_cast congrArg (fun n : ℤ => (n : ℚ)) (Int.toNat_of_nonneg h0)

theorem round_byte_range {q : ℚ} (h0 : 0 ≤ q) (h255 : q ≤ 255) :
    0 ≤ Js.round q ∧ Js.round q ≤ 255 := by
  refine ⟨Js.round_nonneg h0, ?_⟩
  have : Js.round q ≤ Js.round 255 := Js.round_le_round h255
  have h255' : Js.round 255 = 255 := by
    unfold Js.round
    norm_num
  omega

end V1

/-- C4: for every pixel of the output buffer of V1, the R, G, B bytes
equal those of the decoded input, the alpha byte equals
`round((1 - mask[p]) * 255)` for the final mask value of that pixel,
and every mask value lies in `[0, 1]` (for every `Math` library, image
and options value). -/
theorem outData_preserves_rgb_alpha_formula (M : MathFns) (W H : ℕ)
    (data : List ℚ) (o : Options) (p : ℕ) (hp : p < W * H) :
    0 ≤ (V1.run M W H data o).mask.getD p 0 ∧
    (V1.run M W H data o).mask.getD p 0 ≤ 1 ∧
    (V1.outData M W H data o).getD (4 * p + 3) 0 =
      ((Js.round ((1 - (V1.run M W H data o).mask.getD p 0) * 255) : ℤ) : ℚ) ∧
    (∀ c, c < 3 → (V1.outData M W H data o).getD (4 * p + c) 0 =
      data.getD (4 * p + c) 0) := by
  have hmask_def : (V1.run M W H data o).mask =
      V1.featherStage W H o.feather
        (V1.mask0 (W * H) (V1.run M W H data o).bfs.like) := rfl
  have hbounds : ∀ q, 0 ≤ (V1.run M W H data o).mask.getD q 0 ∧
      (V1.run M W H data o).mask.getD q 0 ≤ 1 := by
    rw [hmask_def]
    exact V1.featherStage_bounds
      (V1.mask0_bounds (W * H) (V1.run M W H data o).bfs.like)
  obtain ⟨hm0, hm1⟩ := hbounds p
  refine ⟨hm0, hm1, ?_, ?_⟩
  · have hlt : 4 * p + 3 < 4 * (W * H) := by omega
    unfold V1.outData
    rw [V1.range_map_getD _ _ hlt]
    rw [if_pos (by omega : (4 * p + 3) % 4 = 3)]
    have hdiv : (4 * p + 3) / 4 = p := by omega
    rw [hdiv]
    set v : ℚ := (V1.run M W H data o).mask.getD p 0 with hv
    have hq0 : (0 : ℚ) ≤ (1 - v) * 255 := by nlinarith
    have hq255 : (1 - v) * 255 ≤ 255 := by nlinarith
    obtain ⟨hr0, hr255⟩ := V1.round_byte_range hq0 hq255
    exact V1.clampByte_cast_of_range hr0 hr255
  · intro c hc
    have hlt : 4 * p + c < 4 * (W * H) := by omega
    unfold V1.outData
    rw [V1.range_map_getD _ _ hlt]
    rw [if_neg (by omega : ¬ (4 * p + c) % 4 = 3)]

/-- Witness for C4 at a concrete 1×1 black image with default options. -/
theorem outData_preserves_rgb_alpha_formula_witness :
    0 ≤ (V1.run MathFns.zero 1 1 [0, 0, 0, 0] Options.default).mask.getD 0 0 ∧
    (V1.run MathFns.zero 1 1 [0, 0, 0, 0] Options.default).mask.getD 0 0 ≤ 1 ∧
    (V1.outData MathFns.zero 1 1 [0, 0, 0, 0] Options.default).getD (4 * 0 + 3) 0 =
      ((Js.round ((1 - (V1.run MathFns.zero 1 1 [0, 0, 0, 0]
        Options.default).mask.getD 0 0) * 255) : ℤ) : ℚ) ∧
    (∀ c, c < 3 →
      (V1.outData MathFns.zero 1 1 [0, 0, 0, 0] Options.default).getD (4 * 0 + c) 0 =
        ([0, 0, 0, 0] : List ℚ).getD (4 * 0 + c) 0) :=
  outData_preserves_rgb_alpha_formula MathFns.zero 1 1 [0, 0, 0, 0]
    Options.default 0 (by norm_num)

namespace V1

theorem getD_mem {α : Type} {l : List α} {i : ℕ} (d : α) (h : i < l.length) :
    l.getD i d ∈ l := by
  rw [List.getD_eq_getElem?_getD, List.getElem?_eq_getElem h]
  exact List.getElem_mem h

/-- All pixels of a uniform image yield the same RGB sample triple. -/
def UniformData (W H : ℕ) (data : List ℚ) (r g b : ℚ) : Prop :=
  ∀ p, p < W * H →
    data.getD (4 * p) 0 = r ∧ data.getD (4 * p + 1) 0 = g ∧
      data.getD (4 * p + 2) 0 = b

theorem pickPatch_mem_const {W H : ℕ} {data : List ℚ} {r g b : ℚ}
    (hu : UniformData W H data r g b) (x0 y0 sz : ℕ) :
    ∀ s ∈ pickPatch data W H x0 y0 sz, s = (r, g, b) := by
  intro s hs
  unfold pickPatch at hs
  obtain ⟨y, hy, hs⟩ := List.mem_flatMap.mp hs
  obtain ⟨x, hx, hs⟩ := List.mem_map.mp hs
  obtain ⟨ky, hky, hkey⟩ := List.mem_map.mp hy
  obtain ⟨kx, hkx, hkex⟩ := List.mem_map.mp hx
  rw [List.mem_range] at hky hkx
  have hyH : y < H := by omega
  have hxW : x < W := by omega
  have hidx : y * W + x < W * H := by
    have h1 : y * W + x < (y + 1) * W := by
      have := Nat.add_mul y 1 W
      omega
    have h2 : (y + 1) * W ≤ H * W := Nat.mul_le_mul_right W (by omega)
    have h3 : H * W = W * H := Nat.mul_comm H W
    omega
  obtain ⟨h1, h2, h3⟩ := hu (y * W + x) hidx
  rw [← hs]
  have hoff : (y * W + x) * 4 = 4 * (y * W + x) := by ring
  simp only [hoff]
  rw [h1, h2, h3]

theorem pickPatch_origin_ne_nil {W H : ℕ} (data : List ℚ) (hW : 1 ≤ W)
    (hH : 1 ≤ H) : pickPatch data W H 0 0 ≠ [] := by
  unfold pickPatch
  apply List.ne_nil_of_length_pos
  rw [List.length_flatMap]
  have h1 : 0 ∈ (List.range (min H (0 + 24) - 0)).map (0 + ·) := by
    simp
    omega
  calc 0 < ((List.range (min W (0 + 24) - 0)).map (0 + ·)).length := by
        simp
        omega
    _ ≤ _ := by
        apply List.single_le_sum
        · intro x hx
          omega
        · rw [List.mem_map]
          refine ⟨0, h1, ?_⟩
          simp

theorem cornerSamples_mem_const {W H : ℕ} {data : List ℚ} {r g b : ℚ}
    (hu : UniformData W H data r g b) :
    ∀ s ∈ cornerSamples data W H, s = (r, g, b) := by
  intro s hs
  unfold cornerSamples at hs
  rcases List.mem_append.mp hs with hs | hs
  rcases List.mem_append.mp hs with hs | hs
  rcases List.mem_append.mp hs with hs | hs
  all_goals exact pickPatch_mem_const hu _ _ _ s hs

theorem cornerSamples_ne_nil {W H : ℕ} (data : List ℚ) (hW : 1 ≤ W)
    (hH : 1 ≤ H) : cornerSamples data W H ≠ [] := by
  unfold cornerSamples
  intro hc
  rcases List.append_eq_nil.mp hc with ⟨hc1, -⟩
  rcases List.append_eq_nil.mp hc1 with ⟨hc2, -⟩
  rcases List.append_eq_nil.mp hc2 with ⟨hc3, -⟩
  exact pickPatch_origin_ne_nil data hW hH hc3

theorem medianColor_const {l : List (ℚ × ℚ × ℚ)} {r g b : ℚ} (hne : l ≠ [])
    (hconst : ∀ s ∈ l, s = (r, g, b)) : medianColor l = (r, g, b) := by
  have hlen : 0 < l.length := List.length_pos.mpr hne
  unfold medianColor
  have key : ∀ (f : ℚ × ℚ × ℚ → ℚ),
      (Js.sortAsc (l.map f)).getD
        ((Js.sortAsc (l.map f)).length / 2) 0 = f (r, g, b) := by
    intro f
    have hslen : (Js.sortAsc (l.map f)).length = l.length := by
      rw [Js.sortAsc_length, List.length_map]
    have hidx : (Js.sortAsc (l.map f)).length / 2 <
        (Js.sortAsc (l.map f)).length := by
      rw [hslen]
      omega
    have hmem := getD_mem 0 hidx
    rw [Js.mem_sortAsc] at hmem
    obtain ⟨s, hsl, hsf⟩ := List.mem_map.mp hmem
    rw [← hsf, hconst s hsl]
  exact Prod.ext (key (·.1)) (Prod.ext (key (·.2.1)) (key (·.2.2)))

/-- Any branch of the light/dark fallback choice consists of corner
samples only. -/
theorem mem_corner_of_mem_split {corner : List (ℚ × ℚ × ℚ)} {Ls : List ℚ}
    {P : (ℚ × ℚ × ℚ) × ℚ → Bool} :
    ∀ s ∈ ((corner.zip Ls).filter P).map Prod.fst, s ∈ corner := by
  intro s hs
  obtain ⟨sc, hsc, hfst⟩ := List.mem_map.mp hs
  have hzip := List.mem_of_mem_filter hsc
  have := (List.of_mem_zip hzip).1
  rw [← hfst]
  exact this

/-- `medianColor` of a fallback choice between the (constant, nonempty)
corner samples and a sublist of them. -/
theorem medianColor_branch_const {corner branch : List (ℚ × ℚ × ℚ)} {r g b : ℚ}
    (hcorner_ne : corner ≠ []) (hcorner : ∀ s ∈ corner, s = (r, g, b))
    (hbranch : ∀ s ∈ branch, s ∈ corner) :
    medianColor (if branch.isEmpty then corner else branch) = (r, g, b) := by
  by_cases hb : branch.isEmpty
  · rw [if_pos hb]
    exact medianColor_const hcorner_ne hcorner
  · rw [if_neg hb]
    apply medianColor_const
    · intro hc
      rw [hc] at hb
      exact hb rfl
    · intro s hs
      exact hcorner s (hbranch s hs)

/-- On a uniform image both reference colors are the pixel color. -/
theorem references_const {M : MathFns} {W H : ℕ} {data : List ℚ} {r g b : ℚ}
    (hu : UniformData W H data r g b) (hW : 1 ≤ W) (hH : 1 ≤ H) :
    references M data W H = ((r, g, b), (r, g, b)) := by
  have hcorner := cornerSamples_mem_const hu
  have hne := cornerSamples_ne_nil (W := W) (H := H) data hW hH
  unfold references
  refine Prod.ext ?_ ?_ <;> dsimp only <;>
    exact medianColor_branch_const hne hcorner mem_corner_of_mem_split

end V1

namespace V1

theorem sum_of_all_one {l : List ℚ} (h : ∀ v ∈ l, v = 1) :
    l.sum = (l.length : ℚ) := by
  induction l with
  | nil => simp
  | cons a tl ih =>
    have ha := h a (by simp)
    have htl := ih fun v hv => h v (by simp [hv])
    simp [ha, htl]
    push_cast
    ring

theorem mem_rangeIncl {lo hi t : ℕ} (h : t ∈ Js.rangeIncl lo hi) :
    lo ≤ t ∧ t ≤ hi := by
  unfold Js.rangeIncl at h
  obtain ⟨k, hk, hkt⟩ := List.mem_map.mp h
  rw [List.mem_range] at hk
  omega

/-- A boundary-clamped window mean over all-ones entries is one. -/
theorem window_mean_one (src : List ℚ) (idx : ℕ → ℕ) (lo hi : ℕ) (hle : lo ≤ hi)
    (hval : ∀ t, lo ≤ t → t ≤ hi → src.getD (idx t) 0 = 1) :
    ((Js.rangeIncl lo hi).map fun t => src.getD (idx t) 0).sum /
      ((hi - lo + 1 : ℕ) : ℚ) = 1 := by
  have hsum : ((Js.rangeIncl lo hi).map fun t => src.getD (idx t) 0).sum =
      (((Js.rangeIncl lo hi).map fun t => src.getD (idx t) 0).length : ℚ) := by
    apply sum_of_all_one
    intro v hv
    obtain ⟨t, ht, hvt⟩ := List.mem_map.mp hv
    obtain ⟨h1, h2⟩ := mem_rangeIncl ht
    rw [← hvt]
    exact hval t h1 h2
  rw [hsum, List.length_map, rangeIncl_length]
  have hlen : hi + 1 - lo = hi - lo + 1 := by omega
  rw [hlen]
  have : ((hi - lo + 1 : ℕ) : ℚ) ≠ 0 := by
    push_cast
    positivity
  exact div_self this

/-- The uniform-luminance Sobel map reads back as zero everywhere. -/
theorem gradArr_zero {M : MathFns} {W H : ℕ} {lum : List ℚ} {L0 : ℚ}
    (hlum : ∀ q, q < W * H → lum.getD q 0 = L0) (hhyp : M.hypot2 0 0 = 0) :
    ∀ q, (gradArr M W H lum).getD q 0 = 0 := by
  intro q
  by_cases hq : q < H * W
  · unfold gradArr
    rw [grid_getD W _ 0 H q hq]
    set y := q / W with hy
    set x := q % W with hx
    have hW : 0 < W := by
      rcases Nat.eq_zero_or_pos W with h0 | h
      · subst h0; simp at hq
      · exact h
    have hyH : y < H := by
      rw [hy]
      exact Nat.div_lt_of_lt_mul (by rw [Nat.mul_comm W H]; omega)
    have hxW : x < W := Nat.mod_lt _ hW
    by_cases hint : 1 ≤ y ∧ y < H - 1 ∧ 1 ≤ x ∧ x < W - 1
    · rw [if_pos hint]
      dsimp only
      obtain ⟨hy1, hy2, hx1, hx2⟩ := hint
      have hread : ∀ yy xx, yy < H → xx < W → lum.getD (yy * W + xx) 0 = L0 := by
        intro yy xx hyy hxx
        apply hlum
        have h1 : yy * W + xx < (yy + 1) * W := by
          have := Nat.add_mul yy 1 W
          omega
        have h2 : (yy + 1) * W ≤ H * W := Nat.mul_le_mul_right W (by omega)
        have h3 : H * W = W * H := Nat.mul_comm H W
        omega
      rw [hread (y-1) (x-1) (by omega) (by omega),
          hread y (x-1) (by omega) (by omega),
          hread (y+1) (x-1) (by omega) (by omega),
          hread (y-1) (x+1) (by omega) (by omega),
          hread y (x+1) (by omega) (by omega),
          hread (y+1) (x+1) (by omega) (by omega),
          hread (y-1) x (by omega) (by omega),
          hread (y+1) x (by omega) (by omega)]
      have h0 : ∀ a b : ℚ, a = 0 → b = 0 → M.hypot2 a b / 8 = 0 := by
        intro a b ha hb
        rw [ha, hb, hhyp]
        norm_num
      apply h0 <;> ring
    · rw [if_neg hint]
  · unfold gradArr
    apply getD_default_of_le
    rw [length_grid]
    omega

end V1

namespace V1

theorem labArr_const {M : MathFns} {W H : ℕ} {data : List ℚ} {r g b : ℚ}
    (hu : UniformData W H data r g b) :
    ∀ p, p < W * H → (labArr M (W * H) data).getD p (0, 0, 0) = rgbToLab M r g b := by
  intro p hp
  unfold labArr
  rw [range_map_getD _ _ hp]
  obtain ⟨h1, h2, h3⟩ := hu p hp
  rw [h1, h2, h3]

theorem lumArr_const {W H : ℕ} {data : List ℚ} {r g b : ℚ}
    (hu : UniformData W H data r g b) :
    ∀ p, p < W * H →
      (lumArr (W * H) data).getD p 0 = 0.2126 * r + 0.7152 * g + 0.0722 * b := by
  intro p hp
  unfold lumArr
  rw [range_map_getD _ _ hp]
  obtain ⟨h1, h2, h3⟩ := hu p hp
  rw [h1, h2, h3]

/-- With both references equal to the pixel's own color and a zero
gradient map, every likelihood is exactly 1. -/
theorem likeArr_one {M : MathFns} {W H : ℕ} {lab : List (ℚ × ℚ × ℚ)}
    {grad : List ℚ} {c0 : ℚ × ℚ × ℚ} {colorTol gradKeep period : ℚ}
    (hlab : ∀ p, p < W * H → lab.getD p (0, 0, 0) = c0)
    (hgrad : ∀ q, grad.getD q 0 = 0)
    (hsqrt : M.sqrt 0 = 0) (hgk : 0 ≤ gradKeep) :
    ∀ p, p < W * H →
      (likeArr M W H lab grad c0 c0 colorTol gradKeep period).getD p 0 = 1 := by
  intro p hp
  unfold likeArr
  have hp' : p < H * W := by rw [Nat.mul_comm H W]; omega
  rw [grid_getD W _ 0 H p hp']
  dsimp only
  have hidx : p / W * W + p % W = p := by
    rw [Nat.mul_comm (p / W) W]
    exact Nat.div_add_mod p W
  rw [hidx, hlab p hp, hgrad p]
  have hdist : distLab M c0.1 c0.2.1 c0.2.2 c0 = 0 := by
    unfold distLab
    dsimp only
    have : (c0.1 - c0.1) * (c0.1 - c0.1) + (c0.2.1 - c0.2.1) * (c0.2.1 - c0.2.1) +
        (c0.2.2 - c0.2.2) * (c0.2.2 - c0.2.2) = 0 := by ring
    rw [this, hsqrt]
  rw [hdist, ite_self]
  rw [if_neg (by linarith : ¬ gradKeep < 0)]
  have : (0 : ℚ) / colorTol = 0 := zero_div _
  rw [this]
  norm_num

theorem enqueue_like {W : ℕ} {st : BfsState} {x y : ℕ} :
    (enqueue W st x y).like = st.like := by
  unfold enqueue
  by_cases h : st.seen.getD (y * W + x) false
  · rw [if_pos h]
  · rw [if_neg h]

theorem set_one_pres {l : List ℚ} {n : ℕ} (hl : ∀ p, p < n → l.getD p 0 = 1)
    (idx : ℕ) : ∀ p, p < n → (l.set idx 1).getD p 0 = 1 := by
  intro p hp
  rw [List.getD_eq_getElem?_getD, List.getElem?_set]
  by_cases hip : idx = p
  · rw [if_pos hip]
    by_cases hlt : idx < l.length
    · rw [if_pos hlt]
      rfl
    · rw [if_neg hlt]
      have := hl p hp
      rw [List.getD_eq_getElem?_getD] at this
      rw [← hip] at this
      rw [List.getElem?_eq_none (by omega)] at this
      simpa using this
  · rw [if_neg hip]
    have := hl p hp
    rw [List.getD_eq_getElem?_getD] at this
    exact this

theorem bfsPop_like {W H : ℕ} {st : BfsState} {x y : ℕ} {rest : List (ℕ × ℕ)} :
    (bfsPop W H st x y rest).like = st.like.set (y * W + x) 1 := by
  unfold bfsPop
  refine foldl_preserve (P := fun s => s.like = st.like.set (y * W + x) 1)
    ?_ neighbours _ rfl
  intro s d hs
  dsimp only
  by_cases hb : ((x : ℤ) + d.1) < 0 ∨ (W : ℤ) ≤ ((x : ℤ) + d.1) ∨
      ((y : ℤ) + d.2) < 0 ∨ (H : ℤ) ≤ ((y : ℤ) + d.2)
  · rw [if_pos hb]
    exact hs
  · rw [if_neg hb]
    by_cases hc : ¬ s.seen.getD (((y : ℤ) + d.2).toNat * W + ((x : ℤ) + d.1).toNat) false ∧
        1/2 < s.like.getD (((y : ℤ) + d.2).toNat * W + ((x : ℤ) + d.1).toNat) 0
    · rw [if_pos hc, enqueue_like]
      exact hs
    · rw [if_neg hc]
      exact hs

/-- The BFS loop writes only ones into the likelihood array. -/
theorem bfsLoop_like_one {W H : ℕ} :
    ∀ (fuel : ℕ) (st : BfsState),
      (∀ p, p < W * H → st.like.getD p 0 = 1) →
      ∀ p, p < W * H → (bfsLoop W H fuel st).like.getD p 0 = 1 := by
  intro fuel
  induction fuel with
  | zero => intro st h; exact h
  | succ n ih =>
    intro st h
    match hq : st.queue with
    | [] =>
      simp only [bfsLoop, hq]
      exact h
    | (x, y) :: rest =>
      simp only [bfsLoop, hq]
      apply ih
      rw [bfsPop_like]
      exact set_one_pres h _

/-- `seedBorder` never touches the likelihood array. -/
theorem seedBorder_like {W H : ℕ} {st : BfsState} :
    (seedBorder W H st).like = st.like := by
  unfold seedBorder
  have hx : ∀ (s : BfsState) (x : ℕ), s.like = st.like →
      (let s' := if 1/2 < s.like.getD x 0 then enqueue W s x 0 else s
        if 1/2 < s'.like.getD ((H - 1) * W + x) 0 then enqueue W s' x (H - 1) else s').like =
        st.like := by
    intro s x hl
    dsimp only
    set s1 := if 1/2 < s.like.getD x 0 then enqueue W s x 0 else s with hs1
    have hl1 : s1.like = st.like := by
      rw [hs1]
      by_cases h1 : 1/2 < s.like.getD x 0
      · rw [if_pos h1, enqueue_like]
        exact hl
      · rw [if_neg h1]
        exact hl
    by_cases h2 : 1/2 < s1.like.getD ((H - 1) * W + x) 0
    · rw [if_pos h2, enqueue_like]
      exact hl1
    · rw [if_neg h2]
      exact hl1
  have hy : ∀ (s : BfsState) (y : ℕ), s.like = st.like →
      (let s' := if 1/2 < s.like.getD (y * W) 0 then enqueue W s 0 y else s
        if 1/2 < s'.like.getD (y * W + (W - 1)) 0 then enqueue W s' (W - 1) y else s').like =
        st.like := by
    intro s y hl
    dsimp only
    set s1 := if 1/2 < s.like.getD (y * W) 0 then enqueue W s 0 y else s with hs1
    have hl1 : s1.like = st.like := by
      rw [hs1]
      by_cases h1 : 1/2 < s.like.getD (y * W) 0
      · rw [if_pos h1, enqueue_like]
        exact hl
      · rw [if_neg h1]
        exact hl
    by_cases h2 : 1/2 < s1.like.getD (y * W + (W - 1)) 0
    · rw [if_pos h2, enqueue_like]
      exact hl1
    · rw [if_neg h2]
      exact hl1
  have hmid := foldl_preserve (P := fun s => s.like = st.like)
    hx (List.range W) st rfl
  exact foldl_preserve (P := fun s => s.like = st.like)
    hy (List.range H) _ hmid

/-- If the initial likelihood array is 1 at every pixel, so is the
final one after the whole region growth. -/
theorem bfsRun_like_one {W H : ℕ} {like0 : List ℚ}
    (h : ∀ p, p < W * H → like0.getD p 0 = 1) :
    ∀ p, p < W * H → (bfsRun W H like0).like.getD p 0 = 1 := by
  unfold bfsRun
  apply bfsLoop_like_one
  rw [seedBorder_like]
  exact h

end V1

namespace V1

theorem mask0_one {total : ℕ} {likeF : List ℚ}
    (hlike : ∀ p, p < total → likeF.getD p 0 = 1) :
    ∀ p, p < total → (mask0 total likeF).getD p 0 = 1 := by
  intro p hp
  unfold mask0
  rw [range_map_getD _ _ hp]
  rw [if_pos (by rw [hlike p hp])]

/-- Feathering an all-ones mask leaves it all ones. -/
theorem applyFeather_one {m : List ℚ} {W H : ℕ} {radius : ℤ}
    (hm : ∀ p, p < W * H → m.getD p 0 = 1) :
    ∀ p, p < W * H → (applyFeather m W H radius).getD p 0 = 1 := by
  intro p hp
  unfold applyFeather
  by_cases hr : radius ≤ 0
  · rw [if_pos hr]
    exact hm p hp
  · rw [if_neg hr]
    set r := radius.toNat with hrdef
    have hp' : p < H * W := by rw [Nat.mul_comm H W]; omega
    have hW : 0 < W := by
      rcases Nat.eq_zero_or_pos W with h0 | h
      · subst h0; simp at hp'
      · exact h
    have hin : ∀ yy xx, yy < H → xx < W → yy * W + xx < W * H := by
      intro yy xx hyy hxx
      have h1 : yy * W + xx < (yy + 1) * W := by
        have := Nat.add_mul yy 1 W
        omega
      have h2 : (yy + 1) * W ≤ H * W := Nat.mul_le_mul_right W (by omega)
      have h3 : H * W = W * H := Nat.mul_comm H W
      omega
    set tmp := (List.range H).flatMap fun y =>
      (List.range W).map fun x =>
        let start := x - r
        let e := min (W - 1) (x + r)
        let sum := ((Js.rangeIncl start e).map fun xi =>
          m.getD (y * W + xi) 0).sum
        sum / ((e - start + 1 : ℕ) : ℚ) with htmp
    have htmpone : ∀ q, q < W * H → tmp.getD q 0 = 1 := by
      intro q hq
      have hq' : q < H * W := by rw [Nat.mul_comm H W]; omega
      rw [htmp, grid_getD W _ 0 H q hq']
      have hyH : q / W < H := Nat.div_lt_of_lt_mul (by omega)
      have hxW : q % W < W := Nat.mod_lt _ hW
      apply window_mean_one m (fun xi => q / W * W + xi) (q % W - r)
        (min (W - 1) (q % W + r)) (by omega)
      intro t h1 h2
      have h3 : t ≤ W - 1 := le_trans h2 (min_le_left _ _)
      exact hm _ (hin (q / W) t hyH (by omega))
    rw [grid_getD W _ 0 H p hp']
    have hyH : p / W < H := Nat.div_lt_of_lt_mul (by omega)
    have hxW : p % W < W := Nat.mod_lt _ hW
    apply window_mean_one tmp (fun yi => yi * W + p % W) (p / W - r)
      (min (H - 1) (p / W + r))
      (by
        refine le_min (le_trans (Nat.sub_le _ _) ?_)
          (le_trans (Nat.sub_le _ _) (Nat.le_add_right _ _))
        omega)
    intro t h1 h2
    have h3 : t ≤ H - 1 := le_trans h2 (min_le_left _ _)
    have hHpos : 0 < H := lt_of_le_of_lt (Nat.zero_le _) hyH
    have h4 : t < H := lt_of_le_of_lt h3 (Nat.sub_lt hHpos one_pos)
    exact htmpone _ (hin t (p % W) h4 hxW)

theorem featherStage_one {W H : ℕ} {feather : ℚ} {m : List ℚ}
    (hm : ∀ p, p < W * H → m.getD p 0 = 1) :
    ∀ p, p < W * H → (featherStage W H feather m).getD p 0 = 1 := by
  intro p hp
  unfold featherStage
  by_cases hf : 0 < feather
  · rw [if_pos hf]
    exact applyFeather_one hm p hp
  · rw [if_neg hf]
    exact hm p hp

end V1

/-- On a uniform image V1 computes mask 1 and alpha 0 at every pixel
(shared derivation). -/
theorem uniform_alpha_zero (M : MathFns) (W H : ℕ)
    (data : List ℚ) (r g b : ℚ) (o : Options) (hW : 1 ≤ W) (hH : 1 ≤ H)
    (hu : V1.UniformData W H data r g b)
    (hsqrt : M.sqrt 0 = 0) (hhyp : M.hypot2 0 0 = 0)
    (hgk : 0 ≤ o.gradKeep) :
    ∀ p, p < W * H →
      (V1.run M W H data o).mask.getD p 0 = 1 ∧
      (V1.outData M W H data o).getD (4 * p + 3) 0 = 0 := by
  have hrefs := V1.references_const (M := M) hu hW hH
  have hbfs_def : (V1.run M W H data o).bfs =
      V1.bfsRun W H
        (V1.likeArr M W H (V1.labArr M (W * H) data)
          (V1.gradArr M W H (V1.lumArr (W * H) data))
          (V1.rgbToLab M (V1.references M data W H).1.1
            (V1.references M data W H).1.2.1 (V1.references M data W H).1.2.2)
          (V1.rgbToLab M (V1.references M data W H).2.1
            (V1.references M data W H).2.2.1 (V1.references M data W H).2.2.2)
          o.colorTol o.gradKeep
          (V1.bestPeriod M W H (V1.labArr M (W * H) data)
            (V1.rgbToLab M (V1.references M data W H).1.1
              (V1.references M data W H).1.2.1 (V1.references M data W H).1.2.2)
            (V1.rgbToLab M (V1.references M data W H).2.1
              (V1.references M data W H).2.2.1 (V1.references M data W H).2.2.2)
            o.colorTol o.tileGuess)) := rfl
  rw [hrefs] at hbfs_def
  dsimp only at hbfs_def
  have hlikeF : ∀ p, p < W * H →
      (V1.run M W H data o).bfs.like.getD p 0 = 1 := by
    intro p hp
    rw [hbfs_def]
    apply V1.bfsRun_like_one (W := W) (H := H)
    · apply @V1.likeArr_one M W H _ _ (V1.rgbToLab M r g b) _ _ _
      · exact V1.labArr_const hu
      · exact V1.gradArr_zero (V1.lumArr_const hu) hhyp
      · exact hsqrt
      · exact hgk
    · exact hp
  have hmaskF : ∀ p, p < W * H →
      (V1.run M W H data o).mask.getD p 0 = 1 := by
    intro p hp
    have hmask_def : (V1.run M W H data o).mask =
        V1.featherStage W H o.feather
          (V1.mask0 (W * H) (V1.run M W H data o).bfs.like) := rfl
    rw [hmask_def]
    exact V1.featherStage_one (V1.mask0_one hlikeF) p hp
  intro p hp
  refine ⟨hmaskF p hp, ?_⟩
  have hlt : 4 * p + 3 < 4 * (W * H) := by omega
  unfold V1.outData
  rw [V1.range_map_getD _ _ hlt]
  rw [if_pos (by omega : (4 * p + 3) % 4 = 3)]
  have hdiv : (4 * p + 3) / 4 = p := by omega
  rw [hdiv, hmaskF p hp]
  have h0 : (1 - (1 : ℚ)) * 255 = 0 := by ring
  rw [h0]
  have hr0 : Js.round 0 = 0 := by
    unfold Js.round
    norm_num
  rw [hr0]
  rfl

/-- C5: for every uniform solid-color input image (all pixels the same
RGB value), the computed mask of V1 is 1 at every pixel and the written
alpha byte is 0 at every pixel — fully transparent output — for every
mode and seed list (which V1 ignores) and any feather; stated under the
faithfulness hypotheses `sqrt 0 = 0` and `hypot 0 0 = 0` for the host
`Math` functions, `colorTol ≠ 0` (a zero tolerance divides by zero in
JavaScript) and `gradKeep ≥ 0`. -/
theorem uniform_image_fully_transparent (M : MathFns) (W H : ℕ)
    (data : List ℚ) (r g b : ℚ) (o : Options) (hW : 1 ≤ W) (hH : 1 ≤ H)
    (hu : V1.UniformData W H data r g b)
    (hsqrt : M.sqrt 0 = 0) (hhyp : M.hypot2 0 0 = 0)
    (hct : o.colorTol ≠ 0) (hgk : 0 ≤ o.gradKeep) :
    ∀ p, p < W * H →
      (V1.run M W H data o).mask.getD p 0 = 1 ∧
      (V1.outData M W H data o).getD (4 * p + 3) 0 = 0 :=
  uniform_alpha_zero M W H data r g b o hW hH hu hsqrt hhyp hgk

/-- Witness for C5: a 1×1 black image with default options. -/
theorem uniform_image_fully_transparent_witness :
    (V1.run MathFns.zero 1 1 [0, 0, 0, 255] Options.default).mask.getD 0 0 = 1 ∧
    (V1.outData MathFns.zero 1 1 [0, 0, 0, 255] Options.default).getD (4 * 0 + 3) 0
      = 0 :=
  uniform_image_fully_transparent MathFns.zero 1 1 [0, 0, 0, 255] 0 0 0
    Options.default (by norm_num) (by norm_num)
    (by
      intro p hp
      have hp0 : p = 0 := by omega
      subst hp0
      refine ⟨rfl, rfl, rfl⟩)
    rfl rfl (by norm_num [Options.default]) (by norm_num [Options.default])
    0 (by norm_num)

namespace V1

/-- Row-major indices of the pending queue entries. -/
def queueIdxs (W : ℕ) (st : BfsState) : List ℕ :=
  st.queue.map fun ab => ab.2 * W + ab.1

/-- The invariant connecting `seen` to `like`: every flagged pixel is
either still pending in the queue or has had its likelihood committed
to 1; pending coordinates are in bounds. -/
def SeenInv (W H : ℕ) (st : BfsState) : Prop :=
  (∀ i, st.seen.getD i false = true →
    (i ∈ queueIdxs W st ∨ st.like.getD i 0 = 1)) ∧
  (∀ ab ∈ st.queue, ab.2 * W + ab.1 < W * H)

theorem enqueue_seenInv {W H : ℕ} {st : BfsState} {x y : ℕ}
    (h : SeenInv W H st) (hidx : y * W + x < W * H) :
    SeenInv W H (enqueue W st x y) := by
  obtain ⟨h1, h2⟩ := h
  unfold enqueue
  by_cases hs : st.seen.getD (y * W + x) false
  · rw [if_pos hs]
    exact ⟨h1, h2⟩
  · rw [if_neg hs]
    constructor
    · intro i hi
      by_cases hieq : i = y * W + x
      · left
        subst hieq
        unfold queueIdxs
        simp
      · have : st.seen.getD i false = true := by
          rw [List.getD_eq_getElem?_getD, List.getElem?_set] at hi
          rw [if_neg (fun hc => hieq hc.symm)] at hi
          rw [List.getD_eq_getElem?_getD]
          exact hi
        rcases h1 i this with hq | hl
        · left
          unfold queueIdxs at hq ⊢
          simp only [List.map_append]
          exact List.mem_append_left _ hq
        · right
          exact hl
    · intro ab hab
      rcases List.mem_append.mp hab with hab | hab
      · exact h2 ab hab
      · simp at hab
        subst hab
        exact hidx

theorem enqueue_cond_seenInv (W H : ℕ) (st : BfsState) (x y i : ℕ)
    (hInv : Inv W H st) (h : SeenInv W H st) (heq : y * W + x = i) :
    SeenInv W H (if 1/2 < st.like.getD i 0 then enqueue W st x y else st) := by
  by_cases hg : 1/2 < st.like.getD i 0
  · rw [if_pos hg]
    exact enqueue_seenInv h (heq ▸ idx_lt_of_like_guard hInv.1 hg)
  · rw [if_neg hg]
    exact h

end V1

namespace V1

theorem getD_set_self {α : Type} {l : List α} {idx : ℕ} {v d : α}
    (h : idx < l.length) : (l.set idx v).getD idx d = v := by
  rw [List.getD_eq_getElem?_getD, List.getElem?_set, if_pos rfl, if_pos h]
  rfl

theorem getD_set_ne {α : Type} {l : List α} {idx i : ℕ} {v d : α}
    (h : ¬ idx = i) : (l.set idx v).getD i d = l.getD i d := by
  rw [List.getD_eq_getElem?_getD, List.getElem?_set, if_neg h,
    ← List.getD_eq_getElem?_getD]

/-- One pop preserves both invariants. -/
theorem bfsPop_seenInv {W H : ℕ} {st : BfsState} {x y : ℕ} {rest : List (ℕ × ℕ)}
    (hq : st.queue = (x, y) :: rest) (hInv : Inv W H st) (hS : SeenInv W H st) :
    Inv W H (bfsPop W H st x y rest) ∧ SeenInv W H (bfsPop W H st x y rest) := by
  obtain ⟨hlike, hseen, htail, hqlen⟩ := hInv
  obtain ⟨hS1, hS2⟩ := hS
  have hhead : (x, y) ∈ st.queue := by rw [hq]; simp
  have hidx : y * W + x < W * H := hS2 (x, y) hhead
  unfold bfsPop
  set st1 : BfsState := { st with queue := rest, like := st.like.set (y * W + x) 1 }
    with hst1
  have hInv1 : Inv W H st1 := by
    refine ⟨?_, hseen, htail, ?_⟩
    · simpa [hst1, List.length_set] using hlike
    · have : st.queue.length = rest.length + 1 := by rw [hq]; simp
      simp only [hst1]
      omega
  have hS1' : SeenInv W H st1 := by
    constructor
    · intro i hi
      rcases hS1 i hi with hqmem | hlone
      · unfold queueIdxs at hqmem
        rw [hq] at hqmem
        simp only [List.map_cons] at hqmem
        rcases List.mem_cons.mp hqmem with hh | ht
        · right
          simp only [hst1]
          rw [hh]
          exact getD_set_self (by omega)
        · left
          unfold queueIdxs
          simp only [hst1]
          exact ht
      · right
        simp only [hst1]
        by_cases hie : y * W + x = i
        · rw [hie]
          exact getD_set_self (by omega)
        · rw [getD_set_ne hie]
          exact hlone
    · intro ab hab
      apply hS2
      rw [hq]
      simp only [hst1] at hab
      exact List.mem_cons_of_mem _ hab
  have hfold := foldl_preserve
    (P := fun s => Inv W H s ∧ SeenInv W H s)
    (f := fun s d =>
      let nx : ℤ := (x : ℤ) + d.1
      let ny : ℤ := (y : ℤ) + d.2
      if nx < 0 ∨ (W : ℤ) ≤ nx ∨ ny < 0 ∨ (H : ℤ) ≤ ny then s
      else
        let nIdx := ny.toNat * W + nx.toNat
        if ¬ s.seen.getD nIdx false ∧ 1/2 < s.like.getD nIdx 0 then
          enqueue W s nx.toNat ny.toNat
        else s)
    (fun s d hs => by
      obtain ⟨hsInv, hsS⟩ := hs
      by_cases hb : ((x : ℤ) + d.1) < 0 ∨ (W : ℤ) ≤ ((x : ℤ) + d.1) ∨
          ((y : ℤ) + d.2) < 0 ∨ (H : ℤ) ≤ ((y : ℤ) + d.2)
      · simp only [if_pos hb]
        exact ⟨hsInv, hsS⟩
      · simp only [if_neg hb]
        by_cases hc : ¬ s.seen.getD (((y : ℤ) + d.2).toNat * W + ((x : ℤ) + d.1).toNat) false ∧
            1/2 < s.like.getD (((y : ℤ) + d.2).toNat * W + ((x : ℤ) + d.1).toNat) 0
        · simp only [if_pos hc]
          have hnidx : ((y : ℤ) + d.2).toNat * W + ((x : ℤ) + d.1).toNat < W * H :=
            idx_lt_of_like_guard hsInv.1 hc.2
          exact ⟨(enqueue_inv hsInv hnidx).1, enqueue_seenInv hsS hnidx⟩
        · simp only [if_neg hc]
          exact ⟨hsInv, hsS⟩)
    neighbours st1 ⟨hInv1, hS1'⟩
  exact hfold

theorem bfsLoop_seenInv {W H : ℕ} :
    ∀ (fuel : ℕ) (st : BfsState), Inv W H st → SeenInv W H st →
      Inv W H (bfsLoop W H fuel st) ∧ SeenInv W H (bfsLoop W H fuel st) := by
  intro fuel
  induction fuel with
  | zero => intro st h hS; exact ⟨h, hS⟩
  | succ n ih =>
    intro st h hS
    match hq : st.queue with
    | [] =>
      simp only [bfsLoop, hq]
      exact ⟨h, hS⟩
    | (x, y) :: rest =>
      obtain ⟨hInv', hS'⟩ := bfsPop_seenInv hq h hS
      have := ih (bfsPop W H st x y rest) hInv' hS'
      simpa only [bfsLoop, hq] using this

theorem seedBorder_seenInv {W H : ℕ} {st : BfsState} (h : Inv W H st)
    (hS : SeenInv W H st) :
    Inv W H (seedBorder W H st) ∧ SeenInv W H (seedBorder W H st) := by
  unfold seedBorder
  have hx : ∀ (s : BfsState) (x : ℕ), (Inv W H s ∧ SeenInv W H s) →
      (Inv W H
        (let s' := if 1/2 < s.like.getD x 0 then enqueue W s x 0 else s
          if 1/2 < s'.like.getD ((H - 1) * W + x) 0 then enqueue W s' x (H - 1) else s') ∧
      SeenInv W H
        (let s' := if 1/2 < s.like.getD x 0 then enqueue W s x 0 else s
          if 1/2 < s'.like.getD ((H - 1) * W + x) 0 then enqueue W s' x (H - 1) else s')) := by
    intro s x ⟨hs, hsS⟩
    have e1 := enqueue_cond_inv W H s x 0 x hs (by omega)
    have e1S := enqueue_cond_seenInv W H s x 0 x hs hsS (by omega)
    have e2 := enqueue_cond_inv W H
      (if 1/2 < s.like.getD x 0 then enqueue W s x 0 else s) x (H - 1)
      ((H - 1) * W + x) e1.1 rfl
    have e2S := enqueue_cond_seenInv W H
      (if 1/2 < s.like.getD x 0 then enqueue W s x 0 else s) x (H - 1)
      ((H - 1) * W + x) e1.1 e1S rfl
    exact ⟨e2.1, e2S⟩
  have hy : ∀ (s : BfsState) (y : ℕ), (Inv W H s ∧ SeenInv W H s) →
      (Inv W H
        (let s' := if 1/2 < s.like.getD (y * W) 0 then enqueue W s 0 y else s
          if 1/2 < s'.like.getD (y * W + (W - 1)) 0 then enqueue W s' (W - 1) y else s') ∧
      SeenInv W H
        (let s' := if 1/2 < s.like.getD (y * W) 0 then enqueue W s 0 y else s
          if 1/2 < s'.like.getD (y * W + (W - 1)) 0 then enqueue W s' (W - 1) y else s')) := by
    intro s y ⟨hs, hsS⟩
    have e1 := enqueue_cond_inv W H s 0 y (y * W) hs (by omega)
    have e1S := enqueue_cond_seenInv W H s 0 y (y * W) hs hsS (by omega)
    have e2 := enqueue_cond_inv W H
      (if 1/2 < s.like.getD (y * W) 0 then enqueue W s 0 y else s) (W - 1) y
      (y * W + (W - 1)) e1.1 rfl
    have e2S := enqueue_cond_seenInv W H
      (if 1/2 < s.like.getD (y * W) 0 then enqueue W s 0 y else s) (W - 1) y
      (y * W + (W - 1)) e1.1 e1S rfl
    exact ⟨e2.1, e2S⟩
  have hmid := foldl_preserve (P := fun s => Inv W H s ∧ SeenInv W H s)
    hx (List.range W) st ⟨h, hS⟩
  exact foldl_preserve (P := fun s => Inv W H s ∧ SeenInv W H s)
    hy (List.range H) _ hmid

/-- After the full region growth, every pixel whose `seen` flag is set
has had its likelihood committed to exactly 1. -/
theorem bfsRun_seen_like {W H : ℕ} {like0 : List ℚ}
    (hlen : like0.length = W * H) :
    ∀ i, (bfsRun W H like0).seen.getD i false = true →
      (bfsRun W H like0).like.getD i 0 = 1 := by
  have hInit : Inv W H
      { like := like0, seen := List.replicate (W * H) false, queue := [], tail := 0 } := by
    refine ⟨hlen, by simp, ?_, by simp⟩
    exact (List.count_eq_zero.mpr (by simp)).symm
  have hInitS : SeenInv W H
      { like := like0, seen := List.replicate (W * H) false, queue := [], tail := 0 } := by
    constructor
    · intro i hi
      exfalso
      by_cases hlt : i < W * H
      · rw [List.getD_eq_getElem?_getD, List.getElem?_eq_getElem (by simpa using hlt)] at hi
        simp at hi
      · rw [getD_default_of_le _ _ (by simpa using hlt)] at hi
        exact Bool.false_ne_true hi
    · intro ab hab
      simp at hab
  unfold bfsRun
  obtain ⟨hseed, hseedS⟩ := seedBorder_seenInv hInit hInitS
  obtain ⟨hfin, hfinS⟩ := bfsLoop_seenInv (W * H) _ hseed hseedS
  obtain ⟨-, hqempty⟩ := bfsLoop_drain (W * H) _ hseed (measure_le_of_inv hseed)
  intro i hi
  rcases hfinS.1 i hi with hqmem | hlone
  · exfalso
    unfold queueIdxs at hqmem
    rw [hqempty] at hqmem
    simp at hqmem
  · exact hlone

end V1

namespace SpecC6

/-! ## The mask refiner as claimed

These definitions follow the wording of the specification's mask
refiner (to compare the claimed behaviour with the V1 source): the
float mask is the indicator of the visited set, and the blur — when
`feather > 0` — is a separable box blur **of radius `feather`**, each
output being the mean of the boundary-clamped window of the grid
positions within distance `radius` (up to `2*radius+1` entries). -/

/-- The claimed binary conversion: 1.0 exactly on visited pixels. -/
def claimMask (total : ℕ) (seen : List Bool) : List ℚ :=
  (List.range total).map fun i => if seen.getD i false then (1 : ℚ) else 0

/-- The grid positions of a row (length `n`) within distance `radius`
of position `x`, boundary-clamped: the claimed blur window. -/
def claimWindow (n x : ℕ) (radius : ℚ) : List ℕ :=
  let lo : ℤ := max 0 ⌈(x : ℚ) - radius⌉
  let hi : ℤ := min ((n : ℤ) - 1) ⌊(x : ℚ) + radius⌋
  (List.range (hi + 1 - lo).toNat).map fun k => lo.toNat + k

/-- The claimed separable blur: horizontal pass into a temporary
buffer, vertical pass back, each output the mean of its window. -/
def claimBlur (W H : ℕ) (radius : ℚ) (m : List ℚ) : List ℚ :=
  let tmp : List ℚ :=
    (List.range H).flatMap fun y =>
      (List.range W).map fun x =>
        let win := claimWindow W x radius
        ((win.map fun xi => m.getD (y * W + xi) 0).sum) / (win.length : ℚ)
  (List.range H).flatMap fun y =>
    (List.range W).map fun x =>
      let win := claimWindow H y radius
      ((win.map fun yi => tmp.getD (yi * W + x) 0).sum) / (win.length : ℚ)

/-- The refiner stage exactly as the claim states it: indicator of the
visited set, blurred with radius `feather` when `feather > 0`. -/
def claimRefinerStage (W H : ℕ) (feather : ℚ) (seen : List Bool) : List ℚ :=
  if 0 < feather then claimBlur W H feather (claimMask (W * H) seen)
  else claimMask (W * H) seen

/-- For a whole-number radius the claimed window is exactly the V1
source's clamped index range. -/
theorem claimWindow_eq (n x r : ℕ) (hx : x < n) :
    claimWindow n x (r : ℚ) = Js.rangeIncl (x - r) (min (n - 1) (x + r)) := by
  unfold claimWindow Js.rangeIncl
  have hceil : ⌈(x : ℚ) - (r : ℚ)⌉ = (x : ℤ) - r := by
    rw [show (x : ℚ) - (r : ℚ) = (((x : ℤ) - r : ℤ) : ℚ) by push_cast; ring]
    exact Int.ceil_intCast _
  have hfloor : ⌊(x : ℚ) + (r : ℚ)⌋ = (x : ℤ) + r := by
    rw [show (x : ℚ) + (r : ℚ) = (((x : ℤ) + r : ℤ) : ℚ) by push_cast; ring]
    exact Int.floor_intCast _
  rw [hceil, hfloor]
  dsimp only
  have hcount : (min ((n : ℤ) - 1) ((x : ℤ) + r) + 1 - max 0 ((x : ℤ) - r)).toNat =
      min (n - 1) (x + r) + 1 - (x - r) := by
    have h1 : ((min (n - 1) (x + r) : ℕ) : ℤ) = min ((n : ℤ) - 1) ((x : ℤ) + r) := by
      push_cast [Nat.cast_min]
      omega
    omega
  rw [hcount]
  apply List.map_congr_left
  intro k hk
  rw [List.mem_range] at hk
  omega

theorem flatMap_congr' {α β : Type} {l : List α} {f g : α → List β}
    (h : ∀ a ∈ l, f a = g a) : l.flatMap f = l.flatMap g := by
  induction l with
  | nil => rfl
  | cons a tl ih =>
    simp only [List.flatMap_cons]
    rw [h a (by simp), ih fun a ha => h a (by simp [ha])]

/-- The V1 source blur (`applyFeather`) coincides with the claimed
separable blur at every whole-number radius `r ≥ 1`. -/
theorem applyFeather_eq_claimBlur (m : List ℚ) (W H : ℕ) (r : ℕ) (hr : 1 ≤ r) :
    V1.applyFeather m W H (r : ℤ) = claimBlur W H (r : ℚ) m := by
  unfold V1.applyFeather claimBlur
  rw [if_neg (by omega : ¬ (r : ℤ) ≤ 0)]
  simp only [Int.toNat_natCast]
  have htmp : ((List.range H).flatMap fun y =>
      (List.range W).map fun x =>
        let start := x - r
        let e := min (W - 1) (x + r)
        let sum := ((Js.rangeIncl start e).map fun xi =>
          m.getD (y * W + xi) 0).sum
        sum / ((e - start + 1 : ℕ) : ℚ)) =
      ((List.range H).flatMap fun y =>
        (List.range W).map fun x =>
          let win := claimWindow W x (r : ℚ)
          ((win.map fun xi => m.getD (y * W + xi) 0).sum) / (win.length : ℚ)) := by
    apply flatMap_congr'
    intro y hy
    apply List.map_congr_left
    intro x hx
    rw [List.mem_range] at hx
    dsimp only
    rw [claimWindow_eq W x r hx, V1.rangeIncl_length]
    congr 2
    omega
  rw [htmp]
  apply flatMap_congr'
  intro y hy
  apply List.map_congr_left
  intro x hx
  rw [List.mem_range] at hy
  dsimp only
  rw [claimWindow_eq H y r hy, V1.rangeIncl_length]
  congr 2
  omega

end SpecC6

namespace V1

/-- The likelihood array that `run` hands to the region growth. -/
def like0Of (M : MathFns) (W H : ℕ) (data : List ℚ) (o : Options) : List ℚ :=
  likeArr M W H (labArr M (W * H) data) (gradArr M W H (lumArr (W * H) data))
    (rgbToLab M (references M data W H).1.1 (references M data W H).1.2.1
      (references M data W H).1.2.2)
    (rgbToLab M (references M data W H).2.1 (references M data W H).2.2.1
      (references M data W H).2.2.2)
    o.colorTol o.gradKeep
    (bestPeriod M W H (labArr M (W * H) data)
      (rgbToLab M (references M data W H).1.1 (references M data W H).1.2.1
        (references M data W H).1.2.2)
      (rgbToLab M (references M data W H).2.1 (references M data W H).2.2.1
        (references M data W H).2.2.2)
      o.colorTol o.tileGuess)

theorem run_bfs_eq (M : MathFns) (W H : ℕ) (data : List ℚ) (o : Options) :
    (run M W H data o).bfs = bfsRun W H (like0Of M W H data o) := rfl

theorem like0Of_length (M : MathFns) (W H : ℕ) (data : List ℚ) (o : Options) :
    (like0Of M W H data o).length = W * H :=
  likeArr_length M W H _ _ _ _ _ _ _

theorem run_mask_eq (M : MathFns) (W H : ℕ) (data : List ℚ) (o : Options) :
    (run M W H data o).mask =
      featherStage W H o.feather (mask0 (W * H) (run M W H data o).bfs.like) := rfl

end V1

namespace SpecC6

/-- The 5×1 counterexample image for C6 (RGBA bytes, row-major): a
single row `[black, (10,10,10), black, black, black]`.  The near-black
pixel keeps every color-conversion branch linear (each channel is at
most 10, so `c/255 ≤ 0.04045`, and every XYZ ratio stays below
`0.008856`), so the run makes no `cbrt`/`pow` call; a one-row image
has no interior pixels, so it makes no `hypot` call either.  The only
host-math calls of the whole run are `sqrt 0` and `sqrt ceS`. -/
def ceImage : List ℚ :=
  [0,0,0,255, 10,10,10,255, 0,0,0,255, 0,0,0,255, 0,0,0,255]

/-- The exact Lab value of the near-black pixel `(10,10,10)`: all
conversion branches are linear, so it is the same exact rational
triple under every host model (`L ≈ 2.74174`, `a ≈ -1.2e-6`,
`b ≈ 4.7e-7`). -/
def ceLabB : ℚ × ℚ × ℚ := V1.rgbToLab MathFns.zero 10 10 10

/-- The squared Lab distance between the near-black pixel and the
black reference, `ceS ≈ 7.51711`.  The real `Math.sqrt` gives
`√ceS ≈ 2.74174 ≥ 1`. -/
def ceS : ℚ := ceLabB.1 * ceLabB.1 + ceLabB.2.1 * ceLabB.2.1 +
  ceLabB.2.2 * ceLabB.2.2

/-- Host functions for the counterexample run.  The run evaluates
`sqrt` only at `0` (value `0`, the real library's value) and at
`ceS ≈ 7.51711` (value `2.7417`, the real `√ceS` to four decimals);
`cbrt`, `pow` and `hypot` are never reached on `ceImage`.  By
`ce_run_of_sqrt` the same masks arise for every host model with
`sqrt 0 = 0` and `1 ≤ sqrt ceS` — the real library satisfies both —
so the divergence exhibited below is the real program's behaviour. -/
def ceMath : MathFns :=
  { sqrt := fun q => if q = 0 then 0 else 2.7417, cbrt := fun _ => 0
    pow24 := fun _ => 0, hypot2 := fun _ _ => 0, hypot3 := fun _ _ _ => 0 }

/-- Options for the counterexample: `colorTol = 1`, so the near-black
pixel's likelihood `max(0, 1 - dist/1)` clamps to exactly `0` for any
`dist ≥ 1` (the precise value of `√ceS` is irrelevant), and
`feather = 1/2`, where the code blurs with radius `max(1,⌊1/2⌋) = 1`
while the claimed refiner blurs with radius `1/2`, whose
boundary-clamped windows are single pixels. -/
def ceOpts : Options :=
  { colorTol := 1, tileGuess := 16, gradKeep := 10, feather := 1/2
    seedPoints := [], mode := Mode.auto }

end SpecC6

theorem SpecC6.rgbToLab_black (M : MathFns) :
    V1.rgbToLab M 0 0 0 = (0, 0, 0) := by
  unfold V1.rgbToLab V1.srgbToLinear V1.labF
  norm_num

theorem SpecC6.rgbToLab_nearBlack (M : MathFns) :
    V1.rgbToLab M 10 10 10 = SpecC6.ceLabB := by
  unfold SpecC6.ceLabB V1.rgbToLab V1.srgbToLinear V1.labF
  norm_num

set_option maxRecDepth 1000000 in
unseal Rat.add Rat.mul Rat.inv Rat.sub Rat.ofScientific in
theorem SpecC6.corner_ce :
    V1.cornerSamples SpecC6.ceImage 5 1 =
      [(0,0,0), (10,10,10), (0,0,0), (0,0,0), (0,0,0),
       (0,0,0), (10,10,10), (0,0,0), (0,0,0), (0,0,0),
       (0,0,0), (10,10,10), (0,0,0), (0,0,0), (0,0,0),
       (0,0,0), (10,10,10), (0,0,0), (0,0,0), (0,0,0)] := by decide

/-- The corner `L` values of the counterexample image. -/
def SpecC6.ceLs : List ℚ :=
  [0, SpecC6.ceLabB.1, 0, 0, 0, 0, SpecC6.ceLabB.1, 0, 0, 0,
   0, SpecC6.ceLabB.1, 0, 0, 0, 0, SpecC6.ceLabB.1, 0, 0, 0]

/-- The tail of `V1.references` with the corner samples and their `L`
values abstracted out (verbatim the source's median split), so the
split can be evaluated after the host-dependent `L` conversion has
been rewritten away. -/
def SpecC6.refsAux (corner : List (ℚ × ℚ × ℚ)) (cornerLs : List ℚ) :
    (ℚ × ℚ × ℚ) × (ℚ × ℚ × ℚ) :=
  let sortedL := Js.sortAsc cornerLs
  let medianL := sortedL.getD (sortedL.length / 2) 0
  let zipped := corner.zip cornerLs
  let lightSamples := (zipped.filter fun sc => medianL ≤ sc.2).map (·.1)
  let darkSamples := (zipped.filter fun sc => ¬ medianL ≤ sc.2).map (·.1)
  (V1.medianColor (if lightSamples.isEmpty then corner else lightSamples),
    V1.medianColor (if darkSamples.isEmpty then corner else darkSamples))

theorem SpecC6.references_refsAux (M : MathFns) (data : List ℚ) (W H : ℕ) :
    V1.references M data W H = SpecC6.refsAux (V1.cornerSamples data W H)
      ((V1.cornerSamples data W H).map fun s =>
        (V1.rgbToLab M s.1 s.2.1 s.2.2).1) := rfl

theorem SpecC6.ce_Ls (M : MathFns) :
    (([(0,0,0), (10,10,10), (0,0,0), (0,0,0), (0,0,0),
       (0,0,0), (10,10,10), (0,0,0), (0,0,0), (0,0,0),
       (0,0,0), (10,10,10), (0,0,0), (0,0,0), (0,0,0),
       (0,0,0), (10,10,10), (0,0,0), (0,0,0), (0,0,0)] :
        List (ℚ × ℚ × ℚ)).map fun s =>
      (V1.rgbToLab M s.1 s.2.1 s.2.2).1) = SpecC6.ceLs := by
  simp only [List.map_cons, List.map_nil]
  try dsimp only
  rw [SpecC6.rgbToLab_black M, SpecC6.rgbToLab_nearBlack M]
  rfl

set_option maxRecDepth 1000000 in
unseal Rat.add Rat.mul Rat.inv Rat.sub Rat.ofScientific in
theorem SpecC6.refs_ce (M : MathFns) :
    V1.references M SpecC6.ceImage 5 1 = ((0, 0, 0), (0, 0, 0)) := by
  rw [SpecC6.references_refsAux, SpecC6.corner_ce, SpecC6.ce_Ls M]
  decide

theorem SpecC6.grad51 (M : MathFns) (lum : List ℚ) (p : ℕ) (hp : p < 5) :
    (V1.gradArr M 5 1 lum).getD p 0 = 0 := by
  unfold V1.gradArr
  rw [V1.grid_getD 5 _ 0 1 p (by omega)]
  have hc : ¬ (1 ≤ p / 5 ∧ p / 5 < 1 - 1 ∧ 1 ≤ p % 5 ∧ p % 5 < 5 - 1) := by
    rintro ⟨-, h2, -⟩
    omega
  rw [if_neg hc]

theorem SpecC6.lab51 (M : MathFns) (p : ℕ) (hp : p < 5) :
    (V1.labArr M (5 * 1) SpecC6.ceImage).getD p (0, 0, 0) =
      V1.rgbToLab M (SpecC6.ceImage.getD (4 * p) 0)
        (SpecC6.ceImage.getD (4 * p + 1) 0)
        (SpecC6.ceImage.getD (4 * p + 2) 0) := by
  unfold V1.labArr
  rw [V1.range_map_getD _ _ (by omega : p < 5 * 1)]

theorem SpecC6.ce_like0 (M : MathFns) (h0 : M.sqrt 0 = 0)
    (h1 : 1 ≤ M.sqrt SpecC6.ceS) :
    V1.like0Of M 5 1 SpecC6.ceImage SpecC6.ceOpts = [1, 0, 1, 1, 1] := by
  unfold V1.like0Of
  rw [SpecC6.refs_ce]
  rw [show SpecC6.ceOpts.colorTol = 1 from rfl,
    show SpecC6.ceOpts.gradKeep = 10 from rfl]
  dsimp only
  rw [SpecC6.rgbToLab_black M]
  unfold V1.likeArr
  rw [show List.range 1 = [0] from rfl,
    show List.range 5 = [0, 1, 2, 3, 4] from rfl]
  simp only [List.flatMap_cons, List.flatMap_nil, List.append_nil,
    List.map_cons, List.map_nil, List.cons.injEq, and_true]
  refine ⟨?_, ?_, ?_, ?_, ?_⟩
  · dsimp only
    rw [show (0 * 5 + 0 : ℕ) = 0 from rfl]
    rw [SpecC6.lab51 M 0 (by omega)]
    rw [show SpecC6.ceImage.getD (4 * 0) 0 = 0 from rfl,
      show SpecC6.ceImage.getD (4 * 0 + 1) 0 = 0 from rfl,
      show SpecC6.ceImage.getD (4 * 0 + 2) 0 = 0 from rfl]
    rw [SpecC6.rgbToLab_black M]
    rw [SpecC6.grad51 M _ 0 (by omega)]
    rw [if_neg (by norm_num : ¬ (10 : ℚ) < 0)]
    rw [ite_self]
    unfold V1.distLab
    dsimp only
    norm_num
    rw [h0]
    norm_num [max_def]
  · dsimp only
    rw [show (0 * 5 + 1 : ℕ) = 1 from rfl]
    rw [SpecC6.lab51 M 1 (by omega)]
    rw [show SpecC6.ceImage.getD (4 * 1) 0 = 10 from rfl,
      show SpecC6.ceImage.getD (4 * 1 + 1) 0 = 10 from rfl,
      show SpecC6.ceImage.getD (4 * 1 + 2) 0 = 10 from rfl]
    rw [SpecC6.rgbToLab_nearBlack M]
    rw [SpecC6.grad51 M _ 1 (by omega)]
    rw [if_neg (by norm_num : ¬ (10 : ℚ) < 0)]
    rw [ite_self]
    unfold V1.distLab
    dsimp only
    rw [show (SpecC6.ceLabB.1 - 0) * (SpecC6.ceLabB.1 - 0) +
      (SpecC6.ceLabB.2.1 - 0) * (SpecC6.ceLabB.2.1 - 0) +
      (SpecC6.ceLabB.2.2 - 0) * (SpecC6.ceLabB.2.2 - 0) = SpecC6.ceS by
        unfold SpecC6.ceS; ring]
    rw [div_one]
    exact max_eq_left (by linarith)
  · dsimp only
    rw [show (0 * 5 + 2 : ℕ) = 2 from rfl]
    rw [SpecC6.lab51 M 2 (by omega)]
    rw [show SpecC6.ceImage.getD (4 * 2) 0 = 0 from rfl,
      show SpecC6.ceImage.getD (4 * 2 + 1) 0 = 0 from rfl,
      show SpecC6.ceImage.getD (4 * 2 + 2) 0 = 0 from rfl]
    rw [SpecC6.rgbToLab_black M]
    rw [SpecC6.grad51 M _ 2 (by omega)]
    rw [if_neg (by norm_num : ¬ (10 : ℚ) < 0)]
    rw [ite_self]
    unfold V1.distLab
    dsimp only
    norm_num
    rw [h0]
    norm_num [max_def]
  · dsimp only
    rw [show (0 * 5 + 3 : ℕ) = 3 from rfl]
    rw [SpecC6.lab51 M 3 (by omega)]
    rw [show SpecC6.ceImage.getD (4 * 3) 0 = 0 from rfl,
      show SpecC6.ceImage.getD (4 * 3 + 1) 0 = 0 from rfl,
      show SpecC6.ceImage.getD (4 * 3 + 2) 0 = 0 from rfl]
    rw [SpecC6.rgbToLab_black M]
    rw [SpecC6.grad51 M _ 3 (by omega)]
    rw [if_neg (by norm_num : ¬ (10 : ℚ) < 0)]
    rw [ite_self]
    unfold V1.distLab
    dsimp only
    norm_num
    rw [h0]
    norm_num [max_def]
  · dsimp only
    rw [show (0 * 5 + 4 : ℕ) = 4 from rfl]
    rw [SpecC6.lab51 M 4 (by omega)]
    rw [show SpecC6.ceImage.getD (4 * 4) 0 = 0 from rfl,
      show SpecC6.ceImage.getD (4 * 4 + 1) 0 = 0 from rfl,
      show SpecC6.ceImage.getD (4 * 4 + 2) 0 = 0 from rfl]
    rw [SpecC6.rgbToLab_black M]
    rw [SpecC6.grad51 M _ 4 (by omega)]
    rw [if_neg (by norm_num : ¬ (10 : ℚ) < 0)]
    rw [ite_self]
    unfold V1.distLab
    dsimp only
    norm_num
    rw [h0]
    norm_num [max_def]

set_option maxRecDepth 1000000 in
unseal Rat.add Rat.mul Rat.inv Rat.sub Rat.ofScientific in
theorem SpecC6.ce_mask_eval :
    V1.featherStage 5 1 SpecC6.ceOpts.feather
      (V1.mask0 (5 * 1) (V1.bfsRun 5 1 [1, 0, 1, 1, 1]).like) =
      [1/2, 2/3, 2/3, 1, 1] := by decide

set_option maxRecDepth 1000000 in
unseal Rat.add Rat.mul Rat.inv Rat.sub Rat.ofScientific in
theorem SpecC6.ce_seen_eval :
    (V1.bfsRun 5 1 [1, 0, 1, 1, 1]).seen = [true, false, true, true, true] := by
  decide

set_option maxRecDepth 1000000 in
unseal Rat.add Rat.mul Rat.inv Rat.sub Rat.ofScientific in
theorem SpecC6.ce_claim_eval :
    SpecC6.claimRefinerStage 5 1 SpecC6.ceOpts.feather
      [true, false, true, true, true] = [1, 0, 1, 1, 1] := by decide

set_option maxRecDepth 1000000 in
unseal Rat.add Rat.mul Rat.inv Rat.sub Rat.ofScientific in
theorem SpecC6.ce_math_sqrt0 : SpecC6.ceMath.sqrt 0 = 0 := by decide

set_option maxRecDepth 1000000 in
unseal Rat.add Rat.mul Rat.inv Rat.sub Rat.ofScientific in
theorem SpecC6.ce_math_sqrtS : 1 ≤ SpecC6.ceMath.sqrt SpecC6.ceS := by decide

/-- The whole counterexample run, for EVERY host-math model that sends
`0` to `0` and the one nonzero `sqrt` argument `ceS ≈ 7.51711` to
anything at least `1` — a class containing the real `Math` library
(`√ceS ≈ 2.74174`): the region growth visits exactly the four black
pixels, and the final mask is the radius-1 blur of `[1,0,1,1,1]`. -/
theorem SpecC6.ce_run_of_sqrt (M : MathFns) (h0 : M.sqrt 0 = 0)
    (h1 : 1 ≤ M.sqrt SpecC6.ceS) :
    (V1.run M 5 1 SpecC6.ceImage SpecC6.ceOpts).mask = [1/2, 2/3, 2/3, 1, 1] ∧
    (V1.run M 5 1 SpecC6.ceImage SpecC6.ceOpts).bfs.seen =
      [true, false, true, true, true] := by
  have hl := SpecC6.ce_like0 M h0 h1
  constructor
  · rw [V1.run_mask_eq, V1.run_bfs_eq, hl]
    exact SpecC6.ce_mask_eval
  · rw [V1.run_bfs_eq, hl]
    exact SpecC6.ce_seen_eval

/-- C6 counterexample: the refiner stage of V1 does not implement the
claim — its blur radius is `max(1, ⌊feather⌋)`, not `feather`.  On the
concrete 5×1 row `[black, (10,10,10), black, black, black]` with
`colorTol = 1` and `feather = 1/2`, the region growth visits exactly
the four black pixels (the near-black pixel's likelihood clamps to 0),
and the code blurs the resulting mask `[1,0,1,1,1]` with radius
`max(1,⌊1/2⌋) = 1`, giving `1/2` at pixel 0; the claimed refiner blurs
the same indicator with radius `1/2`, whose boundary-clamped windows
are single pixels, and yields `1` there.  The divergence is the real
program's behaviour: by `ce_run_of_sqrt` it arises for every host-math
model with `sqrt 0 = 0` and `1 ≤ sqrt ceS`, and the real `Math.sqrt`
gives `0` and `≈ 2.74174` at the only two evaluated arguments. -/
theorem mask_refiner_claim_counterexample :
    ¬ ∀ (M : MathFns) (W H : ℕ) (data : List ℚ) (o : Options),
        (V1.run M W H data o).mask =
          SpecC6.claimRefinerStage W H o.feather (V1.run M W H data o).bfs.seen := by
  intro hclaim
  have hrun := SpecC6.ce_run_of_sqrt SpecC6.ceMath SpecC6.ce_math_sqrt0
    SpecC6.ce_math_sqrtS
  have hc := hclaim SpecC6.ceMath 5 1 SpecC6.ceImage SpecC6.ceOpts
  rw [hrun.1, hrun.2, SpecC6.ce_claim_eval] at hc
  have h00 := congrArg (fun l : List ℚ => l.getD 0 0) hc
  simp only [List.getD_cons_zero] at h00
  norm_num at h00

/-- C6 (amended): the V1 mask refiner converts the post-growth
likelihood map to a float mask that is 1.0 exactly where the final
likelihood is at least 1 — which includes every visited pixel — and,
whenever `feather > 0`, applies the separable boundary-clamped box-mean
blur (horizontal pass into a temporary buffer, vertical pass back) with
radius `max(1, ⌊feather⌋)` rather than `feather` itself; when
`feather ≤ 0` the mask is left binary and unblurred. -/
theorem mask_refiner_amended (M : MathFns) (W H : ℕ) (data : List ℚ) (o : Options) :
    (∀ p, p < W * H →
      (V1.mask0 (W * H) (V1.run M W H data o).bfs.like).getD p 0 =
        (if 1 ≤ (V1.run M W H data o).bfs.like.getD p 0 then (1 : ℚ) else 0)) ∧
    (∀ p, (V1.run M W H data o).bfs.seen.getD p false = true →
      (V1.mask0 (W * H) (V1.run M W H data o).bfs.like).getD p 0 = 1) ∧
    (0 < o.feather → (V1.run M W H data o).mask =
      SpecC6.claimBlur W H ((max 1 ⌊o.feather⌋ : ℤ) : ℚ)
        (V1.mask0 (W * H) (V1.run M W H data o).bfs.like)) ∧
    (o.feather ≤ 0 → (V1.run M W H data o).mask =
      V1.mask0 (W * H) (V1.run M W H data o).bfs.like) := by
  refine ⟨?_, ?_, ?_, ?_⟩
  · intro p hp
    unfold V1.mask0
    rw [V1.range_map_getD _ _ hp]
  · intro p hseen
    rw [V1.run_bfs_eq] at hseen ⊢
    have hlen := V1.like0Of_length M W H data o
    have hlike1 := V1.bfsRun_seen_like hlen p hseen
    obtain ⟨⟨-, hslen, -, -⟩, -⟩ := V1.bfsRun_inv W H _ hlen
    have hp : p < W * H := by
      by_contra hge
      rw [V1.getD_default_of_le _ _ (by omega)] at hseen
      exact Bool.false_ne_true hseen
    unfold V1.mask0
    rw [V1.range_map_getD _ _ hp, if_pos (by rw [hlike1])]
  · intro hf
    rw [V1.run_mask_eq]
    unfold V1.featherStage
    rw [if_pos hf]
    have h1 : (1 : ℤ) ≤ max 1 ⌊o.feather⌋ := le_max_left _ _
    have h2 : max 1 ⌊o.feather⌋ = (((max 1 ⌊o.feather⌋).toNat : ℕ) : ℤ) := by omega
    rw [h2]
    rw [SpecC6.applyFeather_eq_claimBlur _ W H _ (by omega)]
    congr 1
  · intro hf
    rw [V1.run_mask_eq]
    unfold V1.featherStage
    rw [if_neg (by linarith)]

/-- Witness for C6 (amended), instantiated at a 1×1 black image with
the default options (`feather = 2 > 0`). -/
theorem mask_refiner_amended_witness :
    (V1.run MathFns.zero 1 1 [0, 0, 0, 0] Options.default).mask =
      SpecC6.claimBlur 1 1 ((max 1 ⌊(Options.default).feather⌋ : ℤ) : ℚ)
        (V1.mask0 (1 * 1)
          (V1.run MathFns.zero 1 1 [0, 0, 0, 0] Options.default).bfs.like) :=
  (mask_refiner_amended MathFns.zero 1 1 [0, 0, 0, 0] Options.default).2.2.1
    (by norm_num [Options.default])

namespace SpecEngine

/-! ## The cluster/seed background engine (spec §4.1–§4.4)

The spec describes a background sampler, greedy Lab clustering, an
adaptive tolerance, and a mode/seed-aware region grower.  That code is
absent from `src/` — `src/utils/transparency.ts` holds only the two
corner-patch variants, while `src/types.ts` declares `seedPoints`,
`mode` and `TransparencySeed` and `src/unnamed` callers pass them — so
this engine is modelled from the spec's §4 text.  Pixel access and the
Lab conversion are shared with the V1 model (the spec reuses the same
`rgb2lab`). -/

/-- Modelled from the spec: Lab distance between two Lab triples
(`labDistance`, the Euclidean norm of the componentwise difference,
computed by the host hypot). -/
def labDist (M : MathFns) (a b : ℚ × ℚ × ℚ) : ℚ :=
  M.hypot3 (a.1 - b.1) (a.2.1 - b.2.1) (a.2.2 - b.2.2)

/-- Modelled from the spec: RGB triple of pixel `p` of the RGBA buffer. -/
def pixelRGB (data : List ℚ) (p : ℕ) : ℚ × ℚ × ℚ :=
  (data.getD (4 * p) 0, data.getD (4 * p + 1) 0, data.getD (4 * p + 2) 0)

/-- Modelled from the spec: Lab triple of an RGB triple (shared `rgb2lab`). -/
def labOfRGB (M : MathFns) (s : ℚ × ℚ × ℚ) : ℚ × ℚ × ℚ :=
  V1.rgbToLab M s.1 s.2.1 s.2.2

/-- Modelled from the spec: Lab triple of pixel `p`. -/
def pixelLab (M : MathFns) (data : List ℚ) (p : ℕ) : ℚ × ℚ × ℚ :=
  labOfRGB M (pixelRGB data p)

/-- Modelled from the spec: the border sampling stride
`max(1, floor(min(W,H)/max(8,tileGuess)))`. -/
def stride (W H : ℕ) (tileGuess : ℚ) : ℕ :=
  (max 1 ⌊((min W H : ℕ) : ℚ) / max 8 tileGuess⌋).toNat

/-- Modelled from the spec: the border walk at stride `s` — every
stride-multiple position along the top and bottom rows and the left and
right columns, plus all four corners. -/
def borderCoords (W H s : ℕ) : List (ℕ × ℕ) :=
  ((List.range W).filter (fun x => x % s = 0)).map (fun x => (x, 0)) ++
    ((List.range W).filter (fun x => x % s = 0)).map (fun x => (x, H - 1)) ++
    ((List.range H).filter (fun y => y % s = 0)).map (fun y => (0, y)) ++
    ((List.range H).filter (fun y => y % s = 0)).map (fun y => (W - 1, y)) ++
    [(0, 0), (W - 1, 0), (0, H - 1), (W - 1, H - 1)]

/-- Modelled from the spec: the sampled border coordinates. -/
def samplerCoords (W H : ℕ) (tileGuess : ℚ) : List (ℕ × ℕ) :=
  borderCoords W H (stride W H tileGuess)

/-- Modelled from the spec: RGB samples collected by the border walk. -/
def autoSamples (W H : ℕ) (tileGuess : ℚ) (data : List ℚ) : List (ℚ × ℚ × ℚ) :=
  (samplerCoords W H tileGuess).map fun c => pixelRGB data (c.2 * W + c.1)

/-- Modelled from the spec: whether the mode allows automatic border
sampling (`auto` and `auto+seed`). -/
def usesAuto : Mode → Bool
  | Mode.auto => true
  | Mode.seed => false
  | Mode.autoSeed => true

/-- Modelled from the spec: whether the mode uses user seed points
(`seed` and `auto+seed`). -/
def usesSeeds : Mode → Bool
  | Mode.auto => false
  | Mode.seed => true
  | Mode.autoSeed => true

/-- Modelled from the spec: 4 extra samples at each forced seed. -/
def seedSamples (W : ℕ) (data : List ℚ) (seeds : List Seed) : List (ℚ × ℚ × ℚ) :=
  (seeds.filter (·.force)).flatMap fun s =>
    List.replicate 4 (pixelRGB data (s.y * W + s.x))

/-- Modelled from the spec: all collected samples (border samples when
the mode allows automatic sampling, then forced-seed samples when the
mode uses seeds). -/
def allSamples (W H : ℕ) (o : Options) (data : List ℚ) : List (ℚ × ℚ × ℚ) :=
  (if usesAuto o.mode then autoSamples W H o.tileGuess data else []) ++
    (if usesSeeds o.mode then seedSamples W data o.seedPoints else [])

/-- Modelled from the spec: a cluster — running mean Lab, running mean
RGB, and a sample count. -/
structure Cluster where
  lab : ℚ × ℚ × ℚ
  rgb : ℚ × ℚ × ℚ
  count : ℕ
deriving DecidableEq

/-- Modelled from the spec: a fresh cluster from one sample. -/
def Cluster.ofSample (M : MathFns) (s : ℚ × ℚ × ℚ) : Cluster :=
  { lab := labOfRGB M s, rgb := s, count := 1 }

/-- Modelled from the spec: running-mean update of a triple holding the
mean of `k` samples when one more sample arrives. -/
def mean3 (m : ℚ × ℚ × ℚ) (k : ℕ) (s : ℚ × ℚ × ℚ) : ℚ × ℚ × ℚ :=
  ((m.1 * k + s.1) / (k + 1), (m.2.1 * k + s.2.1) / (k + 1),
    (m.2.2 * k + s.2.2) / (k + 1))

/-- Modelled from the spec: merging a sample into a cluster updates the
running means and the count. -/
def Cluster.merge (M : MathFns) (c : Cluster) (s : ℚ × ℚ × ℚ) : Cluster :=
  { lab := mean3 c.lab c.count (labOfRGB M s)
    rgb := mean3 c.rgb c.count s
    count := c.count + 1 }

/-- Modelled from the spec: the cluster merge threshold
`max(4, colorTol*0.6)`. -/
def mergeThreshold (colorTol : ℚ) : ℚ := max 4 (colorTol * 0.6)

/-- Modelled from the spec: index of and distance to the nearest
cluster (first index on ties), `none` on an empty cluster list. -/
def nearest (M : MathFns) (l : ℚ × ℚ × ℚ) : List Cluster → Option (ℕ × ℚ)
  | [] => none
  | c :: cs =>
    match nearest M l cs with
    | none => some (0, labDist M l c.lab)
    | some (j, d) =>
      if labDist M l c.lab ≤ d then some (0, labDist M l c.lab) else some (j + 1, d)

/-- Modelled from the spec: one greedy clustering step — merge the
sample into the nearest cluster when its Lab distance is below
`max(4, colorTol*0.6)`, otherwise start a new cluster. -/
def clusterStep (M : MathFns) (colorTol : ℚ) (cs : List Cluster)
    (s : ℚ × ℚ × ℚ) : List Cluster :=
  match nearest M (labOfRGB M s) cs with
  | none => cs ++ [Cluster.ofSample M s]
  | some (i, d) =>
    if d < mergeThreshold colorTol then
      cs.set i (Cluster.merge M (cs.getD i (Cluster.ofSample M s)) s)
    else cs ++ [Cluster.ofSample M s]

/-- Modelled from the spec: greedy clustering of all samples in order. -/
def clusterAll (M : MathFns) (colorTol : ℚ) (samples : List (ℚ × ℚ × ℚ)) :
    List Cluster :=
  samples.foldl (clusterStep M colorTol) []

/-- Modelled from the spec: stable insertion (by sample count,
descending; equal counts keep their order) for the cluster sort. -/
def insertByCount (c : Cluster) : List Cluster → List Cluster
  | [] => [c]
  | d :: ds => if d.count < c.count then c :: d :: ds else d :: insertByCount c ds

/-- Modelled from the spec: sort clusters by sample count descending. -/
def sortByCount (l : List Cluster) : List Cluster := l.foldr insertByCount []

/-- Modelled from the spec: the two clusters with the highest counts. -/
def top2 (l : List Cluster) : List Cluster := (sortByCount l).take 2

/-- Modelled from the spec: synthetic single-pixel clusters injected at
seed locations while fewer than 2 clusters exist (dedup within Lab
distance 2). -/
def injectSeeds (M : MathFns) (W : ℕ) (data : List ℚ) (seeds : List Seed)
    (cs : List Cluster) : List Cluster :=
  seeds.foldl
    (fun acc s =>
      if 2 ≤ acc.length then acc
      else
        let lab := pixelLab M data (s.y * W + s.x)
        if acc.any (fun c => labDist M lab c.lab < 2) then acc
        else acc ++ [{ lab := lab, rgb := pixelRGB data (s.y * W + s.x), count := 1 }])
    cs

/-- Modelled from the spec: the cluster list of a call — greedy
clustering of all samples, then seed injection when the mode uses seeds
and fewer than 2 clusters exist. -/
def clustersOf (M : MathFns) (W H : ℕ) (data : List ℚ) (o : Options) :
    List Cluster :=
  let base := clusterAll M o.colorTol (allSamples W H o data)
  if usesSeeds o.mode && decide (base.length < 2) then
    injectSeeds M W data o.seedPoints base
  else base

/-- Modelled from the spec: the pair of background reference clusters —
the top 2 by count, a single cluster duplicated, `none` when no cluster
exists (the `NoBackgroundEstimate` condition). -/
def referencePair (cs : List Cluster) : Option (Cluster × Cluster) :=
  match top2 cs with
  | [] => none
  | [c] => some (c, c)
  | c1 :: c2 :: _ => some (c1, c2)

/-- Modelled from the spec: the per-call tolerance — start from
`max(colorTol, 12)`; when two distinct clusters exist, raise it to the
inter-cluster Lab distance times 0.45, capped at 45. -/
def toleranceOf (M : MathFns) (colorTol : ℚ) (refs : Cluster × Cluster) : ℚ :=
  if refs.1 = refs.2 then max colorTol 12
  else min 45 (max (max colorTol 12) (labDist M refs.1.lab refs.2.lab * 0.45))

/-- Modelled from the spec: distance of a pixel (by its Lab triple) to
the nearest of the two background references. -/
def refDist (M : MathFns) (lab : ℚ × ℚ × ℚ) (refs : Cluster × Cluster) : ℚ :=
  min (labDist M lab refs.1.lab) (labDist M lab refs.2.lab)

/-- Modelled from the spec: the admission rule of the region grower —
reject when `dist` exceeds the (forced: ×1.35) threshold, and
additionally reject non-forced pixels when `gradient > gradKeep` and
`dist > tolerance*0.4`. -/
def accept (tol gradKeep dist grad : ℚ) (force : Bool) : Bool :=
  decide (dist ≤ (if force then tol * 1.35 else tol)) &&
    (force || !(decide (gradKeep < grad) && decide (tol * 0.4 < dist)))

/-- Modelled from the spec: in-bounds 4-connected neighbours of pixel
`p` in a `W`×`H` grid (row-major index). -/
def neighborsOf (W H p : ℕ) : List ℕ :=
  (if p % W + 1 < W then [p + 1] else []) ++
    (if 0 < p % W then [p - 1] else []) ++
    (if p / W + 1 < H then [p + W] else []) ++
    (if 0 < p / W then [p - W] else [])

/-- Modelled from the spec: grower state — visited bitmap and the BFS
queue of (pixel, force-of-the-enqueuing-call) entries. -/
structure GrowState where
  seen : List Bool
  queue : List (ℕ × Bool)

/-- Modelled from the spec: one BFS step — pop the head entry; if
unvisited and accepted, mark visited and enqueue the 4-connected
neighbours (non-forced). -/
def growStep (adm : ℕ → Bool → Bool) (W H : ℕ) : GrowState → GrowState
  | ⟨seen, []⟩ => ⟨seen, []⟩
  | ⟨seen, (p, f) :: rest⟩ =>
    if seen.getD p false then ⟨seen, rest⟩
    else if adm p f then
      ⟨seen.set p true, rest ++ (neighborsOf W H p).map fun q => (q, false)⟩
    else ⟨seen, rest⟩

/-- Modelled from the spec: the BFS loop with explicit fuel (the spec
argues termination; the fuel chosen in `growRun` is proven sufficient). -/
def growLoop (adm : ℕ → Bool → Bool) (W H : ℕ) : ℕ → GrowState → GrowState
  | 0, s => s
  | fuel + 1, s =>
    match s.queue with
    | [] => s
    | _ :: _ => growLoop adm W H fuel (growStep adm W H s)

/-- Modelled from the spec: the initial frontier — stride-sampled
border pixels tested as forced in `auto` modes, the user seeds with
their own force flags in `seed` modes. -/
def initFrontier (W H : ℕ) (o : Options) : List (ℕ × Bool) :=
  (if usesAuto o.mode then
    (samplerCoords W H o.tileGuess).map fun c => (c.2 * W + c.1, true)
  else []) ++
    (if usesSeeds o.mode then o.seedPoints.map fun s => (s.y * W + s.x, s.force)
    else [])

/-- Modelled from the spec: run the region growth to completion. -/
def growRun (adm : ℕ → Bool → Bool) (W H : ℕ) (o : Options) : GrowState :=
  growLoop adm W H (5 * (W * H) + (initFrontier W H o).length)
    ⟨List.replicate (W * H) false, initFrontier W H o⟩

/-- Modelled from the spec: the admission test of a call, reading the
pixel Lab, the reference distances, the tolerance and the Sobel
gradient (the shared Sobel-over-luminance map of the source). -/
def acceptOf (M : MathFns) (W H : ℕ) (data : List ℚ) (o : Options)
    (refs : Cluster × Cluster) (p : ℕ) (f : Bool) : Bool :=
  accept (toleranceOf M o.colorTol refs) o.gradKeep
    (refDist M (pixelLab M data p) refs)
    ((V1.gradArr M W H (V1.lumArr (W * H) data)).getD p 0) f

/-- Modelled from the spec: the visited bitmap of a full engine call —
all-false (input returned unchanged) when no background estimate
exists, otherwise the grown region. -/
def visited (M : MathFns) (W H : ℕ) (data : List ℚ) (o : Options) : List Bool :=
  match referencePair (clustersOf M W H data o) with
  | none => List.replicate (W * H) false
  | some refs => (growRun (acceptOf M W H data o refs) W H o).seen

/-- Modelled from the spec: a path inside the pixel set `R` — each
entry satisfies `R`, consecutive entries are 4-connected. -/
def pathOk (W H : ℕ) (R : ℕ → Bool) : List ℕ → Bool
  | [] => true
  | [p] => R p
  | p :: q :: rest =>
    R p && decide (q ∈ neighborsOf W H p) && pathOk W H R (q :: rest)

end SpecEngine

namespace SpecEngine

theorem toleranceOf_ge_12 (M : MathFns) (ct : ℚ) (refs : Cluster × Cluster) :
    12 ≤ toleranceOf M ct refs := by
  unfold toleranceOf
  split
  · exact le_max_right _ _
  · exact le_min (by norm_num) (le_trans (le_max_right _ _) (le_max_left _ _))

theorem accept_edge_iff (tol gk dist grad : ℚ) (h0 : 0 ≤ tol) (hg : gk < grad) :
    (accept tol gk dist grad false = false ↔ tol * 0.4 < dist) := by
  have h04 : tol * 0.4 ≤ tol := by nlinarith
  constructor
  · intro h
    by_contra hlt
    have hd : dist ≤ tol := le_trans (not_lt.mp hlt) h04
    have htrue : accept tol gk dist grad false = true := by
      unfold accept
      simp [hd, hlt]
    rw [htrue] at h
    exact Bool.true_eq_false.mp h
  · intro hlt
    unfold accept
    simp [hg, hlt]

end SpecEngine

/-- C3: during region growth a non-forced pixel whose Sobel gradient
magnitude exceeds `gradKeep` is rejected exactly when its Lab distance
to the nearest background reference exceeds `tolerance * 0.4`; in
particular every such edge pixel whose distance is at most
`tolerance * 0.4` is admitted into the background set. -/
theorem edge_guard_reject_iff (M : MathFns) (W H : ℕ) (data : List ℚ)
    (o : Options) (refs : SpecEngine.Cluster × SpecEngine.Cluster) (p : ℕ)
    (hgrad : o.gradKeep < (V1.gradArr M W H (V1.lumArr (W * H) data)).getD p 0) :
    (SpecEngine.acceptOf M W H data o refs p false = false ↔
      SpecEngine.toleranceOf M o.colorTol refs * 0.4 <
        SpecEngine.refDist M (SpecEngine.pixelLab M data p) refs) :=
  SpecEngine.accept_edge_iff _ _ _ _
    (le_trans (by norm_num) (SpecEngine.toleranceOf_ge_12 M o.colorTol refs)) hgrad

/-- Options for the C3 witness: defaults with a negative `gradKeep`, so
the gradient hypothesis holds at a zero-gradient border pixel. -/
def wC3Opts : Options :=
  { colorTol := 10, tileGuess := 16, gradKeep := -1, feather := 2
    seedPoints := [], mode := Mode.auto }

/-- Reference pair for the C3 witness. -/
def wC3Refs : SpecEngine.Cluster × SpecEngine.Cluster :=
  (⟨(0, 0, 0), (0, 0, 0), 1⟩, ⟨(0, 0, 0), (0, 0, 0), 1⟩)

set_option maxRecDepth 100000 in
unseal Rat.add Rat.mul Rat.inv Rat.sub Rat.ofScientific in
theorem edge_guard_reject_iff_witness :
    (SpecEngine.acceptOf MathFns.zero 1 1 [0, 0, 0, 0] wC3Opts wC3Refs 0 false = false ↔
      SpecEngine.toleranceOf MathFns.zero wC3Opts.colorTol wC3Refs * 0.4 <
        SpecEngine.refDist MathFns.zero
          (SpecEngine.pixelLab MathFns.zero [0, 0, 0, 0] 0) wC3Refs) :=
  edge_guard_reject_iff MathFns.zero 1 1 [0, 0, 0, 0] wC3Opts wC3Refs 0 (by decide)


namespace SpecEngine

instance : Inhabited Cluster := ⟨⟨(0, 0, 0), (0, 0, 0), 0⟩⟩

theorem getD_irrel {α : Type} (l : List α) (i : ℕ) (d1 d2 : α)
    (h : i < l.length) : l.getD i d1 = l.getD i d2 := by
  rw [List.getD_eq_getElem l d1 h, List.getD_eq_getElem l d2 h]

theorem nearest_none {M : MathFns} {l : ℚ × ℚ × ℚ} {cs : List Cluster}
    (h : nearest M l cs = none) : cs = [] := by
  cases cs with
  | nil => rfl
  | cons c cs =>
    unfold nearest at h
    cases hrec : nearest M l cs with
    | none => rw [hrec] at h; cases h
    | some jd =>
      rw [hrec] at h
      obtain ⟨j, d⟩ := jd
      dsimp only at h
      split at h <;> cases h

theorem nearest_spec (M : MathFns) (l : ℚ × ℚ × ℚ) :
    ∀ (cs : List Cluster) (i : ℕ) (d : ℚ), nearest M l cs = some (i, d) →
      i < cs.length ∧ d = labDist M l (cs.getD i default).lab ∧
        ∀ j, j < cs.length → d ≤ labDist M l (cs.getD j default).lab
  | [], i, d, h => by simp [nearest] at h
  | c :: cs, i, d, h => by
    unfold nearest at h
    cases hrec : nearest M l cs with
    | none =>
      rw [hrec] at h
      have hcs : cs = [] := nearest_none hrec
      subst hcs
      dsimp only at h
      simp only [Option.some.injEq, Prod.mk.injEq] at h
      obtain ⟨hi, hd⟩ := h
      subst hi
      subst hd
      refine ⟨by simp, rfl, ?_⟩
      intro j hj
      simp at hj
      subst hj
      exact le_refl _
    | some jd =>
      obtain ⟨j0, d0⟩ := jd
      rw [hrec] at h
      obtain ⟨hj0, hd0, hall⟩ := nearest_spec M l cs j0 d0 hrec
      dsimp only at h
      by_cases hle : labDist M l c.lab ≤ d0
      · rw [if_pos hle] at h
        simp only [Option.some.injEq, Prod.mk.injEq] at h
        obtain ⟨hi, hd⟩ := h
        subst hi
        subst hd
        refine ⟨by simp, rfl, ?_⟩
        intro j hj
        cases j with
        | zero => exact le_refl _
        | succ j =>
          have : d0 ≤ labDist M l (cs.getD j default).lab :=
            hall j (by simpa using hj)
          calc labDist M l ((c :: cs).getD 0 default).lab ≤ d0 := hle
            _ ≤ _ := by simpa using this
      · rw [if_neg hle] at h
        simp only [Option.some.injEq, Prod.mk.injEq] at h
        obtain ⟨hi, hd⟩ := h
        subst hi
        subst hd
        refine ⟨by simpa using hj0, ?_, ?_⟩
        · simpa using hd0
        · intro j hj
          cases j with
          | zero =>
            simpa using le_of_lt (lt_of_not_le hle)
          | succ j =>
            simpa using hall j (by simpa using hj)

theorem insertByCount_perm (c : Cluster) (l : List Cluster) :
    (insertByCount c l).Perm (c :: l) := by
  induction l with
  | nil => exact List.Perm.refl _
  | cons d ds ih =>
    unfold insertByCount
    by_cases h : d.count < c.count
    · rw [if_pos h]
    · rw [if_neg h]
      exact (ih.cons d).trans (List.Perm.swap c d ds)

theorem sortByCount_perm (l : List Cluster) : (sortByCount l).Perm l := by
  induction l with
  | nil => exact List.Perm.refl _
  | cons c cs ih =>
    exact (insertByCount_perm c (sortByCount cs)).trans (ih.cons c)

theorem insertByCount_sorted {c : Cluster} {l : List Cluster}
    (h : l.Pairwise (fun a b => b.count ≤ a.count)) :
    (insertByCount c l).Pairwise (fun a b => b.count ≤ a.count) := by
  induction l with
  | nil => simp [insertByCount]
  | cons d ds ih =>
    obtain ⟨hd, hds⟩ := List.pairwise_cons.mp h
    unfold insertByCount
    by_cases hlt : d.count < c.count
    · rw [if_pos hlt]
      refine List.pairwise_cons.mpr ⟨?_, h⟩
      intro b hb
      rcases List.mem_cons.mp hb with rfl | hb'
      · exact le_of_lt hlt
      · exact le_trans (hd b hb') (le_of_lt hlt)
    · rw [if_neg hlt]
      refine List.pairwise_cons.mpr ⟨?_, ih hds⟩
      intro b hb
      rcases List.mem_cons.mp ((insertByCount_perm c ds).mem_iff.mp hb) with rfl | hb'
      · exact not_lt.mp hlt
      · exact hd b hb'

theorem sortByCount_sorted (l : List Cluster) :
    (sortByCount l).Pairwise (fun a b => b.count ≤ a.count) := by
  induction l with
  | nil => simp [sortByCount]
  | cons c cs ih => exact insertByCount_sorted ih

theorem pairwise_take_drop {α : Type} {R : α → α → Prop} :
    ∀ {l : List α}, l.Pairwise R → ∀ (n : ℕ),
      ∀ a ∈ l.take n, ∀ b ∈ l.drop n, R a b := by
  intro l
  induction l with
  | nil => simp
  | cons x xs ih =>
    intro h n a ha b hb
    cases n with
    | zero => simp at ha
    | succ n =>
      obtain ⟨hx, hxs⟩ := List.pairwise_cons.mp h
      rw [List.take_succ_cons] at ha
      rw [List.drop_succ_cons] at hb
      rcases List.mem_cons.mp ha with rfl | ha'
      · exact hx b (List.mem_of_mem_drop hb)
      · exact ih hxs n a ha' b hb

theorem top2_max (cs : List Cluster) :
    ∀ c ∈ top2 cs, ∀ e ∈ (sortByCount cs).drop 2, e.count ≤ c.count := by
  intro c hc e he
  exact pairwise_take_drop (sortByCount_sorted cs) 2 c hc e he

theorem mem_samplerCoords (W H : ℕ) (tg : ℚ) (x y : ℕ) :
    ((x, y) ∈ samplerCoords W H tg ↔
      ((y = 0 ∨ y = H - 1) ∧ x < W ∧
          x % (max 1 ⌊((min W H : ℕ) : ℚ) / max 8 tg⌋).toNat = 0) ∨
        ((x = 0 ∨ x = W - 1) ∧ y < H ∧
          y % (max 1 ⌊((min W H : ℕ) : ℚ) / max 8 tg⌋).toNat = 0) ∨
        ((x = 0 ∨ x = W - 1) ∧ (y = 0 ∨ y = H - 1))) := by
  have hs : stride W H tg = (max 1 ⌊((min W H : ℕ) : ℚ) / max 8 tg⌋).toNat := rfl
  rw [← hs]
  set s := stride W H tg with hsdef
  unfold samplerCoords borderCoords
  rw [← hsdef]
  simp only [List.mem_append, List.mem_map, List.mem_filter, List.mem_range,
    List.mem_cons, List.not_mem_nil, or_false, Prod.mk.injEq, decide_eq_true_eq]
  constructor
  · rintro ((((⟨a, ⟨ha, hm⟩, rfl, rfl⟩ | ⟨a, ⟨ha, hm⟩, rfl, rfl⟩) |
        ⟨a, ⟨ha, hm⟩, rfl, rfl⟩) | ⟨a, ⟨ha, hm⟩, rfl, rfl⟩) |
        (⟨rfl, rfl⟩ | ⟨rfl, rfl⟩ | ⟨rfl, rfl⟩ | ⟨rfl, rfl⟩))
    · exact Or.inl ⟨Or.inl rfl, ha, hm⟩
    · exact Or.inl ⟨Or.inr rfl, ha, hm⟩
    · exact Or.inr (Or.inl ⟨Or.inl rfl, ha, hm⟩)
    · exact Or.inr (Or.inl ⟨Or.inr rfl, ha, hm⟩)
    · exact Or.inr (Or.inr ⟨Or.inl rfl, Or.inl rfl⟩)
    · exact Or.inr (Or.inr ⟨Or.inr rfl, Or.inl rfl⟩)
    · exact Or.inr (Or.inr ⟨Or.inl rfl, Or.inr rfl⟩)
    · exact Or.inr (Or.inr ⟨Or.inr rfl, Or.inr rfl⟩)
  · rintro (⟨hy | hy, hx, hm⟩ | ⟨hx | hx, hy, hm⟩ | ⟨hx | hx, hy | hy⟩)
    · exact Or.inl (Or.inl (Or.inl (Or.inl ⟨x, ⟨hx, hm⟩, rfl, hy.symm⟩)))
    · exact Or.inl (Or.inl (Or.inl (Or.inr ⟨x, ⟨hx, hm⟩, rfl, hy.symm⟩)))
    · exact Or.inl (Or.inl (Or.inr ⟨y, ⟨hy, hm⟩, hx.symm, rfl⟩))
    · exact Or.inl (Or.inr ⟨y, ⟨hy, hm⟩, hx.symm, rfl⟩)
    · exact Or.inr (Or.inl ⟨hx, hy⟩)
    · exact Or.inr (Or.inr (Or.inr (Or.inl ⟨hx, hy⟩)))
    · exact Or.inr (Or.inr (Or.inl ⟨hx, hy⟩))
    · exact Or.inr (Or.inr (Or.inr (Or.inr ⟨hx, hy⟩)))

theorem clusterStep_spec (M : MathFns) (ct : ℚ) (cs : List Cluster) (s : ℚ × ℚ × ℚ) :
    (nearest M (labOfRGB M s) cs = none →
      cs = [] ∧ clusterStep M ct cs s = [Cluster.ofSample M s]) ∧
    (∀ i d, nearest M (labOfRGB M s) cs = some (i, d) →
      i < cs.length ∧
      d = labDist M (labOfRGB M s) (cs.getD i default).lab ∧
      (∀ j, j < cs.length → d ≤ labDist M (labOfRGB M s) (cs.getD j default).lab) ∧
      (d < mergeThreshold ct →
        clusterStep M ct cs s = cs.set i (Cluster.merge M (cs.getD i default) s)) ∧
      (mergeThreshold ct ≤ d →
        clusterStep M ct cs s = cs ++ [Cluster.ofSample M s])) := by
  constructor
  · intro hn
    have hcs := nearest_none hn
    subst hcs
    refine ⟨rfl, ?_⟩
    unfold clusterStep
    rw [hn]
    rfl
  · intro i d hn
    obtain ⟨hi, hd, hall⟩ := nearest_spec M (labOfRGB M s) cs i d hn
    refine ⟨hi, hd, hall, ?_, ?_⟩
    · intro hlt
      unfold clusterStep
      rw [hn]
      dsimp only
      rw [if_pos hlt, getD_irrel cs i (Cluster.ofSample M s) default hi]
    · intro hge
      unfold clusterStep
      rw [hn]
      dsimp only
      rw [if_neg (not_lt.mpr hge)]

end SpecEngine

/-- C8: characterization of the spec-modelled background sampler and
clustering.  (1) The sampled coordinates are exactly the border
positions at multiples of the stride `max(1,⌊min(W,H)/max(8,tileGuess)⌋)`
along their border line, plus the four corners.  (2) Each greedy
clustering step finds the nearest existing cluster in Lab space and
merges the sample into it exactly when the distance is below
`max(4, colorTol*0.6)`, otherwise starts a new cluster; on an empty
cluster list it starts the first cluster.  (3) Merging updates the
running Lab/RGB means and the sample count.  (4) The cluster sort is a
count-descending permutation, the top 2 are its first two entries, and
every cluster outside the top 2 has a count no larger than any selected
cluster. -/
theorem sampler_clustering_top2_characterization :
    (∀ (W H : ℕ) (tg : ℚ) (x y : ℕ),
      ((x, y) ∈ SpecEngine.samplerCoords W H tg ↔
        ((y = 0 ∨ y = H - 1) ∧ x < W ∧
            x % (max 1 ⌊((min W H : ℕ) : ℚ) / max 8 tg⌋).toNat = 0) ∨
          ((x = 0 ∨ x = W - 1) ∧ y < H ∧
            y % (max 1 ⌊((min W H : ℕ) : ℚ) / max 8 tg⌋).toNat = 0) ∨
          ((x = 0 ∨ x = W - 1) ∧ (y = 0 ∨ y = H - 1)))) ∧
    (∀ (M : MathFns) (ct : ℚ) (cs : List SpecEngine.Cluster) (s : ℚ × ℚ × ℚ),
      (SpecEngine.nearest M (SpecEngine.labOfRGB M s) cs = none →
        cs = [] ∧
          SpecEngine.clusterStep M ct cs s = [SpecEngine.Cluster.ofSample M s]) ∧
      (∀ i d, SpecEngine.nearest M (SpecEngine.labOfRGB M s) cs = some (i, d) →
        i < cs.length ∧
        d = SpecEngine.labDist M (SpecEngine.labOfRGB M s) (cs.getD i default).lab ∧
        (∀ j, j < cs.length →
          d ≤ SpecEngine.labDist M (SpecEngine.labOfRGB M s) (cs.getD j default).lab) ∧
        (d < max 4 (ct * 0.6) → SpecEngine.clusterStep M ct cs s =
          cs.set i (SpecEngine.Cluster.merge M (cs.getD i default) s)) ∧
        (max 4 (ct * 0.6) ≤ d → SpecEngine.clusterStep M ct cs s =
          cs ++ [SpecEngine.Cluster.ofSample M s]))) ∧
    (∀ (M : MathFns) (c : SpecEngine.Cluster) (s : ℚ × ℚ × ℚ),
      (SpecEngine.Cluster.merge M c s).count = c.count + 1 ∧
      (SpecEngine.Cluster.merge M c s).rgb = SpecEngine.mean3 c.rgb c.count s ∧
      (SpecEngine.Cluster.merge M c s).lab =
        SpecEngine.mean3 c.lab c.count (SpecEngine.labOfRGB M s)) ∧
    (∀ cs : List SpecEngine.Cluster,
      (SpecEngine.sortByCount cs).Perm cs ∧
      SpecEngine.top2 cs = (SpecEngine.sortByCount cs).take 2 ∧
      (∀ c ∈ SpecEngine.top2 cs, ∀ e ∈ (SpecEngine.sortByCount cs).drop 2,
        e.count ≤ c.count)) := by
  refine ⟨SpecEngine.mem_samplerCoords, ?_, ?_, ?_⟩
  · intro M ct cs s
    exact SpecEngine.clusterStep_spec M ct cs s
  · intro M c s
    exact ⟨rfl, rfl, rfl⟩
  · intro cs
    exact ⟨SpecEngine.sortByCount_perm cs, rfl, SpecEngine.top2_max cs⟩

/-- Witness for C8: the bottom-right corner of a 3×3 image is sampled. -/
theorem sampler_clustering_top2_characterization_witness :
    (2, 2) ∈ SpecEngine.samplerCoords 3 3 16 :=
  (sampler_clustering_top2_characterization.1 3 3 16 2 2).mpr
    (Or.inr (Or.inr ⟨Or.inr rfl, Or.inr rfl⟩))

namespace SpecEngine

/-- Setting a flag preserves set flags. -/
theorem seen_set_mono {l : List Bool} {p q : ℕ}
    (h : l.getD p false = true) : (l.set q true).getD p false = true := by
  by_cases hpq : q = p
  · subst hpq
    have hlt : q < l.length := by
      by_contra hge
      rw [V1.getD_eq_false_of_le (le_of_not_lt hge)] at h
      cases h
    rw [V1.getD_set_self hlt]
  · rw [V1.getD_set_ne hpq]
    exact h

/-- A flag set after `set` was set before or is the set index. -/
theorem seen_set_cases {l : List Bool} {p q : ℕ}
    (h : (l.set q true).getD p false = true) :
    l.getD p false = true ∨ p = q := by
  by_cases hpq : q = p
  · exact Or.inr hpq.symm
  · rw [V1.getD_set_ne hpq] at h
    exact Or.inl h

theorem growStep_seen_mono (adm : ℕ → Bool → Bool) (W H : ℕ) (s : GrowState)
    {p : ℕ} (h : s.seen.getD p false = true) :
    (growStep adm W H s).seen.getD p false = true := by
  obtain ⟨seen, queue⟩ := s
  cases queue with
  | nil => exact h
  | cons e rest =>
    obtain ⟨q, f⟩ := e
    unfold growStep
    dsimp only at h ⊢
    by_cases hs : seen.getD q false
    · rw [if_pos hs]; exact h
    · rw [if_neg hs]
      by_cases ha : adm q f
      · rw [if_pos ha]
        exact seen_set_mono h
      · rw [if_neg ha]; exact h

theorem growLoop_seen_mono (adm : ℕ → Bool → Bool) (W H : ℕ) :
    ∀ (fuel : ℕ) (s : GrowState) {p : ℕ}, s.seen.getD p false = true →
      (growLoop adm W H fuel s).seen.getD p false = true
  | 0, s, p, h => h
  | fuel + 1, s, p, h => by
    unfold growLoop
    cases hq : s.queue with
    | nil => exact h
    | cons e rest =>
      exact growLoop_seen_mono adm W H fuel _ (growStep_seen_mono adm W H s h)

def growMeasure (W H : ℕ) (s : GrowState) : ℕ :=
  s.queue.length + 5 * (W * H - s.seen.count true)

def QBound (W H : ℕ) (s : GrowState) : Prop :=
  s.seen.length = W * H ∧ ∀ e ∈ s.queue, e.1 < W * H

theorem neighborsOf_lt {W H p : ℕ} (hp : p < W * H) :
    ∀ q ∈ neighborsOf W H p, q < W * H := by
  intro q hq
  have hW : 0 < W := by
    rcases Nat.eq_zero_or_pos W with h0 | h0
    · subst h0; simp at hp
    · exact h0
  unfold neighborsOf at hq
  simp only [List.mem_append] at hq
  have hyH : p / W < H := by
    exact Nat.div_lt_of_lt_mul (by omega)
  rcases hq with ((h1 | h2) | h3) | h4
  · split at h1
    · simp at h1
      subst h1
      rename_i hx
      have hdm : W * (p / W) + p % W = p := Nat.div_add_mod p W
      have hA : W * (p / W + 1) = W * (p / W) + W := by ring
      have hB : W * (p / W + 1) ≤ W * H := Nat.mul_le_mul_left W (by omega)
      omega
    · simp at h1
  · split at h2
    · simp at h2; omega
    · simp at h2
  · split at h3
    · simp at h3
      subst h3
      rename_i hy
      have hdm : W * (p / W) + p % W = p := Nat.div_add_mod p W
      have hmod : p % W < W := Nat.mod_lt p hW
      have hA : W * (p / W + 2) = W * (p / W) + W + W := by ring
      have hB : W * (p / W + 2) ≤ W * H := Nat.mul_le_mul_left W (by omega)
      omega
    · simp at h3
  · split at h4
    · simp at h4; omega
    · simp at h4

theorem neighborsOf_length_le (W H p : ℕ) : (neighborsOf W H p).length ≤ 4 := by
  unfold neighborsOf
  split <;> split <;> split <;> split <;> simp

theorem growStep_qbound {adm : ℕ → Bool → Bool} {W H : ℕ} {s : GrowState}
    (h : QBound W H s) : QBound W H (growStep adm W H s) := by
  obtain ⟨seen, queue⟩ := s
  obtain ⟨hlen, hq⟩ := h
  cases queue with
  | nil => exact ⟨hlen, hq⟩
  | cons e rest =>
    obtain ⟨p, f⟩ := e
    unfold growStep
    dsimp only at hlen hq ⊢
    by_cases hs : seen.getD p false
    · rw [if_pos hs]
      exact ⟨hlen, fun e he => hq e (List.mem_cons_of_mem _ he)⟩
    · rw [if_neg hs]
      by_cases ha : adm p f
      · rw [if_pos ha]
        refine ⟨by simpa using hlen, ?_⟩
        intro e he
        rcases List.mem_append.mp he with he' | he'
        · exact hq e (List.mem_cons_of_mem _ he')
        · obtain ⟨q, hqmem, rfl⟩ := List.mem_map.mp he'
          exact neighborsOf_lt (hq (p, f) (List.mem_cons_self _ _)) q hqmem
      · rw [if_neg ha]
        exact ⟨hlen, fun e he => hq e (List.mem_cons_of_mem _ he)⟩

theorem growStep_measure {adm : ℕ → Bool → Bool} {W H : ℕ} {s : GrowState}
    (h : QBound W H s) (hne : s.queue ≠ []) :
    growMeasure W H (growStep adm W H s) < growMeasure W H s := by
  obtain ⟨seen, queue⟩ := s
  obtain ⟨hlen, hq⟩ := h
  cases queue with
  | nil => exact absurd rfl hne
  | cons e rest =>
    obtain ⟨p, f⟩ := e
    unfold growStep growMeasure
    dsimp only at hlen hq ⊢
    by_cases hs : seen.getD p false
    · rw [if_pos hs]
      dsimp only
      simp only [List.length_cons]
      omega
    · rw [if_neg hs]
      by_cases ha : adm p f
      · rw [if_pos ha]
        dsimp only
        have hp : p < W * H := hq (p, f) (List.mem_cons_self _ _)
        have hplen : p < seen.length := by omega
        have hfalse : seen[p] = false := by
          rw [List.getD_eq_getElem?_getD, List.getElem?_eq_getElem hplen] at hs
          simpa using hs
        have hcount := List.count_le_length (l := seen) (a := true)
        have hset : (seen.set p true).count true = seen.count true + 1 := by
          rw [List.count_set true true seen p hplen]
          simp [hfalse]
        have hclt : seen.count true < W * H := by
          have h2 := List.count_le_length (l := seen.set p true) (a := true)
          rw [List.length_set] at h2
          omega
        have hnb := neighborsOf_length_le W H p
        simp only [List.length_append, List.length_cons, List.length_map, hset]
        omega
      · rw [if_neg ha]
        dsimp only
        simp only [List.length_cons]
        omega

theorem growLoop_drain {adm : ℕ → Bool → Bool} {W H : ℕ} :
    ∀ (fuel : ℕ) (s : GrowState), QBound W H s →
      growMeasure W H s ≤ fuel → (growLoop adm W H fuel s).queue = []
  | 0, s, _, hm => by
    unfold growLoop
    have : s.queue.length = 0 := by
      unfold growMeasure at hm
      omega
    exact List.eq_nil_of_length_eq_zero this
  | fuel + 1, s, hb, hm => by
    unfold growLoop
    cases hq : s.queue with
    | nil => exact hq
    | cons e rest =>
      have hne : s.queue ≠ [] := by rw [hq]; simp
      exact growLoop_drain fuel _ (growStep_qbound hb)
        (by have := @growStep_measure adm W H _ hb hne; omega)

theorem growLoop_queue_seen (adm : ℕ → Bool → Bool) (W H : ℕ) :
    ∀ (fuel : ℕ) (s : GrowState), QBound W H s →
      (growLoop adm W H fuel s).queue = [] →
      ∀ p b, (p, b) ∈ s.queue → adm p b = true →
        (growLoop adm W H fuel s).seen.getD p false = true
  | 0, s, _, hempty, p, b, hmem, hadm => by
    unfold growLoop at hempty ⊢
    rw [hempty] at hmem
    cases hmem
  | fuel + 1, s, hb, hempty, p, b, hmem, hadm => by
    unfold growLoop at hempty ⊢
    cases hq : s.queue with
    | nil =>
      rw [hq] at hmem
      cases hmem
    | cons e rest =>
      rw [hq] at hempty hmem
      obtain ⟨p0, f0⟩ := e
      rcases List.mem_cons.mp hmem with heq | hrest
      · injection heq with h1 h2
        subst h1
        subst h2
        obtain ⟨seen, queue⟩ := s
        obtain ⟨hlen, hqb⟩ := hb
        dsimp only at hq hlen hqb
        subst hq
        apply growLoop_seen_mono adm W H fuel
        unfold growStep
        dsimp only
        by_cases hs : seen.getD p false
        · rw [if_pos hs]
          exact hs
        · rw [if_neg hs, if_pos hadm]
          dsimp only
          have hp : p < seen.length := by
            have := hqb (p, b) (List.mem_cons_self _ _)
            omega
          exact V1.getD_set_self hp
      · exact growLoop_queue_seen adm W H fuel _ (growStep_qbound hb) hempty p b
          (by
            obtain ⟨seen, queue⟩ := s
            dsimp only at hq
            subst hq
            unfold growStep
            dsimp only
            by_cases hs : seen.getD p0 false
            · rw [if_pos hs]; exact hrest
            · rw [if_neg hs]
              by_cases ha : adm p0 f0
              · rw [if_pos ha]
                exact List.mem_append_left _ hrest
              · rw [if_neg ha]; exact hrest) hadm

def ClosureInv (adm : ℕ → Bool → Bool) (W H : ℕ) (s : GrowState) : Prop :=
  ∀ p, s.seen.getD p false = true → ∀ q ∈ neighborsOf W H p,
    s.seen.getD q false = true ∨ (∃ b, (q, b) ∈ s.queue) ∨ adm q false = false

theorem growStep_closure {adm : ℕ → Bool → Bool} {W H : ℕ} {s : GrowState}
    (hmono : ∀ q, adm q false = true → adm q true = true)
    (hb : QBound W H s) (h : ClosureInv adm W H s) :
    ClosureInv adm W H (growStep adm W H s) := by
  obtain ⟨seen, queue⟩ := s
  obtain ⟨hlen, hqb⟩ := hb
  cases queue with
  | nil => exact h
  | cons e rest =>
    obtain ⟨p0, f0⟩ := e
    dsimp only at hlen hqb
    unfold ClosureInv at h ⊢
    unfold growStep
    dsimp only at h ⊢
    by_cases hs : seen.getD p0 false
    · rw [if_pos hs]
      dsimp only
      intro p hp q hq
      rcases h p hp q hq with h1 | ⟨b, h2⟩ | h3
      · exact Or.inl h1
      · rcases List.mem_cons.mp h2 with heq | hm
        · injection heq with e1 e2
          subst e1
          exact Or.inl hs
        · exact Or.inr (Or.inl ⟨b, hm⟩)
      · exact Or.inr (Or.inr h3)
    · rw [if_neg hs]
      by_cases ha : adm p0 f0
      · rw [if_pos ha]
        dsimp only
        intro p hp q hq
        rcases seen_set_cases hp with hp' | rfl
        · rcases h p hp' q hq with h1 | ⟨b, h2⟩ | h3
          · exact Or.inl (seen_set_mono h1)
          · rcases List.mem_cons.mp h2 with heq | hm
            · injection heq with e1 e2
              subst e1
              have hp0 : q < seen.length := by
                have := hqb (q, f0) (List.mem_cons_self _ _)
                omega
              exact Or.inl (V1.getD_set_self hp0)
            · exact Or.inr (Or.inl ⟨b, List.mem_append_left _ hm⟩)
          · exact Or.inr (Or.inr h3)
        · exact Or.inr (Or.inl
            ⟨false, List.mem_append_right _ (List.mem_map.mpr ⟨q, hq, rfl⟩)⟩)
      · rw [if_neg ha]
        dsimp only
        intro p hp q hq
        rcases h p hp q hq with h1 | ⟨b, h2⟩ | h3
        · exact Or.inl h1
        · rcases List.mem_cons.mp h2 with heq | hm
          · injection heq with e1 e2
            subst e1
            subst e2
            refine Or.inr (Or.inr ?_)
            simp only [Bool.not_eq_true] at ha
            cases b with
            | false => exact ha
            | true =>
              by_contra hcon
              simp only [Bool.not_eq_false] at hcon
              rw [hmono q hcon] at ha
              cases ha
          · exact Or.inr (Or.inl ⟨b, hm⟩)
        · exact Or.inr (Or.inr h3)

theorem growLoop_closure {adm : ℕ → Bool → Bool} {W H : ℕ}
    (hmono : ∀ q, adm q false = true → adm q true = true) :
    ∀ (fuel : ℕ) (s : GrowState), QBound W H s → ClosureInv adm W H s →
      ClosureInv adm W H (growLoop adm W H fuel s)
  | 0, s, _, h => h
  | fuel + 1, s, hb, h => by
    unfold growLoop
    cases hq : s.queue with
    | nil => exact h
    | cons e rest =>
      exact growLoop_closure hmono fuel _ (growStep_qbound hb)
        (growStep_closure hmono hb h)

def SourceInv (adm : ℕ → Bool → Bool) (F : List (ℕ × Bool)) (s : GrowState) : Prop :=
  (∀ p, s.seen.getD p false = true → adm p false = true ∨ ∃ b, (p, b) ∈ F) ∧
  (∀ p b, (p, b) ∈ s.queue → b = true → (p, b) ∈ F)

theorem growStep_source {adm : ℕ → Bool → Bool} {W H : ℕ} {F : List (ℕ × Bool)}
    {s : GrowState} (h : SourceInv adm F s) :
    SourceInv adm F (growStep adm W H s) := by
  obtain ⟨seen, queue⟩ := s
  obtain ⟨h1, h2⟩ := h
  cases queue with
  | nil => exact ⟨h1, h2⟩
  | cons e rest =>
    obtain ⟨p0, f0⟩ := e
    unfold SourceInv
    unfold growStep
    dsimp only at h1 h2 ⊢
    by_cases hs : seen.getD p0 false
    · rw [if_pos hs]
      exact ⟨h1, fun p b hm => h2 p b (List.mem_cons_of_mem _ hm)⟩
    · rw [if_neg hs]
      by_cases ha : adm p0 f0
      · rw [if_pos ha]
        dsimp only
        refine ⟨?_, ?_⟩
        · intro p hp
          rcases seen_set_cases hp with hp' | rfl
          · exact h1 p hp'
          · cases f0 with
            | false => exact Or.inl ha
            | true =>
              exact Or.inr ⟨true, h2 p true (List.mem_cons_self _ _) rfl⟩
        · intro p b hm hb
          rcases List.mem_append.mp hm with hm' | hm'
          · exact h2 p b (List.mem_cons_of_mem _ hm') hb
          · obtain ⟨q, hqmem, heq⟩ := List.mem_map.mp hm'
            injection heq with e1 e2
            rw [hb] at e2
            cases e2
      · rw [if_neg ha]
        exact ⟨h1, fun p b hm => h2 p b (List.mem_cons_of_mem _ hm)⟩

theorem growLoop_source {adm : ℕ → Bool → Bool} {W H : ℕ} {F : List (ℕ × Bool)} :
    ∀ (fuel : ℕ) (s : GrowState), SourceInv adm F s →
      SourceInv adm F (growLoop adm W H fuel s)
  | 0, s, h => h
  | fuel + 1, s, h => by
    unfold growLoop
    cases hq : s.queue with
    | nil => exact h
    | cons e rest => exact growLoop_source fuel _ (growStep_source h)

theorem replicate_false_getD (n p : ℕ) :
    (List.replicate n false).getD p false = false := by
  by_cases h : p < n
  · rw [List.getD_eq_getElem _ _ (by simpa using h)]
    simp
  · exact V1.getD_eq_false_of_le (by simpa using le_of_not_lt h)

theorem labDist_self {M : MathFns} (hM0 : M.hypot3 0 0 0 = 0) (l : ℚ × ℚ × ℚ) :
    labDist M l l = 0 := by
  unfold labDist
  simpa using hM0

theorem mergeThreshold_pos (ct : ℚ) : 0 < mergeThreshold ct :=
  lt_of_lt_of_le (by norm_num) (le_max_left 4 (ct * 0.6))

theorem mean3_self (m : ℚ × ℚ × ℚ) (k : ℕ) : mean3 m k m = m := by
  unfold mean3
  have hk : ((k : ℚ) + 1) ≠ 0 := by positivity
  obtain ⟨a, b, c⟩ := m
  dsimp only
  refine Prod.ext ?_ (Prod.ext ?_ ?_) <;> dsimp only <;> field_simp <;> ring

/-- Merging an equal-colored sample keeps the means and bumps the count. -/
theorem clusterStep_same (M : MathFns) (ct : ℚ) (B : ℚ × ℚ × ℚ) (k : ℕ)
    (hM0 : M.hypot3 0 0 0 = 0) :
    clusterStep M ct [⟨labOfRGB M B, B, k⟩] B = [⟨labOfRGB M B, B, k + 1⟩] := by
  unfold clusterStep
  have hn : nearest M (labOfRGB M B) [⟨labOfRGB M B, B, k⟩] =
      some (0, labDist M (labOfRGB M B) (labOfRGB M B)) := rfl
  rw [hn, labDist_self hM0]
  dsimp only
  rw [if_pos (mergeThreshold_pos ct)]
  unfold Cluster.merge
  dsimp only [List.getD]
  simp [mean3_self]

theorem foldl_clusterStep_const (M : MathFns) (ct : ℚ) (B : ℚ × ℚ × ℚ)
    (hM0 : M.hypot3 0 0 0 = 0) :
    ∀ (l : List (ℚ × ℚ × ℚ)) (k : ℕ), (∀ s ∈ l, s = B) →
      l.foldl (clusterStep M ct) [⟨labOfRGB M B, B, k⟩] =
        [⟨labOfRGB M B, B, k + l.length⟩]
  | [], k, _ => by simp
  | s :: ss, k, hl => by
    have hs : s = B := hl s (List.mem_cons_self _ _)
    subst hs
    rw [List.foldl_cons, clusterStep_same M ct s k hM0,
      foldl_clusterStep_const M ct s hM0 ss (k + 1)
        (fun t ht => hl t (List.mem_cons_of_mem _ ht))]
    congr 1
    simp
    omega

theorem clusterAll_const (M : MathFns) (ct : ℚ) (B : ℚ × ℚ × ℚ)
    (hM0 : M.hypot3 0 0 0 = 0) (l : List (ℚ × ℚ × ℚ))
    (hl : ∀ s ∈ l, s = B) (hne : l ≠ []) :
    clusterAll M ct l = [⟨labOfRGB M B, B, l.length⟩] := by
  cases l with
  | nil => exact absurd rfl hne
  | cons s ss =>
    have hs : s = B := hl s (List.mem_cons_self _ _)
    subst hs
    unfold clusterAll
    rw [List.foldl_cons]
    have h1 : clusterStep M ct [] s = [⟨labOfRGB M s, s, 1⟩] := rfl
    rw [h1, foldl_clusterStep_const M ct s hM0 ss 1
      (fun t ht => hl t (List.mem_cons_of_mem _ ht))]
    congr 1
    simp
    omega

/-- A far sample appended to a single-cluster list starts a second cluster. -/
theorem clusterStep_far (M : MathFns) (ct : ℚ) (B C : ℚ × ℚ × ℚ) (n : ℕ)
    (hfar : mergeThreshold ct ≤ labDist M (labOfRGB M C) (labOfRGB M B)) :
    clusterStep M ct [⟨labOfRGB M B, B, n⟩] C =
      [⟨labOfRGB M B, B, n⟩, ⟨labOfRGB M C, C, 1⟩] := by
  unfold clusterStep
  have hn : nearest M (labOfRGB M C) [⟨labOfRGB M B, B, n⟩] =
      some (0, labDist M (labOfRGB M C) (labOfRGB M B)) := rfl
  rw [hn]
  dsimp only
  rw [if_neg (not_lt.mpr hfar)]
  rfl

/-- A `C` sample merges into the second (`C`) cluster of a two-cluster list. -/
theorem clusterStep_second (M : MathFns) (ct : ℚ) (B C : ℚ × ℚ × ℚ) (n k : ℕ)
    (hM0 : M.hypot3 0 0 0 = 0)
    (hfar : mergeThreshold ct ≤ labDist M (labOfRGB M C) (labOfRGB M B)) :
    clusterStep M ct [⟨labOfRGB M B, B, n⟩, ⟨labOfRGB M C, C, k⟩] C =
      [⟨labOfRGB M B, B, n⟩, ⟨labOfRGB M C, C, k + 1⟩] := by
  have hpos := mergeThreshold_pos ct
  have hd0 : labDist M (labOfRGB M C) (labOfRGB M C) = 0 := labDist_self hM0 _
  have hnotle : ¬ labDist M (labOfRGB M C) (labOfRGB M B) ≤
      labDist M (labOfRGB M C) (labOfRGB M C) := by
    rw [hd0]
    push_neg
    exact lt_of_lt_of_le hpos hfar
  unfold clusterStep
  have hn : nearest M (labOfRGB M C)
      [⟨labOfRGB M B, B, n⟩, ⟨labOfRGB M C, C, k⟩] =
      some (1, labDist M (labOfRGB M C) (labOfRGB M C)) := by
    unfold nearest
    unfold nearest
    unfold nearest
    dsimp only
    rw [if_neg hnotle]
  rw [hn, hd0]
  dsimp only
  rw [if_pos (mergeThreshold_pos ct)]
  unfold Cluster.merge
  dsimp only [List.getD]
  simp [mean3_self]

theorem foldl_clusterStep_second (M : MathFns) (ct : ℚ) (B C : ℚ × ℚ × ℚ)
    (n : ℕ) (hM0 : M.hypot3 0 0 0 = 0)
    (hfar : mergeThreshold ct ≤ labDist M (labOfRGB M C) (labOfRGB M B)) :
    ∀ (l : List (ℚ × ℚ × ℚ)) (k : ℕ), (∀ s ∈ l, s = C) →
      l.foldl (clusterStep M ct) [⟨labOfRGB M B, B, n⟩, ⟨labOfRGB M C, C, k⟩] =
        [⟨labOfRGB M B, B, n⟩, ⟨labOfRGB M C, C, k + l.length⟩]
  | [], k, _ => by simp
  | s :: ss, k, hl => by
    have hs : s = C := hl s (List.mem_cons_self _ _)
    subst hs
    rw [List.foldl_cons, clusterStep_second M ct B s n k hM0 hfar,
      foldl_clusterStep_second M ct B s n hM0 hfar ss (k + 1)
        (fun t ht => hl t (List.mem_cons_of_mem _ ht))]
    congr 2
    simp
    omega

theorem clusterAll_two (M : MathFns) (ct : ℚ) (B C : ℚ × ℚ × ℚ)
    (hM0 : M.hypot3 0 0 0 = 0)
    (hfar : mergeThreshold ct ≤ labDist M (labOfRGB M C) (labOfRGB M B))
    (lB lC : List (ℚ × ℚ × ℚ)) (hB : ∀ s ∈ lB, s = B) (hC : ∀ s ∈ lC, s = C)
    (hneB : lB ≠ []) (hneC : lC ≠ []) :
    clusterAll M ct (lB ++ lC) =
      [⟨labOfRGB M B, B, lB.length⟩, ⟨labOfRGB M C, C, lC.length⟩] := by
  unfold clusterAll
  rw [List.foldl_append]
  have h1 : lB.foldl (clusterStep M ct) [] = [⟨labOfRGB M B, B, lB.length⟩] :=
    clusterAll_const M ct B hM0 lB hB hneB
  rw [h1]
  cases lC with
  | nil => exact absurd rfl hneC
  | cons s ss =>
    have hs : s = C := hC s (List.mem_cons_self _ _)
    subst hs
    rw [List.foldl_cons, clusterStep_far M ct B s lB.length hfar,
      foldl_clusterStep_second M ct B s lB.length hM0 hfar ss 1
        (fun t ht => hC t (List.mem_cons_of_mem _ ht))]
    congr 2
    simp
    omega

end SpecEngine

namespace SpecEngine

theorem samplerCoords_border {W H : ℕ} {tg : ℚ} {x y : ℕ} (hW : 1 ≤ W)
    (hH : 1 ≤ H) (h : (x, y) ∈ samplerCoords W H tg) :
    x < W ∧ y < H ∧ (x = 0 ∨ x = W - 1 ∨ y = 0 ∨ y = H - 1) := by
  rcases (mem_samplerCoords W H tg x y).mp h with ⟨hy, hx, -⟩ | ⟨hx, hy, -⟩ | ⟨hx, hy⟩
  · refine ⟨hx, ?_, ?_⟩
    · rcases hy with rfl | rfl <;> omega
    · rcases hy with rfl | rfl
      · exact Or.inr (Or.inr (Or.inl rfl))
      · exact Or.inr (Or.inr (Or.inr rfl))
  · refine ⟨?_, hy, ?_⟩
    · rcases hx with rfl | rfl <;> omega
    · rcases hx with rfl | rfl
      · exact Or.inl rfl
      · exact Or.inr (Or.inl rfl)
  · refine ⟨?_, ?_, ?_⟩
    · rcases hx with rfl | rfl <;> omega
    · rcases hy with rfl | rfl <;> omega
    · rcases hx with rfl | rfl
      · exact Or.inl rfl
      · exact Or.inr (Or.inl rfl)

theorem samplerCoords_length {W H : ℕ} (tg : ℚ) (hW : 1 ≤ W) (hH : 1 ≤ H) :
    8 ≤ (samplerCoords W H tg).length := by
  unfold samplerCoords borderCoords
  have h0W : (0 : ℕ) ∈ (List.range W).filter (fun x => x % stride W H tg = 0) :=
    List.mem_filter.mpr ⟨List.mem_range.mpr (by omega), by simp⟩
  have h0H : (0 : ℕ) ∈ (List.range H).filter (fun y => y % stride W H tg = 0) :=
    List.mem_filter.mpr ⟨List.mem_range.mpr (by omega), by simp⟩
  have l1 : 1 ≤ ((List.range W).filter (fun x => x % stride W H tg = 0)).length :=
    List.length_pos.mpr (List.ne_nil_of_mem h0W)
  have l2 : 1 ≤ ((List.range H).filter (fun y => y % stride W H tg = 0)).length :=
    List.length_pos.mpr (List.ne_nil_of_mem h0H)
  simp only [List.length_append, List.length_map, List.length_cons,
    List.length_nil]
  omega

theorem autoSamples_const {M : MathFns} {W H : ℕ} {tg : ℚ} {data : List ℚ}
    {B : ℚ × ℚ × ℚ} (hW : 1 ≤ W) (hH : 1 ≤ H)
    (hborder : ∀ x, x < W → ∀ y, y < H →
      (x = 0 ∨ x = W - 1 ∨ y = 0 ∨ y = H - 1) → pixelRGB data (y * W + x) = B) :
    ∀ s ∈ autoSamples W H tg data, s = B := by
  intro s hs
  obtain ⟨⟨x, y⟩, hc, rfl⟩ := List.mem_map.mp hs
  obtain ⟨hx, hy, hb⟩ := samplerCoords_border hW hH hc
  exact hborder x hx y hy hb

theorem autoSamples_length {W H : ℕ} (tg : ℚ) (data : List ℚ)
    (hW : 1 ≤ W) (hH : 1 ≤ H) : 8 ≤ (autoSamples W H tg data).length := by
  unfold autoSamples
  rw [List.length_map]
  exact samplerCoords_length tg hW hH

theorem seedSamples_single {W : ℕ} {data : List ℚ} {sx sy : ℕ} {C : ℚ × ℚ × ℚ}
    (hC : pixelRGB data (sy * W + sx) = C) :
    seedSamples W data [⟨sx, sy, true⟩] = List.replicate 4 C := by
  unfold seedSamples
  rw [show ([⟨sx, sy, true⟩] : List Seed).filter (·.force) = [⟨sx, sy, true⟩]
    from rfl]
  simp [hC]

theorem labDist_symm {M : MathFns}
    (hsym : ∀ a b c : ℚ, M.hypot3 (-a) (-b) (-c) = M.hypot3 a b c)
    (u v : ℚ × ℚ × ℚ) : labDist M u v = labDist M v u := by
  unfold labDist
  rw [← hsym (v.1 - u.1) (v.2.1 - u.2.1) (v.2.2 - u.2.2)]
  congr 1 <;> ring

theorem accept_of_dist_nonpos {tol gk dist grad : ℚ} (htol : 0 < tol)
    (hdist : dist ≤ 0) (f : Bool) : accept tol gk dist grad f = true := by
  unfold accept
  have h1 : dist ≤ (if f then tol * 1.35 else tol) := by
    split <;> nlinarith
  have h2 : ¬ (tol * 0.4 < dist) := by nlinarith
  simp [h1, h2]

theorem accept_reject_far {tol gk dist grad : ℚ} (h : tol < dist) :
    accept tol gk dist grad false = false := by
  unfold accept
  simp [not_le.mpr h]

theorem accept_mono {tol gk dist grad : ℚ} (htol : 0 ≤ tol)
    (h : accept tol gk dist grad false = true) :
    accept tol gk dist grad true = true := by
  unfold accept at h ⊢
  simp only [Bool.and_eq_true, decide_eq_true_eq, if_neg, Bool.false_eq_true,
    not_false_iff, if_false] at h
  have h1 : dist ≤ tol := by
    rcases h with ⟨h1, -⟩
    simpa using h1
  have h2 : dist ≤ tol * 1.35 := by nlinarith
  simp [h2]

theorem pathOk_head {W H : ℕ} {R : ℕ → Bool} {x : ℕ} {xs : List ℕ}
    (h : pathOk W H R (x :: xs) = true) : R x = true := by
  cases xs with
  | nil => exact h
  | cons y ys =>
    unfold pathOk at h
    simp only [Bool.and_eq_true] at h
    exact h.1.1

theorem path_seen (adm : ℕ → Bool → Bool) (W H : ℕ) (R : ℕ → Bool)
    (seen : List Bool)
    (hclos : ∀ p, seen.getD p false = true → ∀ q ∈ neighborsOf W H p,
      seen.getD q false = true ∨ adm q false = false)
    (hacc : ∀ p, R p = true → adm p false = true) :
    ∀ ps : List ℕ, pathOk W H R ps = true →
      ∀ s0, ps.head? = some s0 → seen.getD s0 false = true →
        ∀ q, ps.getLast? = some q → seen.getD q false = true
  | [], _, s0, hh, _, q, hl => by cases hh
  | [p], _, s0, hh, hseen, q, hl => by
    obtain rfl : p = s0 := Option.some.inj hh
    obtain rfl : p = q := Option.some.inj hl
    exact hseen
  | p :: p2 :: rest, h, s0, hh, hseen, q, hl => by
    have hsplit : (R p = true ∧ p2 ∈ neighborsOf W H p) ∧
        pathOk W H R (p2 :: rest) = true := by
      unfold pathOk at h
      simpa only [Bool.and_eq_true, decide_eq_true_eq] using h
    obtain ⟨⟨hRp, hnb⟩, hrest⟩ := hsplit
    obtain rfl : p = s0 := Option.some.inj hh
    have hp2 : seen.getD p2 false = true := by
      rcases hclos p hseen p2 hnb with h1 | h2
      · exact h1
      · have hR2 : R p2 = true := pathOk_head hrest
        rw [hacc p2 hR2] at h2
        cases h2
    exact path_seen adm W H R seen hclos hacc (p2 :: rest) hrest p2 rfl hp2 q
      (by simpa [List.getLast?_cons_cons] using hl)

theorem idx_lt_total {W H x y : ℕ} (hx : x < W) (hy : y < H) :
    y * W + x < W * H := by
  have hA : (y + 1) * W = y * W + W := by ring
  have hB : (y + 1) * W ≤ H * W := Nat.mul_le_mul_right W (by omega)
  have hC : W * H = H * W := Nat.mul_comm W H
  omega

theorem idx_mod_div {W x y : ℕ} (hx : x < W) :
    (y * W + x) % W = x ∧ (y * W + x) / W = y := by
  constructor
  · rw [Nat.add_comm, Nat.add_mul_mod_self_right]
    exact Nat.mod_eq_of_lt hx
  · rw [Nat.add_comm, Nat.add_mul_div_right _ _ (by omega : 0 < W),
      Nat.div_eq_of_lt hx]
    omega

/-- Modelled from the spec: the options record of a single-forced-seed
call. -/
def seedOpts (ct tg gk fe : ℚ) (sx sy : ℕ) (m : Mode) : Options :=
  { colorTol := ct, tileGuess := tg, gradKeep := gk, feather := fe
    seedPoints := [⟨sx, sy, true⟩], mode := m }

theorem initFrontier_bounds {W H : ℕ} {o : Options} (hW : 1 ≤ W) (hH : 1 ≤ H)
    (hseeds : ∀ s ∈ o.seedPoints, s.x < W ∧ s.y < H) :
    ∀ e ∈ initFrontier W H o, e.1 < W * H := by
  intro e he
  unfold initFrontier at he
  rcases List.mem_append.mp he with h1 | h2
  · split at h1
    · obtain ⟨⟨x, y⟩, hc, rfl⟩ := List.mem_map.mp h1
      obtain ⟨hx, hy, -⟩ := samplerCoords_border hW hH hc
      exact idx_lt_total hx hy
    · cases h1
  · split at h2
    · obtain ⟨s, hs, rfl⟩ := List.mem_map.mp h2
      obtain ⟨hx, hy⟩ := hseeds s hs
      exact idx_lt_total hx hy
    · cases h2

theorem seed_mem_frontier {W H : ℕ} {o : Options} (hm : usesSeeds o.mode = true)
    {s : Seed} (hs : s ∈ o.seedPoints) :
    (s.y * W + s.x, s.force) ∈ initFrontier W H o := by
  unfold initFrontier
  refine List.mem_append_right _ ?_
  rw [if_pos hm]
  exact List.mem_map.mpr ⟨s, hs, rfl⟩

theorem frontier_auto {W H : ℕ} {ct tg gk fe : ℚ} {sx sy : ℕ} :
    ∀ e ∈ initFrontier W H (seedOpts ct tg gk fe sx sy Mode.auto),
      ∃ x y, (x, y) ∈ samplerCoords W H tg ∧ e = (y * W + x, true) := by
  intro e he
  unfold initFrontier seedOpts at he
  simp only [usesAuto, usesSeeds, if_pos, if_neg, List.append_nil] at he
  rw [if_neg Bool.false_ne_true, List.append_nil] at he
  obtain ⟨⟨x, y⟩, hc, rfl⟩ := List.mem_map.mp he
  exact ⟨x, y, hc, rfl⟩

end SpecEngine

namespace SpecEngine

/-- Modelled from the spec: the common hypotheses of the seed-forcing
claim — a host hypot that is zero at zero and even, moderate color
tolerance, a uniform border color `B`, a strictly interior uniform
region of color `C` holding the seed. -/
structure Scenario (M : MathFns) (W H : ℕ) (data : List ℚ) (ct : ℚ)
    (region : List ℕ) (sx sy : ℕ) (B C : ℚ × ℚ × ℚ) : Prop where
  hW : 3 ≤ W
  hH : 3 ≤ H
  hM0 : M.hypot3 0 0 0 = 0
  hsym : ∀ a b c : ℚ, M.hypot3 (-a) (-b) (-c) = M.hypot3 a b c
  hct0 : 0 ≤ ct
  hct45 : ct ≤ 45
  hborder : ∀ x, x < W → ∀ y, y < H →
    (x = 0 ∨ x = W - 1 ∨ y = 0 ∨ y = H - 1) → pixelRGB data (y * W + x) = B
  hregion : ∀ p ∈ region, p < W * H ∧ 0 < p % W ∧ p % W < W - 1 ∧
    0 < p / W ∧ p / W < H - 1 ∧ pixelRGB data p = C
  hseed : sy * W + sx ∈ region
  hsx : sx < W
  hsy : sy < H

theorem mergeThreshold_le (ct : ℚ) (h0 : 0 ≤ ct) :
    mergeThreshold ct ≤ max ct 12 := by
  unfold mergeThreshold
  apply max_le
  · exact le_trans (by norm_num) (le_max_right ct 12)
  · exact le_trans (by nlinarith) (le_max_left ct 12)

theorem refs_auto (M : MathFns) (W H : ℕ) (data : List ℚ)
    (ct tg gk fe : ℚ) (region : List ℕ) (sx sy : ℕ) (B C : ℚ × ℚ × ℚ)
    (sc : Scenario M W H data ct region sx sy B C) :
    ∃ refs : Cluster × Cluster,
      referencePair (clustersOf M W H data
        (seedOpts ct tg gk fe sx sy Mode.auto)) = some refs ∧
      refs.1.lab = labOfRGB M B ∧ refs.2.lab = labOfRGB M B ∧
      toleranceOf M ct refs = max ct 12 := by
  have hW1 : 1 ≤ W := by have := sc.hW; omega
  have hH1 : 1 ≤ H := by have := sc.hH; omega
  have hconst := @autoSamples_const M W H tg data _ hW1 hH1 sc.hborder
  have hlen := autoSamples_length (W := W) (H := H) tg data hW1 hH1
  have hne : autoSamples W H tg data ≠ [] := by
    intro h
    rw [h] at hlen
    simp at hlen
  have hall : allSamples W H (seedOpts ct tg gk fe sx sy Mode.auto) data =
      autoSamples W H tg data := by
    have h0 : allSamples W H (seedOpts ct tg gk fe sx sy Mode.auto) data =
        autoSamples W H tg data ++ [] := rfl
    rw [h0, List.append_nil]
  have hcl : clustersOf M W H data (seedOpts ct tg gk fe sx sy Mode.auto) =
      [⟨labOfRGB M B, B, (autoSamples W H tg data).length⟩] := by
    have h0 : clustersOf M W H data (seedOpts ct tg gk fe sx sy Mode.auto) =
        clusterAll M ct (allSamples W H (seedOpts ct tg gk fe sx sy Mode.auto)
          data) := rfl
    rw [h0, hall]
    exact clusterAll_const M ct B sc.hM0 _ hconst hne
  refine ⟨(⟨labOfRGB M B, B, (autoSamples W H tg data).length⟩,
    ⟨labOfRGB M B, B, (autoSamples W H tg data).length⟩), ?_, rfl, rfl, ?_⟩
  · rw [hcl]
    rfl
  · unfold toleranceOf
    rw [if_pos rfl]

theorem refs_seed (M : MathFns) (W H : ℕ) (data : List ℚ)
    (ct tg gk fe : ℚ) (region : List ℕ) (sx sy : ℕ) (B C : ℚ × ℚ × ℚ)
    (sc : Scenario M W H data ct region sx sy B C) :
    ∃ refs : Cluster × Cluster,
      referencePair (clustersOf M W H data
        (seedOpts ct tg gk fe sx sy Mode.seed)) = some refs ∧
      refs.2.lab = labOfRGB M C ∧
      toleranceOf M ct refs = max ct 12 := by
  have hpix : pixelRGB data (sy * W + sx) = C :=
    (sc.hregion _ sc.hseed).2.2.2.2.2
  have hrep := seedSamples_single (W := W) hpix
  have hall : allSamples W H (seedOpts ct tg gk fe sx sy Mode.seed) data =
      List.replicate 4 C := by
    have h0 : allSamples W H (seedOpts ct tg gk fe sx sy Mode.seed) data =
        [] ++ seedSamples W data [⟨sx, sy, true⟩] := rfl
    rw [h0, List.nil_append, hrep]
  have hbase : clusterAll M ct (allSamples W H
      (seedOpts ct tg gk fe sx sy Mode.seed) data) =
      [⟨labOfRGB M C, C, 4⟩] := by
    rw [hall]
    have h1 := clusterAll_const M ct C sc.hM0 (List.replicate 4 C)
      (fun s hs => List.eq_of_mem_replicate hs) (by simp)
    simpa using h1
  have hlab : pixelLab M data (sy * W + sx) = labOfRGB M C := by
    unfold pixelLab
    rw [hpix]
  have hcl : clustersOf M W H data (seedOpts ct tg gk fe sx sy Mode.seed) =
      [⟨labOfRGB M C, C, 4⟩] := by
    have h0 : clustersOf M W H data (seedOpts ct tg gk fe sx sy Mode.seed) =
        (if usesSeeds Mode.seed && decide ((clusterAll M ct (allSamples W H
            (seedOpts ct tg gk fe sx sy Mode.seed) data)).length < 2) then
          injectSeeds M W data [⟨sx, sy, true⟩]
            (clusterAll M ct (allSamples W H
              (seedOpts ct tg gk fe sx sy Mode.seed) data))
        else clusterAll M ct (allSamples W H
          (seedOpts ct tg gk fe sx sy Mode.seed) data)) := rfl
    rw [h0, hbase]
    rw [if_pos (by simp [usesSeeds])]
    unfold injectSeeds
    rw [List.foldl_cons, List.foldl_nil]
    rw [if_neg (by simp)]
    dsimp only
    rw [if_pos ?side]
    case side =>
      apply List.any_eq_true.mpr
      refine ⟨⟨labOfRGB M C, C, 4⟩, List.mem_cons_self _ _, ?_⟩
      rw [hlab]
      dsimp only
      rw [labDist_self sc.hM0]
      norm_num
  refine ⟨(⟨labOfRGB M C, C, 4⟩, ⟨labOfRGB M C, C, 4⟩), ?_, rfl, ?_⟩
  · rw [hcl]
    rfl
  · unfold toleranceOf
    rw [if_pos rfl]

theorem refs_autoSeed (M : MathFns) (W H : ℕ) (data : List ℚ)
    (ct tg gk fe : ℚ) (region : List ℕ) (sx sy : ℕ) (B C : ℚ × ℚ × ℚ)
    (sc : Scenario M W H data ct region sx sy B C)
    (hgt : max ct 12 < labDist M (labOfRGB M C) (labOfRGB M B))
    (hlt : labDist M (labOfRGB M C) (labOfRGB M B) < ct * 1.35) :
    ∃ refs : Cluster × Cluster,
      referencePair (clustersOf M W H data
        (seedOpts ct tg gk fe sx sy Mode.autoSeed)) = some refs ∧
      refs.2.lab = labOfRGB M C ∧
      toleranceOf M ct refs = max ct 12 := by
  have hW1 : 1 ≤ W := by have := sc.hW; omega
  have hH1 : 1 ≤ H := by have := sc.hH; omega
  have hpix : pixelRGB data (sy * W + sx) = C :=
    (sc.hregion _ sc.hseed).2.2.2.2.2
  have hconst := @autoSamples_const M W H tg data _ hW1 hH1 sc.hborder
  have hlen := autoSamples_length (W := W) (H := H) tg data hW1 hH1
  have hne : autoSamples W H tg data ≠ [] := by
    intro h
    rw [h] at hlen
    simp at hlen
  have hfar : mergeThreshold ct ≤ labDist M (labOfRGB M C) (labOfRGB M B) :=
    le_of_lt (lt_of_le_of_lt (mergeThreshold_le ct sc.hct0) hgt)
  have hall : allSamples W H (seedOpts ct tg gk fe sx sy Mode.autoSeed) data =
      autoSamples W H tg data ++ List.replicate 4 C := by
    have h0 : allSamples W H (seedOpts ct tg gk fe sx sy Mode.autoSeed) data =
        autoSamples W H tg data ++ seedSamples W data [⟨sx, sy, true⟩] := rfl
    rw [h0, seedSamples_single (W := W) hpix]
  have hbase : clusterAll M ct (allSamples W H
      (seedOpts ct tg gk fe sx sy Mode.autoSeed) data) =
      [⟨labOfRGB M B, B, (autoSamples W H tg data).length⟩,
        ⟨labOfRGB M C, C, 4⟩] := by
    rw [hall]
    have h1 := clusterAll_two M ct B C sc.hM0 hfar (autoSamples W H tg data)
      (List.replicate 4 C) hconst (fun s hs => List.eq_of_mem_replicate hs)
      hne (by simp)
    simpa using h1
  have hcl : clustersOf M W H data
      (seedOpts ct tg gk fe sx sy Mode.autoSeed) =
      [⟨labOfRGB M B, B, (autoSamples W H tg data).length⟩,
        ⟨labOfRGB M C, C, 4⟩] := by
    have h0 : clustersOf M W H data (seedOpts ct tg gk fe sx sy Mode.autoSeed) =
        (if usesSeeds Mode.autoSeed && decide ((clusterAll M ct (allSamples W H
            (seedOpts ct tg gk fe sx sy Mode.autoSeed) data)).length < 2) then
          injectSeeds M W data [⟨sx, sy, true⟩]
            (clusterAll M ct (allSamples W H
              (seedOpts ct tg gk fe sx sy Mode.autoSeed) data))
        else clusterAll M ct (allSamples W H
          (seedOpts ct tg gk fe sx sy Mode.autoSeed) data)) := rfl
    rw [h0, hbase]
    rw [if_neg (by simp)]
  have h4n : (4 : ℕ) < (autoSamples W H tg data).length := by omega
  have hsort : sortByCount
      [⟨labOfRGB M B, B, (autoSamples W H tg data).length⟩,
        ⟨labOfRGB M C, C, 4⟩] =
      [⟨labOfRGB M B, B, (autoSamples W H tg data).length⟩,
        ⟨labOfRGB M C, C, 4⟩] := by
    unfold sortByCount
    rw [List.foldr_cons, List.foldr_cons, List.foldr_nil]
    show insertByCount _ [⟨labOfRGB M C, C, 4⟩] = _
    unfold insertByCount
    rw [if_pos h4n]
  have hrefs : referencePair (clustersOf M W H data
      (seedOpts ct tg gk fe sx sy Mode.autoSeed)) =
      some (⟨labOfRGB M B, B, (autoSamples W H tg data).length⟩,
        ⟨labOfRGB M C, C, 4⟩) := by
    rw [hcl]
    unfold referencePair top2
    rw [hsort]
    rfl
  refine ⟨(⟨labOfRGB M B, B, (autoSamples W H tg data).length⟩,
    ⟨labOfRGB M C, C, 4⟩), hrefs, rfl, ?_⟩
  unfold toleranceOf
  rw [if_neg ?hne2]
  case hne2 =>
    intro heq
    have hcount := congrArg Cluster.count heq
    dsimp only at hcount
    omega
  have hDsym : labDist M (labOfRGB M B) (labOfRGB M C) =
      labDist M (labOfRGB M C) (labOfRGB M B) := labDist_symm sc.hsym _ _
  dsimp only
  rw [hDsym]
  have hctm : ct ≤ max ct 12 := le_max_left ct 12
  have h45 : labDist M (labOfRGB M C) (labOfRGB M B) * 0.45 ≤ max ct 12 := by
    have := sc.hct0
    nlinarith
  rw [max_eq_left h45, min_eq_right (max_le sc.hct45 (by norm_num))]

end SpecEngine

namespace SpecEngine

theorem inclusion_core (M : MathFns) (W H : ℕ) (data : List ℚ)
    (ct tg gk fe : ℚ) (region : List ℕ) (sx sy : ℕ) (B C : ℚ × ℚ × ℚ)
    (m : Mode) (sc : Scenario M W H data ct region sx sy B C)
    (hm : usesSeeds m = true) (refs : Cluster × Cluster)
    (hrefs : referencePair (clustersOf M W H data
      (seedOpts ct tg gk fe sx sy m)) = some refs)
    (htol : toleranceOf M ct refs = max ct 12)
    (hlab2 : refs.2.lab = labOfRGB M C) :
    ∀ ps : List ℕ, pathOk W H (fun p => decide (p ∈ region)) ps = true →
      ps.head? = some (sy * W + sx) →
      ∀ q, ps.getLast? = some q →
        (visited M W H data (seedOpts ct tg gk fe sx sy m)).getD q false =
          true := by
  intro ps hpath hhead q hlast
  have hW1 : 1 ≤ W := by have := sc.hW; omega
  have hH1 : 1 ≤ H := by have := sc.hH; omega
  have hvis : visited M W H data (seedOpts ct tg gk fe sx sy m) =
      (growLoop (acceptOf M W H data (seedOpts ct tg gk fe sx sy m) refs) W H
        (5 * (W * H) + (initFrontier W H (seedOpts ct tg gk fe sx sy m)).length)
        ⟨List.replicate (W * H) false,
          initFrontier W H (seedOpts ct tg gk fe sx sy m)⟩).seen := by
    unfold visited
    rw [hrefs]
    rfl
  rw [hvis]
  have hQB : QBound W H (⟨List.replicate (W * H) false,
      initFrontier W H (seedOpts ct tg gk fe sx sy m)⟩ : GrowState) := by
    refine ⟨by simp, ?_⟩
    exact initFrontier_bounds hW1 hH1 (fun s hs => by
      rcases List.mem_singleton.mp hs with rfl
      exact ⟨sc.hsx, sc.hsy⟩)
  have hdrain : (growLoop (acceptOf M W H data (seedOpts ct tg gk fe sx sy m)
      refs) W H
      (5 * (W * H) + (initFrontier W H (seedOpts ct tg gk fe sx sy m)).length)
      ⟨List.replicate (W * H) false,
        initFrontier W H (seedOpts ct tg gk fe sx sy m)⟩).queue = [] := by
    apply growLoop_drain _ _ hQB
    unfold growMeasure
    dsimp only
    rw [show List.count true (List.replicate (W * H) false) = 0 from by
      simp [List.count_replicate]]
    omega
  have htolpos : (0 : ℚ) < max ct 12 :=
    lt_of_lt_of_le (by norm_num) (le_max_right ct 12)
  have haccR : ∀ p ∈ region,
      acceptOf M W H data (seedOpts ct tg gk fe sx sy m) refs p false = true := by
    intro p hp
    have hpC : pixelRGB data p = C := (sc.hregion p hp).2.2.2.2.2
    unfold acceptOf
    dsimp only [seedOpts]
    rw [htol]
    apply accept_of_dist_nonpos htolpos
    calc refDist M (pixelLab M data p) refs ≤
        labDist M (pixelLab M data p) refs.2.lab := min_le_right _ _
      _ = 0 := by
        unfold pixelLab
        rw [hpC, hlab2, labDist_self sc.hM0]
  have hmono : ∀ p,
      acceptOf M W H data (seedOpts ct tg gk fe sx sy m) refs p false = true →
      acceptOf M W H data (seedOpts ct tg gk fe sx sy m) refs p true = true := by
    intro p h
    unfold acceptOf at h ⊢
    dsimp only [seedOpts] at h ⊢
    rw [htol] at h ⊢
    exact accept_mono (le_of_lt htolpos) h
  have hseedadm : acceptOf M W H data (seedOpts ct tg gk fe sx sy m) refs
      (sy * W + sx) true = true :=
    hmono _ (haccR _ sc.hseed)
  have hmemF : ((sy * W + sx : ℕ), true) ∈
      initFrontier W H (seedOpts ct tg gk fe sx sy m) := by
    have h := seed_mem_frontier (W := W) (H := H)
      (o := seedOpts ct tg gk fe sx sy m) hm
      (s := ⟨sx, sy, true⟩) (List.mem_singleton.mpr rfl)
    simpa using h
  have hseedseen := growLoop_queue_seen
    (acceptOf M W H data (seedOpts ct tg gk fe sx sy m) refs) W H
    (5 * (W * H) + (initFrontier W H (seedOpts ct tg gk fe sx sy m)).length)
    ⟨List.replicate (W * H) false,
      initFrontier W H (seedOpts ct tg gk fe sx sy m)⟩
    hQB hdrain _ true hmemF hseedadm
  have hclos0 : ClosureInv (acceptOf M W H data (seedOpts ct tg gk fe sx sy m)
      refs) W H ⟨List.replicate (W * H) false,
        initFrontier W H (seedOpts ct tg gk fe sx sy m)⟩ := by
    intro p hp
    dsimp only at hp
    rw [replicate_false_getD] at hp
    exact absurd hp Bool.false_ne_true
  have hclosF := growLoop_closure hmono
    (5 * (W * H) + (initFrontier W H (seedOpts ct tg gk fe sx sy m)).length)
    ⟨List.replicate (W * H) false,
      initFrontier W H (seedOpts ct tg gk fe sx sy m)⟩ hQB hclos0
  have hclos2 : ∀ p, (growLoop (acceptOf M W H data
      (seedOpts ct tg gk fe sx sy m) refs) W H
      (5 * (W * H) + (initFrontier W H (seedOpts ct tg gk fe sx sy m)).length)
      ⟨List.replicate (W * H) false,
        initFrontier W H (seedOpts ct tg gk fe sx sy m)⟩).seen.getD p false =
        true →
      ∀ r ∈ neighborsOf W H p, (growLoop (acceptOf M W H data
        (seedOpts ct tg gk fe sx sy m) refs) W H
        (5 * (W * H) + (initFrontier W H (seedOpts ct tg gk fe sx sy m)).length)
        ⟨List.replicate (W * H) false,
          initFrontier W H (seedOpts ct tg gk fe sx sy m)⟩).seen.getD r false =
          true ∨
        acceptOf M W H data (seedOpts ct tg gk fe sx sy m) refs r false =
          false := by
    intro p hp r hr
    rcases hclosF p hp r hr with h1 | ⟨b, h2⟩ | h3
    · exact Or.inl h1
    · rw [hdrain] at h2
      cases h2
    · exact Or.inr h3
  exact path_seen _ W H _ _ hclos2
    (fun p hp => haccR p (of_decide_eq_true hp)) ps hpath _ hhead hseedseen
    q hlast

theorem exclusion_core (M : MathFns) (W H : ℕ) (data : List ℚ)
    (ct tg gk fe : ℚ) (region : List ℕ) (sx sy : ℕ) (B C : ℚ × ℚ × ℚ)
    (sc : Scenario M W H data ct region sx sy B C) (refs : Cluster × Cluster)
    (hrefs : referencePair (clustersOf M W H data
      (seedOpts ct tg gk fe sx sy Mode.auto)) = some refs)
    (htol : toleranceOf M ct refs = max ct 12)
    (hlab1 : refs.1.lab = labOfRGB M B) (hlab2 : refs.2.lab = labOfRGB M B)
    (hgt : max ct 12 < labDist M (labOfRGB M C) (labOfRGB M B)) :
    ∀ p ∈ region, (visited M W H data
      (seedOpts ct tg gk fe sx sy Mode.auto)).getD p false = false := by
  intro p hp
  have hW1 : 1 ≤ W := by have := sc.hW; omega
  have hH1 : 1 ≤ H := by have := sc.hH; omega
  have hvis : visited M W H data (seedOpts ct tg gk fe sx sy Mode.auto) =
      (growLoop (acceptOf M W H data (seedOpts ct tg gk fe sx sy Mode.auto)
        refs) W H
        (5 * (W * H) +
          (initFrontier W H (seedOpts ct tg gk fe sx sy Mode.auto)).length)
        ⟨List.replicate (W * H) false,
          initFrontier W H (seedOpts ct tg gk fe sx sy Mode.auto)⟩).seen := by
    unfold visited
    rw [hrefs]
    rfl
  rw [hvis]
  have hsrc0 : SourceInv (acceptOf M W H data
      (seedOpts ct tg gk fe sx sy Mode.auto) refs)
      (initFrontier W H (seedOpts ct tg gk fe sx sy Mode.auto))
      ⟨List.replicate (W * H) false,
        initFrontier W H (seedOpts ct tg gk fe sx sy Mode.auto)⟩ := by
    constructor
    · intro r hr
      dsimp only at hr
      rw [replicate_false_getD] at hr
      exact absurd hr Bool.false_ne_true
    · intro r b hmem _
      exact hmem
  have hsrcF := growLoop_source (W := W) (H := H)
    (5 * (W * H) +
      (initFrontier W H (seedOpts ct tg gk fe sx sy Mode.auto)).length)
    ⟨List.replicate (W * H) false,
      initFrontier W H (seedOpts ct tg gk fe sx sy Mode.auto)⟩ hsrc0
  have hrej : acceptOf M W H data (seedOpts ct tg gk fe sx sy Mode.auto) refs
      p false = false := by
    unfold acceptOf
    dsimp only [seedOpts]
    rw [htol]
    apply accept_reject_far
    have hd : refDist M (pixelLab M data p) refs =
        labDist M (labOfRGB M C) (labOfRGB M B) := by
      unfold refDist pixelLab
      rw [(sc.hregion p hp).2.2.2.2.2, hlab1, hlab2, min_self]
    rw [hd]
    exact hgt
  have hnotF : ¬ ∃ b, ((p : ℕ), b) ∈
      initFrontier W H (seedOpts ct tg gk fe sx sy Mode.auto) := by
    rintro ⟨b, hmem⟩
    obtain ⟨x, y, hc, heq⟩ := frontier_auto _ hmem
    injection heq with h1 h2
    obtain ⟨hx, hy, hb⟩ := samplerCoords_border hW1 hH1 hc
    obtain ⟨hmod, hdiv⟩ := idx_mod_div (y := y) hx
    obtain ⟨-, hr1, hr2, hr3, hr4, -⟩ := sc.hregion p hp
    rw [h1] at hr1 hr2 hr3 hr4
    rw [hmod] at hr1 hr2
    rw [hdiv] at hr3 hr4
    have hW3 := sc.hW
    have hH3 := sc.hH
    rcases hb with rfl | rfl | rfl | rfl <;> omega
  cases hval : (growLoop (acceptOf M W H data
      (seedOpts ct tg gk fe sx sy Mode.auto) refs) W H
      (5 * (W * H) +
        (initFrontier W H (seedOpts ct tg gk fe sx sy Mode.auto)).length)
      ⟨List.replicate (W * H) false,
        initFrontier W H (seedOpts ct tg gk fe sx sy Mode.auto)⟩).seen.getD p
        false with
  | false => rfl
  | true =>
    rcases hsrcF.1 p hval with h1 | h2
    · rw [hrej] at h1
      cases h1
    · exact absurd h2 hnotF

end SpecEngine

namespace SpecEngine

/-- Modelled from the spec: the seed-forcing claim as stated — for a
region whose color differs from the auto-detected background by more
than `colorTol` (and less than `colorTol*1.35`), a forced seed inside
the region makes the region part of the background in `seed` and
`auto+seed` modes, but the region stays out of the background in pure
`auto` mode. -/
def C2Claim : Prop :=
  ∀ (M : MathFns) (W H : ℕ) (data : List ℚ) (ct tg gk fe : ℚ)
    (region : List ℕ) (sx sy : ℕ) (B C : ℚ × ℚ × ℚ),
    Scenario M W H data ct region sx sy B C →
    ct < labDist M (labOfRGB M C) (labOfRGB M B) →
    labDist M (labOfRGB M C) (labOfRGB M B) < ct * 1.35 →
    ((∀ m : Mode, m = Mode.seed ∨ m = Mode.autoSeed →
      ∀ ps : List ℕ, pathOk W H (fun p => decide (p ∈ region)) ps = true →
        ps.head? = some (sy * W + sx) →
        ∀ q, ps.getLast? = some q →
          (visited M W H data (seedOpts ct tg gk fe sx sy m)).getD q false =
            true) ∧
      (∀ p ∈ region,
        (visited M W H data (seedOpts ct tg gk fe sx sy Mode.auto)).getD p
          false = false))

/-- Concrete math functions for the C2 counterexample: `hypot3` is `0`
at `(0,0,0)` and `11` elsewhere (the true Euclidean norm of the
concrete nonzero Lab difference here is irrational, and the claim
quantifies over the host library; this stub is zero at zero and even). -/
def ce2Math : MathFns :=
  { sqrt := fun _ => 0, cbrt := fun _ => 0, pow24 := fun _ => 0
    hypot2 := fun _ _ => 0
    hypot3 := fun a b c => if a = 0 ∧ b = 0 ∧ c = 0 then 0 else 11 }

/-- Math functions for the C2 witness: as `ce2Math` with Lab distance
`13` between distinct colors. -/
def w2Math : MathFns :=
  { sqrt := fun _ => 0, cbrt := fun _ => 0, pow24 := fun _ => 0
    hypot2 := fun _ _ => 0
    hypot3 := fun a b c => if a = 0 ∧ b = 0 ∧ c = 0 then 0 else 13 }

/-- 3×3 RGBA image: black border ring, near-black `(10,10,10)` centre
pixel (index 4). -/
def ce2Data : List ℚ :=
  [0,0,0,255, 0,0,0,255, 0,0,0,255,
   0,0,0,255, 10,10,10,255, 0,0,0,255,
   0,0,0,255, 0,0,0,255, 0,0,0,255]

set_option maxRecDepth 1000000 in
unseal Rat.add Rat.mul Rat.inv Rat.sub Rat.ofScientific in
theorem ce2_scenario :
    Scenario ce2Math 3 3 ce2Data 10 [4] 1 1 (0, 0, 0) (10, 10, 10) := by
  refine ⟨by norm_num, by norm_num, by decide,
    fun a b c => ?_, by norm_num, by norm_num, by decide, by decide,
    by decide, by norm_num, by norm_num⟩
  show (if -a = 0 ∧ -b = 0 ∧ -c = 0 then (0 : ℚ) else 11) =
    (if a = 0 ∧ b = 0 ∧ c = 0 then (0 : ℚ) else 11)
  simp [neg_eq_zero]

set_option maxRecDepth 1000000 in
unseal Rat.add Rat.mul Rat.inv Rat.sub Rat.ofScientific in
theorem ce2_lower : (10 : ℚ) <
    labDist ce2Math (labOfRGB ce2Math (10, 10, 10))
      (labOfRGB ce2Math (0, 0, 0)) := by decide

set_option maxRecDepth 1000000 in
unseal Rat.add Rat.mul Rat.inv Rat.sub Rat.ofScientific in
theorem ce2_upper :
    labDist ce2Math (labOfRGB ce2Math (10, 10, 10))
      (labOfRGB ce2Math (0, 0, 0)) < 10 * 1.35 := by decide

set_option maxRecDepth 1000000 in
unseal Rat.add Rat.mul Rat.inv Rat.sub Rat.ofScientific in
theorem ce2_absorbed :
    (visited ce2Math 3 3 ce2Data (seedOpts 10 16 10 2 1 1 Mode.auto)).getD 4
      false = true := by decide

set_option maxRecDepth 1000000 in
unseal Rat.add Rat.mul Rat.inv Rat.sub Rat.ofScientific in
theorem w2_scenario :
    Scenario w2Math 3 3 ce2Data 10 [4] 1 1 (0, 0, 0) (10, 10, 10) := by
  refine ⟨by norm_num, by norm_num, by decide,
    fun a b c => ?_, by norm_num, by norm_num, by decide, by decide,
    by decide, by norm_num, by norm_num⟩
  show (if -a = 0 ∧ -b = 0 ∧ -c = 0 then (0 : ℚ) else 13) =
    (if a = 0 ∧ b = 0 ∧ c = 0 then (0 : ℚ) else 13)
  simp [neg_eq_zero]

set_option maxRecDepth 1000000 in
unseal Rat.add Rat.mul Rat.inv Rat.sub Rat.ofScientific in
theorem w2_gt : max (10 : ℚ) 12 <
    labDist w2Math (labOfRGB w2Math (10, 10, 10))
      (labOfRGB w2Math (0, 0, 0)) := by decide

set_option maxRecDepth 1000000 in
unseal Rat.add Rat.mul Rat.inv Rat.sub Rat.ofScientific in
theorem w2_lt :
    labDist w2Math (labOfRGB w2Math (10, 10, 10))
      (labOfRGB w2Math (0, 0, 0)) < 10 * 1.35 := by decide

end SpecEngine

/-- C2 counterexample: the claim fails for the `auto` conjunct because
the grower's non-forced admission threshold is the derived tolerance
`max(colorTol, 12)`, not `colorTol`.  On a 3×3 image with a black
border and a centre pixel at Lab distance 11 from it (`colorTol = 10`),
pure `auto` mode absorbs the centre into the background even with no
seed involved, since 11 ≤ max(10, 12). -/
theorem seed_forcing_claim_counterexample : ¬ SpecEngine.C2Claim := by
  intro h
  have h2 := (h SpecEngine.ce2Math 3 3 SpecEngine.ce2Data 10 16 10 2 [4] 1 1
    (0, 0, 0) (10, 10, 10) SpecEngine.ce2_scenario SpecEngine.ce2_lower
    SpecEngine.ce2_upper).2 4 (List.mem_singleton.mpr rfl)
  rw [SpecEngine.ce2_absorbed] at h2
  cases h2

/-- C2 (amended): with the lower bound strengthened from `colorTol` to
the derived tolerance `max(colorTol, 12)` — for every image with a
uniform border color `B` and a strictly interior region of color `C`
whose Lab distance `D` to `B` satisfies `max(colorTol,12) < D <
colorTol*1.35`, a forced seed inside the region makes every region
pixel 4-connected to the seed within the region part of the background
set in `seed` and `auto+seed` modes, while in pure `auto` mode no
region pixel ever enters the background set. -/
theorem seed_forcing_amended
    (M : MathFns) (W H : ℕ) (data : List ℚ) (ct tg gk fe : ℚ)
    (region : List ℕ) (sx sy : ℕ) (B C : ℚ × ℚ × ℚ)
    (sc : SpecEngine.Scenario M W H data ct region sx sy B C)
    (hgt : max ct 12 <
      SpecEngine.labDist M (SpecEngine.labOfRGB M C) (SpecEngine.labOfRGB M B))
    (hlt : SpecEngine.labDist M (SpecEngine.labOfRGB M C)
      (SpecEngine.labOfRGB M B) < ct * 1.35) :
    ((∀ m : Mode, m = Mode.seed ∨ m = Mode.autoSeed →
      ∀ ps : List ℕ,
        SpecEngine.pathOk W H (fun p => decide (p ∈ region)) ps = true →
        ps.head? = some (sy * W + sx) →
        ∀ q, ps.getLast? = some q →
          (SpecEngine.visited M W H data
            (SpecEngine.seedOpts ct tg gk fe sx sy m)).getD q false = true) ∧
      (∀ p ∈ region,
        (SpecEngine.visited M W H data
          (SpecEngine.seedOpts ct tg gk fe sx sy Mode.auto)).getD p false =
          false)) := by
  constructor
  · intro m hm
    rcases hm with rfl | rfl
    · obtain ⟨refs, hrefs, hlab2, htol⟩ :=
        SpecEngine.refs_seed M W H data ct tg gk fe region sx sy B C sc
      exact SpecEngine.inclusion_core M W H data ct tg gk fe region sx sy B C
        Mode.seed sc rfl refs hrefs htol hlab2
    · obtain ⟨refs, hrefs, hlab2, htol⟩ :=
        SpecEngine.refs_autoSeed M W H data ct tg gk fe region sx sy B C sc
          hgt hlt
      exact SpecEngine.inclusion_core M W H data ct tg gk fe region sx sy B C
        Mode.autoSeed sc rfl refs hrefs htol hlab2
  · obtain ⟨refs, hrefs, hlab1, hlab2, htol⟩ :=
      SpecEngine.refs_auto M W H data ct tg gk fe region sx sy B C sc
    exact SpecEngine.exclusion_core M W H data ct tg gk fe region sx sy B C sc
      refs hrefs htol hlab1 hlab2 hgt

/-- Witness for C2 (amended): on the concrete 3×3 image with Lab
distance 13 (`colorTol = 10`), the forced seed at the centre makes the
centre background in `seed` mode. -/
theorem seed_forcing_amended_witness :
    (SpecEngine.visited SpecEngine.w2Math 3 3 SpecEngine.ce2Data
      (SpecEngine.seedOpts 10 16 10 2 1 1 Mode.seed)).getD 4 false = true :=
  (seed_forcing_amended SpecEngine.w2Math 3 3 SpecEngine.ce2Data 10 16 10 2
    [4] 1 1 (0, 0, 0) (10, 10, 10) SpecEngine.w2_scenario SpecEngine.w2_gt
    SpecEngine.w2_lt).1 Mode.seed (Or.inl rfl) [4] (by decide) rfl 4 rfl

namespace V2

/-! ## V2: the appended older `makeBackgroundTransparent`
(`src/utils/transparency.ts`, lines 328–485).

JavaScript number semantics matter here: the older version reads the
pixel buffer without clamping its patch origins and has no fallback for
an empty median-split side, so `undefined` array reads and `NaN`
arithmetic can reach the likelihood map.  A JS number that may be
`NaN`/`undefined` is modelled as `Option ℚ` (`none` = NaN/undefined):
arithmetic propagates `none`, every comparison with `none` is false
(as every NaN comparison is), and `Math.max`/`Math.min`/`Math.hypot`
return NaN on NaN inputs. -/

/-- A JavaScript number: `none` is NaN or undefined. -/
abbrev JsNum := Option ℚ

def jadd : JsNum → JsNum → JsNum
  | some a, some b => some (a + b)
  | _, _ => none

def jsub : JsNum → JsNum → JsNum
  | some a, some b => some (a - b)
  | _, _ => none

def jmul : JsNum → JsNum → JsNum
  | some a, some b => some (a * b)
  | _, _ => none

/-- Division; callers never divide by zero (guarded by `colorTol ≠ 0`
and nonempty blur windows), so the finite/finite case is plain `ℚ`
division. -/
def jdiv : JsNum → JsNum → JsNum
  | some a, some b => some (a / b)
  | _, _ => none

/-- Host function application: NaN in, NaN out. -/
def jmap (f : ℚ → ℚ) : JsNum → JsNum
  | some a => some (f a)
  | none => none

/-- `a < b`; false when either side is NaN. -/
def jlt : JsNum → JsNum → Bool
  | some a, some b => decide (a < b)
  | _, _ => false

/-- `a ≤ b`; false when either side is NaN. -/
def jle : JsNum → JsNum → Bool
  | some a, some b => decide (a ≤ b)
  | _, _ => false

/-- `Math.min`: NaN when either argument is NaN. -/
def jmin : JsNum → JsNum → JsNum
  | some a, some b => some (min a b)
  | _, _ => none

/-- `Math.max c ·` with a number constant: NaN stays NaN. -/
def jmaxc (c : ℚ) : JsNum → JsNum
  | some a => some (max c a)
  | none => none

/-- `Math.hypot` on three numbers: NaN when any argument is NaN. -/
def jhypot3 (M : MathFns) : JsNum → JsNum → JsNum → JsNum
  | some a, some b, some c => some (M.hypot3 a b c)
  | _, _, _ => none

/-- `Math.hypot` on two numbers. -/
def jhypot2 (M : MathFns) : JsNum → JsNum → JsNum
  | some a, some b => some (M.hypot2 a b)
  | _, _ => none

/-- Buffer read at a signed index (line 381 via unclamped patch
origins): out-of-range reads give `undefined`. -/
def readZ (data : List ℚ) (i : ℤ) : JsNum :=
  if i < 0 then none else data.get? i.toNat

/-- Buffer read at a natural index. -/
def readN (data : List ℚ) (i : ℕ) : JsNum := data.get? i

/-- `srgbToLinear` of the inlined `rgb2lab` (lines 358–360): a NaN
input fails the `≤ 0.04045` test and flows through `Math.pow`. -/
def srgbToLinear (M : MathFns) (u : JsNum) : JsNum :=
  if jle u (some 0.04045) then jdiv u (some 12.92)
  else jmap M.pow24 (jdiv (jadd u (some 0.055)) (some 1.055))

/-- The `f` of `rgb2lab` (line 366). -/
def labF (M : MathFns) (t : JsNum) : JsNum :=
  if jlt (some 0.008856) t then jmap M.cbrt t
  else jadd (jmul (some 7.787) t) (some (16 / 116))

/-- `rgb2lab` (lines 357–369) on JS numbers. -/
def rgbToLab (M : MathFns) (r g b : JsNum) : JsNum × JsNum × JsNum :=
  let R := srgbToLinear M (jdiv r (some 255))
  let G := srgbToLinear M (jdiv g (some 255))
  let B := srgbToLinear M (jdiv b (some 255))
  let X := jadd (jadd (jmul (some 0.4124564) R) (jmul (some 0.3575761) G))
    (jmul (some 0.1804375) B)
  let Y := jadd (jadd (jmul (some 0.2126729) R) (jmul (some 0.7151522) G))
    (jmul (some 0.072175) B)
  let Z := jadd (jadd (jmul (some 0.0193339) R) (jmul (some 0.119192) G))
    (jmul (some 0.9503041) B)
  let fx := labF M (jdiv X (some 0.95047))
  let fy := labF M (jdiv Y (some 1.0))
  let fz := labF M (jdiv Z (some 1.08883))
  (jsub (jmul (some 116) fy) (some 16), jmul (some 500) (jsub fx fy),
    jmul (some 200) (jsub fy fz))

/-- `distLab` (line 370): `Math.hypot` of the componentwise difference. -/
def distLab (M : MathFns) (a b : JsNum × JsNum × JsNum) : JsNum :=
  jhypot3 M (jsub a.1 b.1) (jsub a.2.1 b.2.1) (jsub a.2.2 b.2.2)

/-- `Array.prototype.sort` with the `a - b` comparator on an array that
may hold `undefined` entries: undefined entries go to the end without
being compared, the numbers sort ascending.  (The V2 sort inputs are
raw byte reads or, for the luminance sort, in-bounds Lab values, so a
NaN never reaches a comparator call in the runs modelled here.) -/
def sortJs (l : List JsNum) : List JsNum :=
  let s := l.filterMap id
  (Js.sortAsc s).map some ++ List.replicate (l.length - s.length) none

/-- `medianColor` (lines 371–376): per-channel sort, element at index
`⌊length/2⌋`; on an empty list the read is `undefined`. -/
def medianColor (samples : List (JsNum × JsNum × JsNum)) :
    JsNum × JsNum × JsNum :=
  let rs := sortJs (samples.map (·.1))
  let gs := sortJs (samples.map (·.2.1))
  let bs := sortJs (samples.map (·.2.2))
  ((rs.getD (rs.length / 2) none).join, (gs.getD (gs.length / 2) none).join,
    (bs.getD (bs.length / 2) none).join)

/-- `pickPatch` (lines 377–384): a fixed 24×24 patch with UNCLAMPED
origin — out-of-range coordinates produce `undefined` reads. -/
def pickPatch (data : List ℚ) (W : ℕ) (x0 y0 : ℤ) :
    List (JsNum × JsNum × JsNum) :=
  (List.range 24).flatMap fun (dy : ℕ) =>
    (List.range 24).map fun (dx : ℕ) =>
      let i := ((y0 + (dy : ℤ)) * W + (x0 + (dx : ℤ))) * 4
      (readZ data i, readZ data (i + 1), readZ data (i + 2))

/-- The four corner patches (lines 385–388), with signed `W - 24`
origins. -/
def cornerSamples (data : List ℚ) (W H : ℕ) : List (JsNum × JsNum × JsNum) :=
  pickPatch data W 0 0 ++ pickPatch data W ((W : ℤ) - 24) 0 ++
    pickPatch data W 0 ((H : ℤ) - 24) ++
    pickPatch data W ((W : ℤ) - 24) ((H : ℤ) - 24)

/-- The light/dark split and references (lines 389–395): samples with
`L ≥ median L` go light, the rest dark — with NO fallback for an empty
side, so a uniform image leaves `dark` empty and `c2` undefined. -/
def references (M : MathFns) (data : List ℚ) (W H : ℕ) :
    (JsNum × JsNum × JsNum) × (JsNum × JsNum × JsNum) :=
  let corner := cornerSamples data W H
  let cornerLs := corner.map fun s => (rgbToLab M s.1 s.2.1 s.2.2).1
  let sortedL := sortJs cornerLs
  let medianL := sortedL.getD (sortedL.length / 2) none
  let zipped := corner.zip cornerLs
  let lightSamples := (zipped.filter fun sc => jle medianL sc.2).map (·.1)
  let darkSamples := (zipped.filter fun sc => ! jle medianL sc.2).map (·.1)
  (medianColor lightSamples, medianColor darkSamples)

/-- Lab conversion of every pixel, row-major. -/
def labArr (M : MathFns) (total : ℕ) (data : List ℚ) :
    List (JsNum × JsNum × JsNum) :=
  (List.range total).map fun p =>
    rgbToLab M (readN data (4 * p)) (readN data (4 * p + 1))
      (readN data (4 * p + 2))

/-- `scorePeriod` (lines 396–408) on JS numbers: a NaN distance fails
both the tolerance and the match comparisons. -/
def scorePeriod (M : MathFns) (width height : ℕ)
    (lab : List (JsNum × JsNum × JsNum)) (c1Lab c2Lab : JsNum × JsNum × JsNum)
    (colorTol period : ℚ) : ℕ :=
  let step := max 1 (width / 64)
  ((Js.rangeStep height step).flatMap fun y =>
    (Js.rangeStep width step).map fun x =>
      let index := y * width + x
      let l := lab.getD index (none, none, none)
      let dc1 := distLab M l c1Lab
      let dc2 := distLab M l c2Lab
      let m := if V1.parity x y period = 1 then jlt dc2 dc1 else jlt dc1 dc2
      jlt (jmin dc1 dc2) (some colorTol) && m).count true

/-- The period search (lines 409–413), same structure as V1. -/
def bestPeriod (M : MathFns) (width height : ℕ)
    (lab : List (JsNum × JsNum × JsNum)) (c1Lab c2Lab : JsNum × JsNum × JsNum)
    (colorTol tileGuess : ℚ) : ℚ :=
  ((V1.periodCandidates tileGuess).foldl
    (fun best p =>
      let s : ℤ := scorePeriod M width height lab c1Lab c2Lab colorTol p
      if best.1 < s then (s, p) else best)
    ((-1 : ℤ), tileGuess)).2

/-- Luminance of every pixel (line 418). -/
def lumArr (total : ℕ) (data : List ℚ) : List JsNum :=
  (List.range total).map fun p =>
    jadd (jadd (jmul (some 0.2126) (readN data (4 * p)))
      (jmul (some 0.7152) (readN data (4 * p + 1))))
      (jmul (some 0.0722) (readN data (4 * p + 2)))

/-- The Sobel gradient map (lines 414–425): the `Float32Array` starts
zeroed and only interior pixels are written. -/
def gradArr (M : MathFns) (width height : ℕ) (lum : List JsNum) :
    List JsNum :=
  (List.range height).flatMap fun y =>
    (List.range width).map fun x =>
      if 1 ≤ y ∧ y < height - 1 ∧ 1 ≤ x ∧ x < width - 1 then
        let l := fun (yy xx : ℕ) => lum.getD (yy * width + xx) (some 0)
        let gx := jadd (jadd (jadd (jsub (jsub (jmul (some (-1)) (l (y-1) (x-1)))
          (jmul (some 2) (l y (x-1)))) (l (y+1) (x-1))) (l (y-1) (x+1)))
          (jmul (some 2) (l y (x+1)))) (l (y+1) (x+1))
        let gy := jadd (jadd (jadd (jsub (jsub (jmul (some (-1)) (l (y-1) (x-1)))
          (jmul (some 2) (l (y-1) x))) (l (y-1) (x+1))) (l (y+1) (x-1)))
          (jmul (some 2) (l (y+1) x))) (l (y+1) (x+1))
        jdiv (jhypot2 M gx gy) (some 8)
      else some 0

/-- The likelihood map (lines 426–439): the per-pixel reference is
chosen by tile parity, so a NaN reference poisons exactly its parity
class. -/
def likeArr (M : MathFns) (width height : ℕ)
    (lab : List (JsNum × JsNum × JsNum)) (grad : List JsNum)
    (c1Lab c2Lab : JsNum × JsNum × JsNum) (colorTol gradKeep period : ℚ) :
    List JsNum :=
  (List.range height).flatMap fun y =>
    (List.range width).map fun x =>
      let index := y * width + x
      let l := lab.getD index (none, none, none)
      let dc1 := distLab M l c1Lab
      let dc2 := distLab M l c2Lab
      let dc := if V1.parity x y period = 1 then dc2 else dc1
      let likelihood := jmaxc 0 (jsub (some 1) (jdiv dc (some colorTol)))
      if jlt (some gradKeep) (grad.getD index (some 0)) then
        jmul likelihood (some 0.2)
      else likelihood

/-- The region-growth state (lines 440–456), as in the V1 model but
over JS numbers. -/
structure BfsState where
  like : List JsNum
  seen : List Bool
  queue : List (ℕ × ℕ)
  tail : ℕ

/-- `push` (line 443). -/
def enqueue (W : ℕ) (st : BfsState) (x y : ℕ) : BfsState :=
  let idx := y * W + x
  if st.seen.getD idx false then st
  else { st with
          seen := st.seen.set idx true
          queue := st.queue ++ [(x, y)]
          tail := st.tail + 1 }

/-- The border seeding loops (lines 444–445): a NaN likelihood fails
the `> 0.5` test. -/
def seedBorder (W H : ℕ) (st : BfsState) : BfsState :=
  let st1 := (List.range W).foldl
    (fun st x =>
      let f := if jlt (some (1/2)) (st.like.getD x (some 0)) then
        enqueue W st x 0 else st
      if jlt (some (1/2)) (f.like.getD ((H - 1) * W + x) (some 0)) then
        enqueue W f x (H - 1) else f)
    st
  (List.range H).foldl
    (fun st y =>
      let f := if jlt (some (1/2)) (st.like.getD (y * W) (some 0)) then
        enqueue W st 0 y else st
      if jlt (some (1/2)) (f.like.getD (y * W + (W - 1)) (some 0)) then
        enqueue W f (W - 1) y else f)
    st1

/-- One pass of the `while` body (lines 446–456). -/
def bfsPop (W H : ℕ) (st : BfsState) (x y : ℕ) (rest : List (ℕ × ℕ)) :
    BfsState :=
  let idx := y * W + x
  let st1 : BfsState := { st with queue := rest, like := st.like.set idx (some 1) }
  V1.neighbours.foldl
    (fun s d =>
      let nx : ℤ := (x : ℤ) + d.1
      let ny : ℤ := (y : ℤ) + d.2
      if nx < 0 ∨ (W : ℤ) ≤ nx ∨ ny < 0 ∨ (H : ℤ) ≤ ny then s
      else
        let nIdx := ny.toNat * W + nx.toNat
        if ¬ s.seen.getD nIdx false ∧
            jlt (some (1/2)) (s.like.getD nIdx (some 0)) = true then
          enqueue W s nx.toNat ny.toNat
        else s)
    st1

/-- The BFS loop with explicit fuel. -/
def bfsLoop (W H : ℕ) : ℕ → BfsState → BfsState
  | 0, st => st
  | fuel + 1, st =>
    match st.queue with
    | [] => st
    | (x, y) :: rest => bfsLoop W H fuel (bfsPop W H st x y rest)

/-- The whole region growth. -/
def bfsRun (W H : ℕ) (like0 : List JsNum) : BfsState :=
  bfsLoop W H (W * H)
    (seedBorder W H
      { like := like0, seen := List.replicate (W * H) false, queue := []
        tail := 0 })

/-- The binary mask (lines 457–458): `like[i] >= 1.0 ? 1 : 0`, false
for NaN, so the stored mask is always a plain number. -/
def mask0 (total : ℕ) (likeF : List JsNum) : List ℚ :=
  (List.range total).map fun i =>
    if jle (some 1) (likeF.getD i (some 0)) then (1 : ℚ) else 0

/-- The single-pass 2D box blur (lines 459–474): each output is the
mean over the IN-BOUNDS window entries (sum and count collected by the
same nested loop). -/
def blur2D (W H r : ℕ) (m : List ℚ) : List ℚ :=
  (List.range H).flatMap fun y =>
    (List.range W).map fun x =>
      let ys := Js.rangeIncl (y - r) (min (H - 1) (y + r))
      let xs := Js.rangeIncl (x - r) (min (W - 1) (x + r))
      let sum := (ys.map fun yy => ((xs.map fun xx =>
        m.getD (yy * W + xx) 0).sum)).sum
      sum / ((ys.length * xs.length : ℕ) : ℚ)

/-- The feather stage (lines 459–474): radius `max(1, ⌊feather⌋)`,
skipped for `feather ≤ 0`. -/
def featherStage (W H : ℕ) (feather : ℚ) (m : List ℚ) : List ℚ :=
  if 0 < feather then blur2D W H (max 1 ⌊feather⌋).toNat m else m

/-- Execute the numeric core of V2 on decoded pixel data. -/
def run (M : MathFns) (W H : ℕ) (data : List ℚ) (o : Options) : List ℚ :=
  let total := W * H
  let lab := labArr M total data
  let refs := references M data W H
  let c1Lab := rgbToLab M refs.1.1 refs.1.2.1 refs.1.2.2
  let c2Lab := rgbToLab M refs.2.1 refs.2.2.1 refs.2.2.2
  let period := bestPeriod M W H lab c1Lab c2Lab o.colorTol o.tileGuess
  let grad := gradArr M W H (lumArr total data)
  let like0 := likeArr M W H lab grad c1Lab c2Lab o.colorTol o.gradKeep period
  let bfs := bfsRun W H like0
  let m0 := mask0 total bfs.like
  featherStage W H o.feather m0

/-- The final RGBA buffer (lines 475–477). -/
def outData (M : MathFns) (W H : ℕ) (data : List ℚ) (o : Options) : List ℚ :=
  let m := run M W H data o
  (List.range (4 * (W * H))).map fun i =>
    if i % 4 = 3 then
      (Js.clampByte (Js.round ((1 - m.getD (i / 4) 0) * 255)) : ℚ)
    else data.getD i 0

end V2

namespace V2

theorem range_flatMap_const_succ {α : Type} (l : List α) (n : ℕ) :
    ((List.range (n + 1)).flatMap fun _ => l) =
      l ++ ((List.range n).flatMap fun _ => l) := by
  rw [List.range_succ_eq_map, List.flatMap_cons, List.flatMap_map]

theorem range_flatMap_const_length {α : Type} (l : List α) :
    ∀ n : ℕ, ((List.range n).flatMap fun _ => l).length = n * l.length
  | 0 => by simp
  | n + 1 => by
    rw [range_flatMap_const_succ, List.length_append,
      range_flatMap_const_length l n]
    ring

theorem range_flatMap_const_get? {α : Type} (l : List α) :
    ∀ (n p c : ℕ), p < n → c < l.length →
      ((List.range n).flatMap fun _ => l).get? (l.length * p + c) = l.get? c
  | 0, p, c, hp, _ => by omega
  | n + 1, p, c, hp, hc => by
    rw [range_flatMap_const_succ]
    cases p with
    | zero =>
      rw [Nat.mul_zero, Nat.zero_add]
      exact List.get?_append hc
    | succ p =>
      have hidx : l.length ≤ l.length * (p + 1) + c := by
        have : l.length * 1 ≤ l.length * (p + 1) :=
          Nat.mul_le_mul_left _ (by omega)
        omega
      rw [List.get?_append_right hidx]
      have harith : l.length * (p + 1) + c - l.length = l.length * p + c := by
        have : l.length * (p + 1) = l.length * p + l.length := by ring
        omega
      rw [harith]
      exact range_flatMap_const_get? l n p c (by omega) hc

theorem mem_range_flatMap_const {α : Type} {l : List α} {n : ℕ} {v : α}
    (h : v ∈ (List.range n).flatMap fun _ => l) : v ∈ l := by
  obtain ⟨a, -, hv⟩ := List.mem_flatMap.mp h
  exact hv

/-- The 24×24 all-black RGBA buffer of the V1/V2 divergence instance. -/
def ce10Data : List ℚ := (List.range 576).flatMap fun _ => [0, 0, 0, 255]

/-- Options of the divergence instance: defaults except `tileGuess = 2`
(a single period candidate) and `feather = 0` (no blur stage). -/
def o10 : Options :=
  { colorTol := 10, tileGuess := 2, gradKeep := 10, feather := 0
    seedPoints := [], mode := Mode.auto }

theorem ce10_length : ce10Data.length = 4 * (24 * 24) := by
  rw [ce10Data, range_flatMap_const_length]
  rfl

theorem ce10_get? (p c : ℕ) (hp : p < 576) (hc : c < 4) :
    ce10Data.get? (4 * p + c) = ([0, 0, 0, 255] : List ℚ).get? c := by
  have hlen : ([0, 0, 0, 255] : List ℚ).length = 4 := rfl
  have h := range_flatMap_const_get? ([0, 0, 0, 255] : List ℚ) 576 p c hp
    (by rw [hlen]; omega)
  rw [hlen] at h
  exact h

theorem ce10_getD (p c : ℕ) (hp : p < 576) (hc : c < 4) :
    ce10Data.getD (4 * p + c) 0 = ([0, 0, 0, 255] : List ℚ).getD c 0 := by
  rw [List.getD_eq_getElem?_getD, List.getD_eq_getElem?_getD,
    ← List.get?_eq_getElem?, ← List.get?_eq_getElem?, ce10_get? p c hp hc]

theorem ce10_uniform : V1.UniformData 24 24 ce10Data 0 0 0 := by
  intro p hp
  refine ⟨?_, ?_, ?_⟩
  · have := ce10_getD p 0 (by omega) (by omega)
    simpa using this
  · have := ce10_getD p 1 (by omega) (by omega)
    simpa using this
  · have := ce10_getD p 2 (by omega) (by omega)
    simpa using this

theorem ce10_v1_alpha :
    (V1.outData MathFns.zero 24 24 ce10Data o10).getD 435 0 = 0 := by
  have h := (uniform_alpha_zero MathFns.zero 24 24 ce10Data 0 0 0 o10
    (by norm_num) (by norm_num) ce10_uniform rfl rfl (by norm_num [o10])
    108 (by norm_num)).2
  simpa using h

end V2

namespace V2

theorem sum_map_div (l : List ℚ) (c : ℚ) :
    (l.map fun v => v / c).sum = l.sum / c := by
  induction l with
  | nil => simp
  | cons a as ih =>
    rw [List.map_cons, List.sum_cons, List.sum_cons, ih, add_div]

/-- The single-pass 2D in-bounds box blur of V2 equals the two-pass
separable boundary-clamped box blur of V1 at equal integer radius: the
in-bounds window is the product of the clamped per-axis ranges, so the
2D count factors as the product of the per-axis counts and the 2D sum
factors through the horizontal pass. -/
theorem blur2D_eq_applyFeather (m : List ℚ) (W H r : ℕ) (hr : 1 ≤ r) :
    blur2D W H r m = V1.applyFeather m W H (r : ℤ) := by
  unfold blur2D V1.applyFeather
  rw [if_neg (by omega : ¬ (r : ℤ) ≤ 0)]
  rw [show ((r : ℤ)).toNat = r from by omega]
  apply SpecC6.flatMap_congr'
  intro y hy
  rw [List.mem_range] at hy
  apply List.map_congr_left
  intro x hx
  rw [List.mem_range] at hx
  dsimp only
  have hxle : x - r ≤ min (W - 1) (x + r) := by omega
  have hyle : y - r ≤ min (H - 1) (y + r) := by omega
  have htmp : ∀ t ∈ Js.rangeIncl (y - r) (min (H - 1) (y + r)),
      (((List.range H).flatMap fun yy =>
        (List.range W).map fun xx =>
          ((Js.rangeIncl (xx - r) (min (W - 1) (xx + r))).map fun xi =>
            m.getD (yy * W + xi) 0).sum /
            ((min (W - 1) (xx + r) - (xx - r) + 1 : ℕ) : ℚ)).getD (t * W + x) 0) =
        ((Js.rangeIncl (x - r) (min (W - 1) (x + r))).map fun xi =>
          m.getD (t * W + xi) 0).sum /
          (((Js.rangeIncl (x - r) (min (W - 1) (x + r))).length : ℕ) : ℚ) := by
    intro t ht
    obtain ⟨hlo, hhi⟩ := V1.mem_rangeIncl ht
    have htH : t < H := by omega
    have hidx : t * W + x < H * W := by
      have hA : (t + 1) * W = t * W + W := by ring
      have hB : (t + 1) * W ≤ H * W := Nat.mul_le_mul_right W (by omega)
      omega
    rw [V1.grid_getD W _ 0 H (t * W + x) hidx]
    have hdiv : (t * W + x) / W = t := (SpecEngine.idx_mod_div hx).2
    have hmod : (t * W + x) % W = x := (SpecEngine.idx_mod_div hx).1
    rw [hdiv, hmod, V1.rangeIncl_length]
    congr 2
    omega
  rw [List.map_congr_left htmp]
  rw [show (fun xi => ((Js.rangeIncl (x - r) (min (W - 1) (x + r))).map fun xx =>
    m.getD (xi * W + xx) 0).sum /
      (((Js.rangeIncl (x - r) (min (W - 1) (x + r))).length : ℕ) : ℚ)) =
    ((fun v => v / (((Js.rangeIncl (x - r) (min (W - 1) (x + r))).length : ℕ) : ℚ)) ∘
      (fun xi => ((Js.rangeIncl (x - r) (min (W - 1) (x + r))).map fun xx =>
        m.getD (xi * W + xx) 0).sum)) from rfl]
  rw [← List.map_map, sum_map_div]
  rw [V1.rangeIncl_length, V1.rangeIncl_length]
  rw [div_div]
  congr 1
  have h1 : min (H - 1) (y + r) + 1 - (y - r) =
      min (H - 1) (y + r) - (y - r) + 1 := by omega
  have h2 : min (W - 1) (x + r) + 1 - (x - r) =
      min (W - 1) (x + r) - (x - r) + 1 := by omega
  rw [h1, h2]
  push_cast
  ring

end V2

namespace V2

theorem readZ_ce10 (i : ℤ) (p c : ℕ) (hip : i = 4 * p + c) (hp : p < 576)
    (hc : c < 3) : readZ ce10Data i = some 0 := by
  unfold readZ
  rw [if_neg (by omega : ¬ i < 0)]
  have ht : i.toNat = 4 * p + c := by omega
  rw [ht, ce10_get? p c hp (by omega)]
  interval_cases c <;> rfl

theorem pickPatch_ce10 : ∀ s ∈ pickPatch ce10Data 24 0 0,
    s = (some 0, some 0, some 0) := by
  intro s hs
  unfold pickPatch at hs
  obtain ⟨dy, hdy, hs2⟩ := List.mem_flatMap.mp hs
  obtain ⟨dx, hdx, rfl⟩ := List.mem_map.mp hs2
  rw [List.mem_range] at hdy hdx
  have hp : dy * 24 + dx < 576 := by omega
  refine Prod.ext ?_ (Prod.ext ?_ ?_) <;> dsimp only
  · exact readZ_ce10 _ (dy * 24 + dx) 0 (by push_cast; ring) hp (by omega)
  · exact readZ_ce10 _ (dy * 24 + dx) 1 (by push_cast; ring) hp (by omega)
  · exact readZ_ce10 _ (dy * 24 + dx) 2 (by push_cast; ring) hp (by omega)

theorem cornerSamples_ce10 : ∀ s ∈ cornerSamples ce10Data 24 24,
    s = (some 0, some 0, some 0) := by
  have hc : cornerSamples ce10Data 24 24 =
      pickPatch ce10Data 24 0 0 ++ pickPatch ce10Data 24 0 0 ++
        pickPatch ce10Data 24 0 0 ++ pickPatch ce10Data 24 0 0 := by
    unfold cornerSamples
    norm_num
  intro s hs
  rw [hc] at hs
  rcases List.mem_append.mp hs with h1 | h1
  · rcases List.mem_append.mp h1 with h2 | h2
    · rcases List.mem_append.mp h2 with h3 | h3
      · exact pickPatch_ce10 s h3
      · exact pickPatch_ce10 s h3
    · exact pickPatch_ce10 s h2
  · exact pickPatch_ce10 s h1

theorem sortAsc_replicate (q : ℚ) : ∀ n, Js.sortAsc (List.replicate n q) =
    List.replicate n q
  | 0 => rfl
  | n + 1 => by
    rw [List.replicate_succ]
    unfold Js.sortAsc
    rw [List.foldr_cons]
    have ih : List.foldr Js.insertSorted [] (List.replicate n q) =
        List.replicate n q := sortAsc_replicate q n
    rw [ih]
    cases n with
    | zero => rfl
    | succ k =>
      rw [List.replicate_succ]
      unfold Js.insertSorted
      rw [if_pos (le_refl q), ← List.replicate_succ, ← List.replicate_succ]

theorem filterMap_id_const (q : ℚ) : ∀ (l : List JsNum),
    (∀ x ∈ l, x = some q) → l.filterMap id = List.replicate l.length q
  | [], _ => rfl
  | a :: as, h => by
    have ha : a = some q := h a (List.mem_cons_self _ _)
    subst ha
    rw [List.filterMap_cons, List.length_cons, List.replicate_succ]
    have := filterMap_id_const q as (fun x hx => h x (List.mem_cons_of_mem _ hx))
    simp only [id]
    rw [this]

theorem sortJs_const {q : ℚ} {l : List JsNum} (h : ∀ x ∈ l, x = some q) :
    sortJs l = List.replicate l.length (some q) := by
  unfold sortJs
  rw [filterMap_id_const q l h]
  dsimp only
  rw [sortAsc_replicate, List.length_replicate, Nat.sub_self,
    List.map_replicate]
  simp

end V2

namespace V2

theorem cornerSamples_ce10_eq : cornerSamples ce10Data 24 24 =
    pickPatch ce10Data 24 0 0 ++ pickPatch ce10Data 24 0 0 ++
      pickPatch ce10Data 24 0 0 ++ pickPatch ce10Data 24 0 0 := by
  unfold cornerSamples
  norm_num

/-- The corner-sample list of the divergence instance. -/
def ce10C : List (JsNum × JsNum × JsNum) := cornerSamples ce10Data 24 24

/-- Its Lab `L` values. -/
def ce10L : List JsNum :=
  ce10C.map fun s => (rgbToLab MathFns.zero s.1 s.2.1 s.2.2).1

/-- The median `L`. -/
def ce10Med : JsNum := (sortJs ce10L).getD ((sortJs ce10L).length / 2) none

set_option maxRecDepth 100000 in
unseal Rat.add Rat.mul Rat.inv Rat.sub Rat.ofScientific in
theorem labBlack_isSome :
    ((rgbToLab MathFns.zero (some 0) (some 0) (some 0)).1).isSome = true := by
  decide

theorem ce10L_const : ∀ x ∈ ce10L,
    x = (rgbToLab MathFns.zero (some 0) (some 0) (some 0)).1 := by
  intro x hx
  obtain ⟨s, hsm, rfl⟩ := List.mem_map.mp hx
  rw [cornerSamples_ce10 s hsm]

theorem ce10C_length_pos : 0 < ce10C.length := by
  have h1 : (pickPatch ce10Data 24 0 0).length = 24 * 24 :=
    V1.length_grid 24 24 _
  have hc : ce10C = pickPatch ce10Data 24 0 0 ++ pickPatch ce10Data 24 0 0 ++
      pickPatch ce10Data 24 0 0 ++ pickPatch ce10Data 24 0 0 :=
    cornerSamples_ce10_eq
  rw [hc]
  simp only [List.length_append]
  omega

theorem ce10Med_eq :
    ce10Med = (rgbToLab MathFns.zero (some 0) (some 0) (some 0)).1 := by
  obtain ⟨q, hq⟩ := Option.isSome_iff_exists.mp labBlack_isSome
  have hconst : ∀ x ∈ ce10L, x = some q := fun x hx => by
    rw [ce10L_const x hx, hq]
  have hlen : 0 < ce10L.length := by
    unfold ce10L
    rw [List.length_map]
    exact ce10C_length_pos
  unfold ce10Med
  rw [sortJs_const hconst, List.length_replicate]
  have hidx : ce10L.length / 2 < ce10L.length := Nat.div_lt_self hlen (by norm_num)
  rw [List.getD_eq_getElem _ _ (by simpa using hidx)]
  rw [hq]
  simp

set_option maxRecDepth 100000 in
theorem references_ce10_dark :
    (references MathFns.zero ce10Data 24 24).2 = (none, none, none) := by
  have href : (references MathFns.zero ce10Data 24 24).2 =
      medianColor (((ce10C.zip ce10L).filter
        fun sc => ! jle ce10Med sc.2).map (·.1)) := rfl
  rw [href]
  have hdark : ((ce10C.zip ce10L).filter fun sc => ! jle ce10Med sc.2) = [] := by
    rw [List.filter_eq_nil]
    intro sc hsc
    have h2 : sc.2 ∈ ce10L := (List.of_mem_zip hsc).2
    have hval := ce10L_const sc.2 h2
    obtain ⟨q, hq⟩ := Option.isSome_iff_exists.mp labBlack_isSome
    simp only [Bool.not_eq_true, Bool.not_eq_false]
    rw [ce10Med_eq, hval, hq]
    simp [jle]
  rw [hdark]
  rfl

end V2

namespace V2

theorem jsub_none_right (x : JsNum) : jsub x none = none := by
  cases x <;> rfl

theorem jmin_none_right (x : JsNum) : jmin x none = none := by
  cases x <;> rfl

theorem rgbToLab_none (M : MathFns) :
    rgbToLab M none none none = (none, none, none) := rfl

theorem distLab_none_right (M : MathFns) (l : JsNum × JsNum × JsNum) :
    distLab M l (none, none, none) = none := by
  unfold distLab
  dsimp only
  rw [jsub_none_right, jsub_none_right, jsub_none_right]
  rfl

theorem scorePeriod_none (M : MathFns) (W H : ℕ)
    (lab : List (JsNum × JsNum × JsNum)) (c1Lab : JsNum × JsNum × JsNum)
    (colorTol period : ℚ) :
    scorePeriod M W H lab c1Lab (none, none, none) colorTol period = 0 := by
  unfold scorePeriod
  rw [List.count_eq_zero]
  intro hmem
  rw [List.mem_flatMap] at hmem
  obtain ⟨y, hy, hmem2⟩ := hmem
  rw [List.mem_map] at hmem2
  obtain ⟨x, hx, heq⟩ := hmem2
  dsimp only at heq
  rw [distLab_none_right, jmin_none_right] at heq
  rw [show jlt none (some colorTol) = false from rfl, Bool.false_and] at heq
  exact Bool.false_ne_true heq

theorem periodCandidates_two : V1.periodCandidates 2 = [8] := by
  unfold V1.periodCandidates
  norm_num
  rw [List.range_succ, List.range_zero]
  norm_num

theorem bestPeriod_none_tg2 (M : MathFns) (W H : ℕ)
    (lab : List (JsNum × JsNum × JsNum)) (c1Lab : JsNum × JsNum × JsNum)
    (colorTol : ℚ) :
    bestPeriod M W H lab c1Lab (none, none, none) colorTol 2 = 8 := by
  unfold bestPeriod
  rw [periodCandidates_two, List.foldl_cons, List.foldl_nil]
  dsimp only
  rw [scorePeriod_none]
  norm_num

theorem parity_12_4_8 : V1.parity 12 4 8 = 1 := by
  unfold V1.parity
  norm_num

theorem likeArr_none_108 (M : MathFns) (lab : List (JsNum × JsNum × JsNum))
    (grad : List JsNum) (c1Lab : JsNum × JsNum × JsNum)
    (colorTol gradKeep : ℚ) :
    (likeArr M 24 24 lab grad c1Lab (none, none, none) colorTol gradKeep 8).getD
      108 (some 0) = none := by
  unfold likeArr
  rw [V1.grid_getD 24 _ (some 0) 24 108 (by norm_num)]
  rw [show (108 : ℕ) / 24 = 4 from rfl, show (108 : ℕ) % 24 = 12 from rfl]
  dsimp only
  rw [if_pos parity_12_4_8]
  rw [distLab_none_right]
  split <;> rfl

end V2

namespace V2

theorem foldl_pres_mem {α β : Type} {P : β → Prop} (l : List α)
    (f : β → α → β) (hf : ∀ b a, a ∈ l → P b → P (f b a)) :
    ∀ b, P b → P (l.foldl f b) := by
  induction l with
  | nil => intro b h; exact h
  | cons hd tl ih =>
    intro b h
    exact ih (fun s a ha hs => hf s a (List.mem_cons_of_mem hd ha) hs)
      (f b hd) (hf b hd (List.mem_cons_self hd tl) h)

/-- Pixel 108 = (12, 4) of the 24x24 counterexample: its likelihood
stays NaN and it never enters the queue. -/
def Inv108 (st : BfsState) : Prop :=
  st.like.getD 108 (some 0) = none ∧ ∀ e ∈ st.queue, e.2 * 24 + e.1 ≠ 108

theorem enqueue_like_eq (W : ℕ) (st : BfsState) (x y : ℕ) :
    (enqueue W st x y).like = st.like := by
  unfold enqueue
  dsimp only
  split <;> rfl

theorem enqueue_queue_sub (W : ℕ) (st : BfsState) (x y : ℕ) :
    ∀ e ∈ (enqueue W st x y).queue, e ∈ st.queue ∨ e = (x, y) := by
  intro e he
  unfold enqueue at he
  dsimp only at he
  split at he
  · exact Or.inl he
  · rcases List.mem_append.mp he with h | h
    · exact Or.inl h
    · exact Or.inr (List.mem_singleton.mp h)

theorem enqueue_inv108 (st : BfsState) (x y : ℕ) (h : Inv108 st)
    (hxy : y * 24 + x ≠ 108) : Inv108 (enqueue 24 st x y) := by
  constructor
  · rw [enqueue_like_eq]
    exact h.1
  · intro e he
    rcases enqueue_queue_sub 24 st x y e he with h2 | h2
    · exact h.2 e h2
    · rw [h2]
      exact hxy

theorem seedBorder_inv108 (st : BfsState) (h : Inv108 st) :
    Inv108 (seedBorder 24 24 st) := by
  unfold seedBorder
  dsimp only
  apply foldl_pres_mem (P := Inv108) (List.range 24) _ ?_ _ ?_
  · intro s y hy hs
    try dsimp only
    split
    · have hf : Inv108 (enqueue 24 s 0 y) := enqueue_inv108 s 0 y hs (by omega)
      split
      · exact enqueue_inv108 _ _ _ hf (by omega)
      · exact hf
    · split
      · exact enqueue_inv108 _ _ _ hs (by omega)
      · exact hs
  · apply foldl_pres_mem (P := Inv108) (List.range 24) _ ?_ _ h
    intro s x hx hs
    have hxlt : x < 24 := List.mem_range.mp hx
    try dsimp only
    split
    · have hf : Inv108 (enqueue 24 s x 0) := enqueue_inv108 s x 0 hs (by omega)
      split
      · exact enqueue_inv108 _ _ _ hf (by omega)
      · exact hf
    · split
      · exact enqueue_inv108 _ _ _ hs (by omega)
      · exact hs

theorem bfsPop_inv108 (st : BfsState) (x y : ℕ) (rest : List (ℕ × ℕ))
    (h : Inv108 st) (hq : st.queue = (x, y) :: rest) :
    Inv108 (bfsPop 24 24 st x y rest) := by
  have hxy : y * 24 + x ≠ 108 := h.2 (x, y) (hq ▸ (List.mem_cons_self _ _))
  unfold bfsPop
  dsimp only
  apply foldl_pres_mem (P := Inv108) V1.neighbours _ ?_ _ ?_
  · intro s d hd hs
    try dsimp only
    split
    · exact hs
    · split
      · next hcond =>
        by_cases hn : ((y : ℤ) + d.2).toNat * 24 + ((x : ℤ) + d.1).toNat = 108
        · exfalso
          rw [hn, hs.1] at hcond
          exact Bool.false_ne_true hcond.2
        · exact enqueue_inv108 _ _ _ hs hn
      · exact hs
  · constructor
    · dsimp only
      rw [V1.getD_set_ne hxy]
      exact h.1
    · intro e he
      exact h.2 e (hq ▸ List.mem_cons_of_mem _ he)

theorem bfsLoop_inv108 (fuel : ℕ) :
    ∀ st, Inv108 st → Inv108 (bfsLoop 24 24 fuel st) := by
  induction fuel with
  | zero => intro st h; exact h
  | succ n ih =>
    intro st h
    cases hq : st.queue with
    | nil =>
      unfold bfsLoop
      rw [hq]
      exact h
    | cons e rest =>
      obtain ⟨x, y⟩ := e
      unfold bfsLoop
      rw [hq]
      exact ih _ (bfsPop_inv108 st x y rest h hq)

theorem bfsRun_inv108 (like0 : List JsNum) (h : like0.getD 108 (some 0) = none) :
    (bfsRun 24 24 like0).like.getD 108 (some 0) = none := by
  unfold bfsRun
  refine (bfsLoop_inv108 (24 * 24) _ (seedBorder_inv108 _ ?_)).1
  exact ⟨h, fun e he => absurd he (List.not_mem_nil e)⟩

end V2

namespace V2

theorem ce10_c2Lab :
    rgbToLab MathFns.zero (references MathFns.zero ce10Data 24 24).2.1
      (references MathFns.zero ce10Data 24 24).2.2.1
      (references MathFns.zero ce10Data 24 24).2.2.2 = (none, none, none) := by
  rw [references_ce10_dark]
  rfl

set_option maxRecDepth 100000 in
theorem ce10_run_eq : run MathFns.zero 24 24 ce10Data o10 =
    featherStage 24 24 o10.feather (mask0 (24 * 24)
      (bfsRun 24 24 (likeArr MathFns.zero 24 24
        (labArr MathFns.zero (24 * 24) ce10Data)
        (gradArr MathFns.zero 24 24 (lumArr (24 * 24) ce10Data))
        (rgbToLab MathFns.zero (references MathFns.zero ce10Data 24 24).1.1
          (references MathFns.zero ce10Data 24 24).1.2.1
          (references MathFns.zero ce10Data 24 24).1.2.2)
        (rgbToLab MathFns.zero (references MathFns.zero ce10Data 24 24).2.1
          (references MathFns.zero ce10Data 24 24).2.2.1
          (references MathFns.zero ce10Data 24 24).2.2.2)
        o10.colorTol o10.gradKeep
        (bestPeriod MathFns.zero 24 24 (labArr MathFns.zero (24 * 24) ce10Data)
          (rgbToLab MathFns.zero (references MathFns.zero ce10Data 24 24).1.1
            (references MathFns.zero ce10Data 24 24).1.2.1
            (references MathFns.zero ce10Data 24 24).1.2.2)
          (rgbToLab MathFns.zero (references MathFns.zero ce10Data 24 24).2.1
            (references MathFns.zero ce10Data 24 24).2.2.1
            (references MathFns.zero ce10Data 24 24).2.2.2)
          o10.colorTol o10.tileGuess))).like) := rfl

theorem ce10_run_108 : (run MathFns.zero 24 24 ce10Data o10).getD 108 0 = 0 := by
  rw [ce10_run_eq, ce10_c2Lab]
  rw [show o10.colorTol = 10 from rfl, show o10.gradKeep = 10 from rfl,
    show o10.tileGuess = 2 from rfl, show o10.feather = 0 from rfl]
  rw [bestPeriod_none_tg2]
  have hlike := likeArr_none_108 MathFns.zero
    (labArr MathFns.zero (24 * 24) ce10Data)
    (gradArr MathFns.zero 24 24 (lumArr (24 * 24) ce10Data))
    (rgbToLab MathFns.zero (references MathFns.zero ce10Data 24 24).1.1
      (references MathFns.zero ce10Data 24 24).1.2.1
      (references MathFns.zero ce10Data 24 24).1.2.2) 10 10
  have hbfs := bfsRun_inv108 _ hlike
  unfold featherStage
  rw [if_neg (lt_irrefl (0 : ℚ))]
  unfold mask0
  rw [V1.range_map_getD _ 0 (show (108 : ℕ) < 24 * 24 by norm_num)]
  rw [hbfs]
  rfl

theorem ce10_v2_alpha :
    (outData MathFns.zero 24 24 ce10Data o10).getD 435 0 = 255 := by
  unfold outData
  dsimp only
  rw [V1.range_map_getD _ 0 (show (435 : ℕ) < 4 * (24 * 24) by norm_num)]
  rw [if_pos (show (435 : ℕ) % 4 = 3 from rfl)]
  rw [show (435 : ℕ) / 4 = 108 from rfl]
  rw [ce10_run_108]
  rw [show ((1 : ℚ) - 0) * 255 = 255 by norm_num]
  rw [show Js.round (255 : ℚ) = 255 by norm_num [Js.round]]
  rw [show Js.clampByte 255 = 255 from rfl]
  norm_num

end V2

/-- The literal reading of the claim: on every decoded buffer of byte
values sized to the canvas and every options record, under a coherent
host-math model with `hypot = sqrt` of the sum of squares and
`sqrt 0 = 0`, and a nonzero `colorTol`, the two implementations produce
identical output buffers. -/
def C10Claim : Prop :=
  ∀ (M : MathFns) (W H : ℕ) (data : List ℚ) (o : Options),
    (∀ a b c, M.hypot3 a b c = M.sqrt (a * a + b * b + c * c)) →
    (∀ a b, M.hypot2 a b = M.sqrt (a * a + b * b)) →
    M.sqrt 0 = 0 →
    o.colorTol ≠ 0 →
    data.length = 4 * (W * H) →
    (∀ v ∈ data, 0 ≤ v ∧ v ≤ 255) →
    V1.outData M W H data o = V2.outData M W H data o

/-- C10 counterexample: the two implementations do NOT always agree.
On a 24x24 all-black opaque image with `tileGuess = 2` and
`feather = 0`, the older appended version's median light/dark split has
no empty-side fallback: the dark sample set is empty, its median color
is `undefined`, the resulting NaN Lab reference poisons the likelihood
of every parity-1 pixel, so pixel (12, 4) gets mask 0 and alpha 255,
while the refactored version (whose split keeps a fallback to the full
corner sample set) gives mask 1 and alpha 0 there. -/
theorem v1_v2_identical_alpha_counterexample : ¬ C10Claim := by
  intro h
  have he := h MathFns.zero 24 24 V2.ce10Data V2.o10
    (fun _ _ _ => rfl) (fun _ _ => rfl) rfl
    (show V2.o10.colorTol ≠ 0 by
      rw [show V2.o10.colorTol = 10 from rfl]; norm_num)
    V2.ce10_length
    (fun v hv => by
      have hm := V2.mem_range_flatMap_const hv
      simp only [List.mem_cons, List.not_mem_nil, or_false] at hm
      rcases hm with h0 | h0 | h0 | h0 <;> rw [h0] <;> norm_num)
  have h435 := congrArg (fun l => l.getD 435 0) he
  dsimp only at h435
  rw [V2.ce10_v1_alpha, V2.ce10_v2_alpha] at h435
  norm_num at h435

/-- C10, amended: the blur stages of the two implementations do agree —
the older appended version's single-pass 2D in-bounds box blur at any
integer radius `r ≥ 1` equals the refactored version's two-pass
separable boundary-clamped box blur at the same radius — but the final
alpha channels are NOT always identical: on the 24x24 all-black opaque
image with `tileGuess = 2` and `feather = 0`, the refactored version
writes alpha 0 at pixel (12, 4) (byte offset 435) while the older
version writes alpha 255 there, because the older median light/dark
split has no fallback for an empty dark side and the resulting NaN
reference poisons every parity-1 likelihood. -/
theorem v1_v2_identical_alpha_amended :
    (∀ (m : List ℚ) (W H r : ℕ), 1 ≤ r →
      V2.blur2D W H r m = V1.applyFeather m W H (r : ℤ)) ∧
    (V1.outData MathFns.zero 24 24 V2.ce10Data V2.o10).getD 435 0 = 0 ∧
    (V2.outData MathFns.zero 24 24 V2.ce10Data V2.o10).getD 435 0 = 255 :=
  ⟨fun m W H r hr => V2.blur2D_eq_applyFeather m W H r hr,
    V2.ce10_v1_alpha, V2.ce10_v2_alpha⟩

theorem v1_v2_identical_alpha_amended_witness :
    V2.blur2D 1 1 1 [1] = V1.applyFeather [1] 1 1 ((1 : ℕ) : ℤ) :=
  v1_v2_identical_alpha_amended.1 [1] 1 1 1 (le_refl 1)
